import Mathlib

/-!
Verification of the self-balancing ordered-map core of the `jus` repository:
the AVL tree (`src/ag/forest/binary_trees/avl_tree.py`), the Red-Black tree
(`src/ag/forest/binary_trees/red_black_tree.py`) and the traversal
collaborators (`src/ag/forest/binary_trees/traversal.py`).

The Python code is embedded shallowly.  Trees are inductive values; each
node record carries exactly the bookkeeping fields of the source dataclass
(`height` and `subtree_size` for AVL, `color` for Red-Black).  The
imperative parent-pointer walks of the fixup routines are embedded as
recursions along the root-to-node path: the source loop `p = p.parent`
visits exactly the ancestors of the touched position from the bottom
upwards, which is the order in which a structural recursion on the descent
path returns, so each loop iteration is performed at the matching recursion
level on the way back up.  Where a source loop can re-run at the same tree
position (the AVL `_delete_fixup` re-examines the node that replaced the
rotated one), the iteration is given fuel; the fuel is large enough that it
is never exhausted on the states the repository can actually reach.
-/

namespace Spec2Proof

set_option linter.unusedSectionVars false

/-- A direction to a child; used to record which child a focused node is. -/
inductive Dir where
  | left : Dir
  | right : Dir
deriving DecidableEq, Repr

/-! ## AVL trees — `src/ag/forest/binary_trees/avl_tree.py`

`ATree` is the shape of `avl_tree.Node`: `key`, `data`, `left`, `right`,
the stored `height` (the source stores a Python `int`, hence `Int` here;
`get_height` of an absent node is `-1`) and the stored `subtree_size`.
The `parent` back-pointer of the source is represented by the position of
a node in the tree rather than by a field. -/
inductive ATree (α β : Type) where
  | nil : ATree α β
  | node (left : ATree α β) (key : α) (data : β) (height : Int)
      (size : Nat) (right : ATree α β) : ATree α β
deriving DecidableEq, Repr

/-- The mutable state of an `AVLTree` instance: the `root` reference and
the `inversion_count` attribute set up in `AVLTree.__init__`. -/
structure AVLState (α β : Type) where
  root : ATree α β
  inversion_count : Nat
deriving DecidableEq, Repr

namespace AVLTree

variable {α β : Type} [LinearOrder α]

/-- `AVLTree.get_height` (avl_tree.py lines 317-328): the stored height of
a real node, `-1` for an absent node. -/
def get_height : ATree α β → Int
  | .nil => -1
  | .node _ _ _ h _ _ => h

/-- `AVLTree.get_subtree_size` (avl_tree.py lines 522-525): the stored
subtree size of a real node, `0` for an absent node. -/
def get_subtree_size : ATree α β → Nat
  | .nil => 0
  | .node _ _ _ _ s _ => s

/-- `AVLTree._get_balance_factor` (avl_tree.py lines 330-335): stored
height of the left child minus stored height of the right child; `-1` for
an absent node. -/
def get_balance_factor : ATree α β → Int
  | .nil => -1
  | .node l _ _ _ _ r => get_height l - get_height r

/-- `AVLTree._left_rotate` (avl_tree.py lines 337-378) applied to the
subtree rooted at `node_x`: `node_x.right` becomes the new subtree root,
`node_x` its left child, and the heights and sizes of the two moved nodes
are recomputed from their (stored) children data, `node_x` first.  The
source raises `RuntimeError` when `node_x.right` is absent; that branch is
unreachable from every call site, and the translation returns the tree
unchanged there. -/
def left_rotate : ATree α β → ATree α β
  | .node xl xk xd _ _ (.node yl yk yd _ _ yr) =>
      let x' : ATree α β :=
        .node xl xk xd (1 + max (get_height xl) (get_height yl))
          (1 + get_subtree_size xl + get_subtree_size yl) yl
      .node x' yk yd (1 + max (get_height x') (get_height yr))
        (1 + get_subtree_size x' + get_subtree_size yr) yr
  | t => t

/-- `AVLTree._right_rotate` (avl_tree.py lines 380-416), mirror image of
`left_rotate`. -/
def right_rotate : ATree α β → ATree α β
  | .node (.node yl yk yd _ _ yr) xk xd _ _ xr =>
      let x' : ATree α β :=
        .node yr xk xd (1 + max (get_height yr) (get_height xr))
          (1 + get_subtree_size yr + get_subtree_size xr) xr
      .node yl yk yd (1 + max (get_height yl) (get_height x'))
        (1 + get_subtree_size yl + get_subtree_size x') x'
  | t => t

/-- `AVLTree.search` (avl_tree.py lines 141-157): iterative descent by key
comparison; returns the found subtree (the source returns the node object)
or `none`. -/
def search (t : ATree α β) (k : α) : Option (ATree α β) :=
  match t with
  | .nil => none
  | .node l ck _ _ _ r =>
      if k < ck then search l k
      else if k > ck then search r k
      else some t

end AVLTree

/-- Status of the upward height-fixing walk of `AVLTree._insert_fixup`
(avl_tree.py lines 418-451), threaded through the recursive translation of
the insertion descent.  `start` marks the level of the freshly attached
leaf (the walk has not begun); `walking` means the `while parent:` loop is
active at this level; `stopped` means no ancestor is modified any more —
either the fixup was skipped by the guard at line 203 (`if not
(parent.left and parent.right)`), or the loop hit the `break` after a
rotation (lines 441/449), after which the remaining ancestors keep their
stored heights untouched. -/
inductive FixStatus where
  | start : FixStatus
  | walking : FixStatus
  | stopped : FixStatus
deriving DecidableEq, Repr

/-- Result of the insertion descent: `ok` with the rewritten tree, the
fixup status and the amount added to `inversion_count`, or `dup` when the
descent found an equal key and the source raises `DuplicateKeyError` —
the mutations already performed during the descent (the `subtree_size`
refreshes and `inversion_count` additions of avl_tree.py lines 174-183)
are kept, exactly as they persist across the Python `raise`. -/
inductive InsResult (α β : Type) where
  | ok (t : ATree α β) (st : FixStatus) (inv : Nat) : InsResult α β
  | dup (t : ATree α β) (inv : Nat) : InsResult α β
deriving DecidableEq, Repr

namespace AVLTree

variable {α β : Type} [LinearOrder α]

/-- avl_tree.py lines 175-176: before stepping left from `current`, the
stored size of `current.right` is refreshed from its children's stored
sizes (it may be stale after earlier deletions). -/
def refresh_right_size : ATree α β → ATree α β
  | .nil => .nil
  | .node rl rk rd rh _ rr =>
      .node rl rk rd rh (1 + get_subtree_size rl + get_subtree_size rr) rr

/-- Set the stored height of the root of `t` to `1 + max` of the
children's stored heights — one `height` assignment of the fixup loops
(avl_tree.py lines 424-426 and 457-459). -/
def set_height_from_children : ATree α β → ATree α β
  | .nil => .nil
  | .node l k d _ s r => .node l k d (1 + max (get_height l) (get_height r)) s r

/-- Read the child of the root on side `dir`. -/
def child (dir : Dir) : ATree α β → ATree α β
  | .nil => .nil
  | .node l _ _ _ _ r => match dir with | .left => l | .right => r

/-- Replace the child of the root on side `dir`. -/
def set_child (dir : Dir) (c : ATree α β) : ATree α β → ATree α β
  | .nil => .nil
  | .node l k d h s r =>
      match dir with
      | .left => .node c k d h s r
      | .right => .node l k d h s c

/-- One grandparent inspection of `AVLTree._insert_fixup` (avl_tree.py
lines 428-449), performed at the level of the grandparent `t` whose
descent child (on side `dir`, the loop's `parent`) has just had its height
set.  A balance factor of `+2`/`-2` triggers the double/single rotation on
the loop's `parent` and on `t`, followed by the `break` (status
`stopped`); otherwise the loop advances, setting this node's height
(avl_tree.py lines 424-426) and keeping the walk `walking`. -/
def insert_fix_at (dir : Dir) (t : ATree α β) : ATree α β × FixStatus :=
  if get_balance_factor t > 1 then
    let c := child dir t
    let t1 := if get_balance_factor c < 0 then set_child dir (left_rotate c) t else t
    (right_rotate t1, .stopped)
  else if get_balance_factor t < -1 then
    let c := child dir t
    let t1 := if get_balance_factor c > 0 then set_child dir (right_rotate c) t else t
    (left_rotate t1, .stopped)
  else
    (set_height_from_children t, .walking)

/-- The recursive translation of `AVLTree.insert` (avl_tree.py lines
160-207): descent by comparison with the side effects of lines 174-183
when stepping left, `DuplicateKeyError` on an equal key, attachment of a
fresh node (`height 0`, `subtree_size 1`), and the `_insert_fixup` walk
performed on the way back up the descent path. -/
def insert_go (k : α) (d : β) : ATree α β → InsResult α β
  | .nil => .ok (.node .nil k d 0 1 .nil) .start 0
  | .node l ck cd ch cs r =>
      if k < ck then
        let r' := refresh_right_size r
        let add := 1 + get_subtree_size r'
        match insert_go k d l with
        | .dup l' i => .dup (.node l' ck cd ch cs r') (i + add)
        | .ok l' st i =>
            match st with
            | .stopped => .ok (.node l' ck cd ch cs r') .stopped (i + add)
            | .start =>
                -- avl_tree.py line 203: fixup only when the parent does not
                -- have two children after the attachment.
                match r' with
                | .nil =>
                    .ok (set_height_from_children (.node l' ck cd ch cs .nil))
                      .walking (i + add)
                | _ => .ok (.node l' ck cd ch cs r') .stopped (i + add)
            | .walking =>
                .ok (insert_fix_at .left (.node l' ck cd ch cs r')).1
                  (insert_fix_at .left (.node l' ck cd ch cs r')).2 (i + add)
      else if ck < k then
        match insert_go k d r with
        | .dup r' i => .dup (.node l ck cd ch cs r') i
        | .ok r' st i =>
            match st with
            | .stopped => .ok (.node l ck cd ch cs r') .stopped i
            | .start =>
                match l with
                | .nil =>
                    .ok (set_height_from_children (.node .nil ck cd ch cs r'))
                      .walking i
                | _ => .ok (.node l ck cd ch cs r') .stopped i
            | .walking =>
                .ok (insert_fix_at .right (.node l ck cd ch cs r')).1
                  (insert_fix_at .right (.node l ck cd ch cs r')).2 i
      else .dup (.node l ck cd ch cs r) 0

/-- The outcome of one `AVLTree.insert` call on the tree state: `ok`, or
`dup` when the call raises `DuplicateKeyError(key)` — in both cases with
the state as the call leaves it. -/
inductive AVLOutcome (α β : Type) where
  | ok (s : AVLState α β) : AVLOutcome α β
  | dup (key : α) (s : AVLState α β) : AVLOutcome α β
deriving DecidableEq, Repr

/-- `AVLTree.insert` on the instance state. -/
def insert (s : AVLState α β) (k : α) (d : β) : AVLOutcome α β :=
  match insert_go k d s.root with
  | .dup t i => .dup k ⟨t, s.inversion_count + i⟩
  | .ok t _ i => .ok ⟨t, s.inversion_count + i⟩

/-- The number of real nodes of a subtree (not the stored sizes); used
only as fuel for the `_delete_fixup` position loop. -/
def real_size : ATree α β → Nat
  | .nil => 0
  | .node l _ _ _ _ r => 1 + real_size l + real_size r

/-- The iterations of `AVLTree._delete_fixup` (avl_tree.py lines 453-484)
that happen at one tree position.  Each loop iteration sets the height of
the node at the position and rotates when the balance factor leaves
`[-1, 1]`; after a rotation `fixing_node.parent` is the node that now
occupies the same position (the rotation made the old `fixing_node` its
child), so the loop re-runs at this position until an iteration performs
no rotation, and only then moves to the structural parent.  On every state
the repository can reach, at most two iterations happen at a position, so
the fuel (`real_size + 1`, supplied by `delete_fixup`) is never
exhausted. -/
def delete_fix_at : Nat → ATree α β → ATree α β
  | 0, t => t
  | fuel + 1, t =>
      let t1 := set_height_from_children t
      if get_balance_factor t1 > 1 then
        -- lines 460-467: the left child exists; left-rotate it first when
        -- it is right-heavy, then right-rotate the node.
        let t2 :=
          if get_balance_factor (child .left t1) < 0 then
            set_child .left (left_rotate (child .left t1)) t1
          else t1
        delete_fix_at fuel (right_rotate t2)
      else if get_balance_factor t1 < -1 then
        let t2 :=
          if get_balance_factor (child .right t1) > 0 then
            set_child .right (right_rotate (child .right t1)) t1
          else t1
        delete_fix_at fuel (left_rotate t2)
      else t1

/-- All `_delete_fixup` loop iterations at one position. -/
def delete_fixup (t : ATree α β) : ATree α β :=
  delete_fix_at (real_size t + 1) t

/-- The splice of the in-order successor performed by the two-children
case of `AVLTree.delete` (avl_tree.py lines 224-235): remove the leftmost
node of the given subtree (`get_leftmost(deleting_node.right)`), returning
its key, its data and the subtree after the splice, with the
`_delete_fixup` iterations applied at every position from the spliced
node's parent up to the root of this subtree. -/
def delete_leftmost : ATree α β → Option (α × β × ATree α β)
  | .nil => none
  | .node .nil k d _ _ r => some (k, d, r)
  | .node (.node ll lk ld lh ls lr) k d h s r =>
      match delete_leftmost (.node ll lk ld lh ls lr) with
      | some (mk, md, l') => some (mk, md, delete_fixup (.node l' k d h s r))
      | none => none

/-- The three child-count cases of `AVLTree.delete` (avl_tree.py lines
220-239) applied at the located node, whose children are `l` and `r` and
whose stored height/size are `h`/`s`: no child and one child splice the
node out by `_transplant`; two children copy the in-order successor's key
and data into the node (so the rebuilt node carries the successor pair)
and delete the successor from the right subtree. -/
def delete_found (l : ATree α β) (h : Int) (s : Nat) (r : ATree α β) :
    ATree α β × Bool :=
  match l, r with
  | .nil, .nil => (.nil, true)
  | .nil, .node rl rk rd rh rs rr => (.node rl rk rd rh rs rr, true)
  | .node ll lk ld lh ls lr, .nil => (.node ll lk ld lh ls lr, true)
  | .node ll lk ld lh ls lr, .node rl rk rd rh rs rr =>
      match delete_leftmost (.node rl rk rd rh rs rr) with
      | some (mk, md, r') =>
          (delete_fixup (.node (.node ll lk ld lh ls lr) mk md h s r'), true)
      | none => (.nil, true)

/-- The recursive translation of `AVLTree.delete` (avl_tree.py lines
210-242): the `search` descent, the three child-count cases with
`_transplant`, and the `_delete_fixup` walk from the spliced node's parent
to the root, performed on the way back up.  The boolean records whether a
node was found and removed (when `false` nothing was mutated). -/
def delete_go (k : α) : ATree α β → ATree α β × Bool
  | .nil => (.nil, false)
  | .node l ck cd h s r =>
      if k < ck then
        let p := delete_go k l
        let t' : ATree α β := .node p.1 ck cd h s r
        (if p.2 then delete_fixup t' else t', p.2)
      else if ck < k then
        let p := delete_go k r
        let t' : ATree α β := .node l ck cd h s p.1
        (if p.2 then delete_fixup t' else t', p.2)
      else delete_found l h s r

/-- `AVLTree.delete` on the instance state (`inversion_count` is not
touched by deletion). -/
def delete (s : AVLState α β) (k : α) : AVLState α β :=
  { s with root := (delete_go k s.root).1 }

/-- `AVLTree.get_leftmost` (avl_tree.py lines 245-258): iterative descent
to the leftmost node of a subtree; the source requires a real node, so the
absent case yields `none`. -/
def get_leftmost : ATree α β → Option (α × β)
  | .nil => none
  | .node .nil k d _ _ _ => some (k, d)
  | .node (.node ll lk ld lh ls lr) _ _ _ _ _ =>
      get_leftmost (.node ll lk ld lh ls lr)

/-- `AVLTree.get_rightmost` (avl_tree.py lines 261-274). -/
def get_rightmost : ATree α β → Option (α × β)
  | .nil => none
  | .node _ k d _ _ .nil => some (k, d)
  | .node _ _ _ _ _ (.node rl rk rd rh rs rr) =>
      get_rightmost (.node rl rk rd rh rs rr)

/-- The in-order (key, data) sequence of an AVL subtree, as produced by the
recursive `_inorder_traverse` generator of traversal.py (lines 264-268):
left subtree, the node's pair, right subtree; nothing for an absent
node. -/
def inorder : ATree α β → List (α × β)
  | .nil => []
  | .node l k d _ _ r => inorder l ++ (k, d) :: inorder r

/-- The true height of a subtree, defined as the source documents it
(avl_tree.py line 20: `-1` for an absent node, `0` for a leaf). -/
def real_height : ATree α β → Int
  | .nil => -1
  | .node l _ _ _ _ r => 1 + max (real_height l) (real_height r)

/-- The AVL shape invariant of claim C3 as a decidable check: at every
node the stored `height` field equals the true height of its subtree, and
the true heights of the two children differ by at most one. -/
def avl_ok : ATree α β → Bool
  | .nil => true
  | .node l _ _ h _ r =>
      avl_ok l && avl_ok r &&
      (h == 1 + max (real_height l) (real_height r)) &&
      (real_height l - real_height r ≤ 1 && real_height r - real_height l ≤ 1)

/-- The state of a fresh `AVLTree()` instance. -/
def empty : AVLState α β := ⟨.nil, 0⟩

end AVLTree

/-- One map operation issued by a caller: `insert(key, data)` or
`delete(key)`.  Claims C1, C3, C4 and C7 quantify over arbitrary sequences
of these. -/
inductive Op (α β : Type) where
  | ins (k : α) (d : β) : Op α β
  | del (k : α) : Op α β
deriving DecidableEq, Repr

namespace AVLTree

variable {α β : Type} [LinearOrder α]

/-- Apply one operation to an `AVLTree` state.  A `DuplicateKeyError`
propagates to the caller and the state is the one the raising call left
behind. -/
def step (s : AVLState α β) : Op α β → AVLState α β
  | .ins k d =>
      match insert s k d with
      | .ok s' => s'
      | .dup _ s' => s'
  | .del k => delete s k

/-- Run a sequence of operations against a fresh `AVLTree()`. -/
def run (ops : List (Op α β)) : AVLState α β :=
  ops.foldl step empty

end AVLTree

/-! ## Red-Black trees — `src/ag/forest/binary_trees/red_black_tree.py`

`RTree.nil` plays the role of the black `Leaf` sentinel; a `node` carries
the `color` field of the source dataclass.  The `parent` pointers used by
the fixup loops are represented by the list of `RFrame`s from the focused
node up to the root (a zipper): the source statement
`fixing_node = fixing_node.parent` pops a frame, and a rotation rewrites
the frames next to the focus. -/

/-- `red_black_tree.Color` (red_black_tree.py lines 15-19). -/
inductive Color where
  | red : Color
  | black : Color
deriving DecidableEq, Repr

/-- A Red-Black tree: the `Leaf` sentinel or a `Node` with its `color`
(red_black_tree.py lines 21-36). -/
inductive RTree (α β : Type) where
  | nil : RTree α β
  | node (color : Color) (left : RTree α β) (key : α) (data : β)
      (right : RTree α β) : RTree α β
deriving DecidableEq, Repr

/-- One step of a root-to-node path: the focused subtree is the `dir`
child of a node with the recorded `color`, `key` and `data`, whose other
child is `sib`.  A list of frames, innermost first, represents the chain
of `parent` pointers of the source. -/
structure RFrame (α β : Type) where
  dir : Dir
  color : Color
  key : α
  data : β
  sib : RTree α β
deriving DecidableEq, Repr

namespace RBTree

variable {α β : Type} [LinearOrder α]

/-- The color of a node or of the `Leaf` sentinel, whose class attribute
`color` is always `BLACK` (red_black_tree.py line 27). -/
def colorOf : RTree α β → Color
  | .nil => .black
  | .node c _ _ _ _ => c

/-- Rebuild the whole tree from a focused subtree and its path to the
root. -/
def plug : RTree α β → List (RFrame α β) → RTree α β
  | t, [] => t
  | t, f :: rest =>
      plug (match f.dir with
            | .left => .node f.color t f.key f.data f.sib
            | .right => .node f.color f.sib f.key f.data t) rest

/-- Overwrite the color of the root of a subtree (`node.color = ...` on a
real node; on the Leaf sentinel the source would set the shared class
attribute, but every call site recolors a real node). -/
def recolor_root (c : Color) : RTree α β → RTree α β
  | .nil => .nil
  | .node _ l k d r => .node c l k d r

/-- `RBTree.search` (red_black_tree.py lines 167-185): iterative descent;
`none` when only the sentinel is reached. -/
def search (t : RTree α β) (k : α) : Option (RTree α β) :=
  match t with
  | .nil => none
  | .node _ l ck _ r =>
      if k < ck then search l k
      else if k > ck then search r k
      else some t

/-- `RBTree.get_leftmost` (red_black_tree.py lines 312-325). -/
def get_leftmost : RTree α β → Option (α × β)
  | .nil => none
  | .node _ .nil k d _ => some (k, d)
  | .node _ (.node lc ll lk ld lr) _ _ _ => get_leftmost (.node lc ll lk ld lr)

/-- `RBTree.get_rightmost` (red_black_tree.py lines 328-341). -/
def get_rightmost : RTree α β → Option (α × β)
  | .nil => none
  | .node _ _ k d .nil => some (k, d)
  | .node _ _ _ _ (.node rc rl rk rd rr) => get_rightmost (.node rc rl rk rd rr)

/-- `RBTree.get_height` (red_black_tree.py lines 384-398): `0` for the
sentinel and for a node with two sentinel children, else `1 + max` of the
children's heights. -/
def get_height : RTree α β → Int
  | .nil => 0
  | .node _ .nil _ _ .nil => 0
  | .node _ l _ _ r => max (get_height l) (get_height r) + 1

/-- The in-order (key, data) sequence, as produced by the recursive
generator `RBTree._inorder_traverse` (red_black_tree.py lines 706-710). -/
def inorder : RTree α β → List (α × β)
  | .nil => []
  | .node _ l k d r => inorder l ++ (k, d) :: inorder r

/-- The pre-order (key, data) sequence, as produced by the recursive
generator `RBTree._preorder_traverse` (red_black_tree.py lines 712-716). -/
def preorder : RTree α β → List (α × β)
  | .nil => []
  | .node _ l k d r => (k, d) :: (preorder l ++ preorder r)

/-- The post-order (key, data) sequence, as produced by the recursive
generator `RBTree._postorder_traverse` (red_black_tree.py lines
718-722). -/
def postorder : RTree α β → List (α × β)
  | .nil => []
  | .node _ l k d r => postorder l ++ postorder r ++ [(k, d)]

/-- The descent loop of `RBTree.insert` (red_black_tree.py lines
197-206), recording the path.  Returns the path at the reached sentinel
(the attachment point), or `none` when an equal key raises
`DuplicateKeyError` — nothing was mutated by then. -/
def insert_descend (k : α) : RTree α β → List (RFrame α β) →
    Option (List (RFrame α β))
  | .nil, ctx => some ctx
  | .node c l ck cd r, ctx =>
      if k < ck then insert_descend k l (⟨.left, c, ck, cd, r⟩ :: ctx)
      else if k > ck then insert_descend k r (⟨.right, c, ck, cd, l⟩ :: ctx)
      else none

/-- Reattach a focused subtree to its parent frame, overriding the
parent's color (used when a fixup case recolors the parent while
rebuilding around it). -/
def assemble (f : RFrame α β) (c : Color) (t : RTree α β) : RTree α β :=
  match f.dir with
  | .left => .node c t f.key f.data f.sib
  | .right => .node c f.sib f.key f.data t

/-- `RBTree._insert_fixup` (red_black_tree.py lines 553-605) as a machine
on the zipper of the fixing node.  The loop runs while the parent (the
innermost frame) is red; the red-uncle cases recolor and pop two frames,
and the black-uncle cases rotate at the grandparent and leave the fixing
node under a black parent, so the next iteration exits.  A red parent
with no grandparent frame cannot occur (the root is black whenever the
loop tests it); the translation returns the rebuilt tree there, where the
source would fail on `fixing_node.parent.parent`.  The fuel is one more
than the frame count, which the loop (popping frames or exiting) cannot
exhaust. -/
def ins_fix : Nat → RTree α β → List (RFrame α β) → RTree α β
  | 0, t, ctx => plug t ctx
  | _ + 1, t, [] => t
  | _ + 1, t, [f0] =>
      -- With a single frame the parent is the root.  A red root cannot
      -- occur when the loop tests it (the source would fail on
      -- `fixing_node.parent.parent`), and a black parent exits the loop;
      -- both yield the rebuilt tree.
      plug t [f0]
  | fuel + 1, t, f0 :: f1 :: rest' =>
      if f0.color = .red then
            match f1.dir with
            | .left =>
                let uncle := f1.sib
                if colorOf uncle = .red then
                  -- Case 1 (lines 566-571): recolor parent and uncle black,
                  -- grandparent red; continue from the grandparent.
                  ins_fix fuel
                    (.node .red (assemble f0 .black t) f1.key f1.data
                      (recolor_root .black uncle)) rest'
                else
                  -- Cases 2-3 (lines 573-584).
                  match f0.dir, t with
                  | .right, .node _ tl tk td tr =>
                      -- Case 2: the fixing node is the inner (right)
                      -- grandchild; the fixing node becomes its parent,
                      -- which is left-rotated so the old fixing node is
                      -- the new parent; then Case 3 recolors that parent
                      -- black and the grandparent red and right-rotates
                      -- the grandparent.
                      ins_fix fuel (RTree.node f0.color f0.sib f0.key f0.data tl)
                        (⟨.left, .black, tk, td,
                          .node .red tr f1.key f1.data uncle⟩ :: rest')
                  | .right, .nil =>
                      -- Unreachable: the fixing node is always a real
                      -- node (the source would raise RuntimeError inside
                      -- `_left_rotate`).
                      plug t (f0 :: f1 :: rest')
                  | .left, _ =>
                      -- Case 3 directly (lines 578-584): recolor parent
                      -- black and grandparent red, right-rotate the
                      -- grandparent; the fixing node keeps its parent,
                      -- now black, so the loop exits next iteration.
                      ins_fix fuel t
                        (⟨.left, .black, f0.key, f0.data,
                          .node .red f0.sib f1.key f1.data uncle⟩ :: rest')
            | .right =>
                let uncle := f1.sib
                if colorOf uncle = .red then
                  -- Case 4 (lines 588-593), mirror of Case 1.
                  ins_fix fuel
                    (.node .red (recolor_root .black uncle) f1.key f1.data
                      (assemble f0 .black t)) rest'
                else
                  -- Cases 5-6 (lines 595-603), mirror of Cases 2-3.
                  match f0.dir, t with
                  | .left, .node _ tl tk td tr =>
                      ins_fix fuel (RTree.node f0.color tr f0.key f0.data f0.sib)
                        (⟨.right, .black, tk, td,
                          .node .red uncle f1.key f1.data tl⟩ :: rest')
                  | .left, .nil =>
                      -- Unreachable, as in the left mirror image.
                      plug t (f0 :: f1 :: rest')
                  | .right, _ =>
                      ins_fix fuel t
                        (⟨.right, .black, f0.key, f0.data,
                          .node .red uncle f1.key f1.data f0.sib⟩ :: rest')
      else plug t (f0 :: f1 :: rest')

/-- Outcome of one `RBTree.insert` call: `ok`, or `dup` when
`DuplicateKeyError(key)` is raised (the tree is untouched, since the
Red-Black descent performs no writes). -/
inductive RBOutcome (α β : Type) where
  | ok (t : RTree α β) : RBOutcome α β
  | dup (key : α) (t : RTree α β) : RBOutcome α β
deriving DecidableEq, Repr

/-- `RBTree.insert` (red_black_tree.py lines 188-222): descend, attach a
red node (black when the tree was empty), run `_insert_fixup`, and force
the root black (line 605). -/
def insert (t : RTree α β) (k : α) (d : β) : RBOutcome α β :=
  match insert_descend k t [] with
  | none => .dup k t
  | some [] => .ok (.node .black .nil k d .nil)
  | some (f :: ctx) =>
      .ok (recolor_root .black
        (ins_fix ((f :: ctx).length + 1) (.node .red .nil k d .nil) (f :: ctx)))

/-- `RBTree._delete_fixup` (red_black_tree.py lines 607-684) as a machine
on the zipper of the fixing node.  The loop runs while the fixing node is
not the root and is black; on exit the fixing node is recolored black
(line 684).  The translation follows the source case by case, including
its departure from the textbook: after the rotation of Case 3 (and of the
mirrored Case 7) the local variable `sibling` is *not* re-read, so Case 4
(resp. Case 8) recolors and rotates around the node that used to be the
sibling and is now one level further down.  Cases 4 and 8 set
`fixing_node = self.root`, so the loop then exits and recolors the tree
root.  Each iteration pops a frame, exits, or (Case 1/5) rewrites the
frames so that the next iteration pops or exits, so fuel `2·frames + 2`
(supplied by the caller) cannot run out. -/
def del_fix : Nat → RTree α β → List (RFrame α β) → RTree α β
  | 0, t, ctx => plug t ctx
  | _ + 1, t, [] => recolor_root .black t
  | fuel + 1, t, f0 :: rest =>
      if colorOf t = .red then plug (recolor_root .black t) (f0 :: rest)
      else
        match f0.dir with
        | .left =>
            match f0.sib with
            | .nil => plug (recolor_root .black t) (f0 :: rest)
            | .node sc sl sk sd sr =>
                if sc = .red then
                  -- Case 1 (lines 619-623): recolor sibling black and the
                  -- parent red, left-rotate the parent.
                  del_fix fuel t
                    (⟨.left, .red, f0.key, f0.data, sl⟩ ::
                     ⟨.left, .black, sk, sd, sr⟩ :: rest)
                else if colorOf sl = .black ∧ colorOf sr = .black then
                  -- Case 2 (lines 626-628): recolor sibling red, move the
                  -- fixing node to the parent.
                  del_fix fuel
                    (.node f0.color t f0.key f0.data (.node .red sl sk sd sr))
                    rest
                else if colorOf sr = .black then
                  -- Case 3 (lines 631-636): sibling's left child is red;
                  -- recolor it black and the sibling red, right-rotate the
                  -- sibling.  Then Case 4 (lines 640-646) runs with the
                  -- stale `sibling` variable, which now denotes the right
                  -- child of the node standing where the sibling stood.
                  match sl with
                  | .node _ sll slk sld slr =>
                      plug
                        (RTree.node .black
                          (.node .black t f0.key f0.data sll) slk sld
                          (.node f0.color slr sk sd (recolor_root .black sr)))
                        rest
                      |> recolor_root .black
                  | .nil => plug t (f0 :: rest)
                else
                  -- Case 4 directly (lines 640-646): sibling black with a
                  -- red right child; transfer the parent's color to the
                  -- sibling, blacken the parent and the sibling's right
                  -- child, left-rotate the parent; then the loop exits at
                  -- the root, which is recolored black.
                  plug
                    (RTree.node f0.color (.node .black t f0.key f0.data sl)
                      sk sd (recolor_root .black sr))
                    rest
                  |> recolor_root .black
        | .right =>
            match f0.sib with
            | .nil => plug (recolor_root .black t) (f0 :: rest)
            | .node sc sl sk sd sr =>
                if sc = .red then
                  -- Case 5 (lines 654-658), mirror of Case 1.
                  del_fix fuel t
                    (⟨.right, .red, f0.key, f0.data, sr⟩ ::
                     ⟨.right, .black, sk, sd, sl⟩ :: rest)
                else if colorOf sl = .black ∧ colorOf sr = .black then
                  -- Case 6 (lines 661-663), mirror of Case 2.
                  del_fix fuel
                    (.node f0.color (.node .red sl sk sd sr) f0.key f0.data t)
                    rest
                else if colorOf sl = .black then
                  -- Case 7 (lines 666-671), mirror of Case 3, again with
                  -- Case 8 (lines 675-681) running on the stale `sibling`.
                  match sr with
                  | .node _ srl srk srd srr =>
                      plug
                        (RTree.node .black
                          (.node f0.color (recolor_root .black sl) sk sd srl)
                          srk srd (.node .black srr f0.key f0.data t))
                        rest
                      |> recolor_root .black
                  | .nil => plug t (f0 :: rest)
                else
                  -- Case 8 directly (lines 675-681), mirror of Case 4.
                  plug
                    (RTree.node f0.color (recolor_root .black sl) sk sd
                      (.node .black sr f0.key f0.data t))
                    rest
                  |> recolor_root .black

/-- The splice of `RBTree.delete`'s two-children case when the successor
is *not* the deleted node's right child (red_black_tree.py lines 284-292):
remove the leftmost node of the subtree, replacing it by its right child
(`_transplant(replacing_node, replacing_node.right)`), and report the
removed node's color, key, data and original right child.  No fixup
happens here — unlike the AVL engine, the Red-Black delete fixup runs
once, after all splicing. -/
def del_min : RTree α β → Option (Color × α × β × RTree α β × RTree α β)
  | .nil => none
  | .node c .nil k d r => some (c, k, d, r, r)
  | .node c (.node lc ll lk ld lr) k d r =>
      match del_min (.node lc ll lk ld lr) with
      | some (rc, rk, rd, rr, l') => some (rc, rk, rd, rr, .node c l' k d r)
      | none => none

/-- Number of steps to the leftmost node (the length of the all-left path
walked by `get_leftmost`); locates the spliced position for the fixup of
the two-children case. -/
def left_depth : RTree α β → Nat
  | .nil => 0
  | .node _ .nil _ _ _ => 0
  | .node _ (.node lc ll lk ld lr) _ _ _ => left_depth (.node lc ll lk ld lr) + 1

/-- Descend along a direction path, building the zipper frames. -/
def descend_path : RTree α β → List Dir → List (RFrame α β) →
    RTree α β × List (RFrame α β)
  | t, [], ctx => (t, ctx)
  | .nil, _, ctx => (.nil, ctx)
  | .node c l k d r, .left :: p, ctx => descend_path l p (⟨.left, c, k, d, r⟩ :: ctx)
  | .node c l k d r, .right :: p, ctx => descend_path r p (⟨.right, c, k, d, l⟩ :: ctx)

/-- Run `_delete_fixup` on the node at the given path of the given tree. -/
def del_fix_at (t : RTree α β) (path : List Dir) : RTree α β :=
  let z := descend_path t path []
  del_fix (2 * z.2.length + 2) z.1 z.2

/-- `isinstance(node, Node)` of the source: is the value a real node (not
the `Leaf` sentinel)? -/
def is_node : RTree α β → Bool
  | .nil => false
  | .node .. => true

/-- The descent of `RBTree.delete` (red_black_tree.py line 233:
`self.search(key)`) rebuilt with the path to the found node. -/
def find_ctx (k : α) : RTree α β → List (RFrame α β) →
    Option (RTree α β × List (RFrame α β))
  | .nil, _ => none
  | .node c l ck cd r, ctx =>
      if k < ck then find_ctx k l (⟨.left, c, ck, cd, r⟩ :: ctx)
      else if k > ck then find_ctx k r (⟨.right, c, ck, cd, l⟩ :: ctx)
      else some (.node c l ck cd r, ctx)

/-- `RBTree.delete` (red_black_tree.py lines 225-307): locate the node;
splice it out by the three cases, remembering `original_color`; and run
`_delete_fixup` only when that color was black *and* the node taking the
removed node's place is a real node — when the replacement is the `Leaf`
sentinel the source skips the fixup (the `isinstance(replacing_node,
Node)` guards at lines 248, 262 and 303). -/
def delete (t : RTree α β) (k : α) : RTree α β :=
  match find_ctx k t [] with
  | none => t
  | some (found, ctx) =>
      match found with
      | .nil => t
      | .node c l _ _ r =>
          match l, r with
          | .nil, _ =>
              -- Case 1/2a (lines 239-249): replace by the right child.
              if c = .black ∧ is_node r then
                del_fix (2 * ctx.length + 2) r ctx
              else plug r ctx
          | .node lc ll lk ld lr, .nil =>
              -- Case 2b (lines 252-263): replace by the left child.
              if c = .black then
                del_fix (2 * ctx.length + 2) (.node lc ll lk ld lr) ctx
              else plug (.node lc ll lk ld lr) ctx
          | .node lc ll lk ld lr, .node rc rl rk rd rr =>
              -- Case 3 (lines 275-304): splice the leftmost node of the
              -- right subtree into the deleted node's place, keeping the
              -- deleted node's color.
              let l' : RTree α β := .node lc ll lk ld lr
              let r0 : RTree α β := .node rc rl rk rd rr
              let depth := left_depth r0
              match del_min r0 with
              | none => t
              | some (oc, mk, md, mrr, r') =>
                  let t' := plug (.node c l' mk md r') ctx
                  if oc = .black ∧ is_node mrr then
                    del_fix_at t'
                      (ctx.reverse.map RFrame.dir ++
                        .right :: List.replicate depth .left)
                  else t'

/-- The no-red-red part of the Red-Black invariants: no red node has a
red child. -/
def no_red_red : RTree α β → Bool
  | .nil => true
  | .node c l _ _ r =>
      (c = Color.black || (colorOf l = Color.black && colorOf r = Color.black)) &&
      no_red_red l && no_red_red r

/-- The equal-black-count part of the Red-Black invariants: every path
from the root of the subtree to a sentinel leaf contains the same number
of black nodes (the sentinel included); returns that count, or `none`
when two paths disagree. -/
def black_height : RTree α β → Option Nat
  | .nil => some 1
  | .node c l _ _ r =>
      match black_height l, black_height r with
      | some bl, some br =>
          if bl = br then some (bl + (if c = Color.black then 1 else 0)) else none
      | _, _ => none

/-- The Red-Black invariants of claim C1 as a decidable check: the root is
black (the sentinel counts as black), no red node has a red child, and all
root-to-sentinel paths carry the same black count.  (That all sentinel
leaves are black holds by construction: the shared `Leaf` has class
attribute `color = BLACK`.) -/
def rb_ok (t : RTree α β) : Bool :=
  colorOf t = Color.black && no_red_red t && (black_height t).isSome

/-- Apply one operation to an `RBTree` state; a `DuplicateKeyError`
leaves the tree as the raising call left it. -/
def step (t : RTree α β) : Op α β → RTree α β
  | .ins k d =>
      match insert t k d with
      | .ok t' => t'
      | .dup _ t' => t'
  | .del k => delete t k

/-- Run a sequence of operations against a fresh `RBTree()` (whose root is
the sentinel). -/
def run (ops : List (Op α β)) : RTree α β :=
  ops.foldl step .nil

end RBTree

/-! ## Traversal collaborators — `src/ag/forest/binary_trees/traversal.py`

The traversal routines consume any supported tree (`BinarySearchTree` or
`AVLTree`) through the plain node interface `key`, `data`, `left`,
`right`.  `BTree` is that interface: a node shape without the
engine-specific bookkeeping; `ATree.forget` reads an AVL tree through it.
Python's `==` on two (acyclic-field-comparing) dataclass nodes is value
equality, which is what `DecidableEq` provides; within one engine-built
tree all keys are distinct, so it coincides with object identity.

The non-recursive routines and `levelorder_traverse` are loops over an
explicit stack/queue; they are embedded as fueled step functions.  The
`Except` error value models the exceptions the source can raise while
generating: `levelorder_traverse` dereferences `temp.key` on `None` when
the tree is empty (line 256), and the non-recursive routines execute
`raise StopIteration` inside a generator when `root is None` (lines 280,
344, 401, 429), which PEP 479 turns into a `RuntimeError` on the Python
versions this repository requires (it uses `:=`, hence ≥ 3.8).  Fuel
exhaustion also maps to the error value; the supplied fuel is shown never
to run out on the states the loops actually reach. -/

/-- The plain node shape used by traversal.py (`SupportedNodeType`):
`None` or a node with `left`, `key`, `data`, `right`. -/
inductive BTree (α β : Type) where
  | nil : BTree α β
  | node (left : BTree α β) (key : α) (data : β) (right : BTree α β) : BTree α β
deriving DecidableEq, Repr

/-- Read an AVL tree through the plain traversal interface. -/
def ATree.forget {α β : Type} : ATree α β → BTree α β
  | .nil => .nil
  | .node l k d _ _ r => .node (ATree.forget l) k d (ATree.forget r)

namespace Traversal

variable {α β : Type} [DecidableEq α] [DecidableEq β]

/-- `isinstance`/truthiness test: a real node (Python `if node:`). -/
def is_node {α β : Type} : BTree α β → Bool
  | .nil => false
  | .node .. => true

/-- Number of real nodes; used for the loop fuels. -/
def size {α β : Type} : BTree α β → Nat
  | .nil => 0
  | .node l _ _ r => 1 + size l + size r

/-- `_inorder_traverse` (traversal.py lines 264-268), the recursive
generator. -/
def inorder_rec {α β : Type} : BTree α β → List (α × β)
  | .nil => []
  | .node l k d r => inorder_rec l ++ (k, d) :: inorder_rec r

/-- `_reverse_inorder_traverse` (traversal.py lines 332-336). -/
def reverse_inorder_rec {α β : Type} : BTree α β → List (α × β)
  | .nil => []
  | .node l k d r => reverse_inorder_rec r ++ (k, d) :: reverse_inorder_rec l

/-- `_preorder_traverse` (traversal.py lines 388-392). -/
def preorder_rec {α β : Type} : BTree α β → List (α × β)
  | .nil => []
  | .node l k d r => (k, d) :: (preorder_rec l ++ preorder_rec r)

/-- `_postorder_traverse` (traversal.py lines 419-423). -/
def postorder_rec {α β : Type} : BTree α β → List (α × β)
  | .nil => []
  | .node l k d r => postorder_rec l ++ postorder_rec r ++ [(k, d)]

/-- The queue loop of `levelorder_traverse` (traversal.py lines 251-261).
The Python list is modeled front-first (`pop(0)` takes the head,
`append` adds at the tail).  Popping `None` models the `temp.key`
`AttributeError`; only the initial queue can contain it, since the
appends are guarded by `if temp.left:` / `if temp.right:`. -/
def levelorder_go {α β : Type} : Nat → List (BTree α β) → Except Unit (List (α × β))
  | _, [] => .ok []
  | 0, _ :: _ => .error ()
  | fuel + 1, t :: q =>
      match t with
      | .nil => .error ()
      | .node l k d r =>
          let q1 := q ++ (if is_node l then [l] else []) ++ (if is_node r then [r] else [])
          match levelorder_go fuel q1 with
          | .ok rest => .ok ((k, d) :: rest)
          | .error e => .error e

/-- `levelorder_traverse(tree)` on a tree with the given root: the queue
starts as `[tree.root]`, even when the root is `None`. -/
def levelorder_traverse {α β : Type} (root : BTree α β) : Except Unit (List (α × β)) :=
  levelorder_go (size root + 1) [root]

/-- The `while True` loop of `_inorder_traverse_non_recursive`
(traversal.py lines 288-329).  The Python stack is modeled top-first
(`append` pushes at the head, `pop()` takes the head, `stack[-1]` is the
head).  `current = .nil` is Python's `current = None`. -/
def inorder_nr_go : Nat → BTree α β → List (BTree α β) →
    Except Unit (List (α × β))
  | 0, _, _ => .error ()
  | fuel + 1, .node cl ck cd cr, stack =>
      match cr with
      | .node .. =>
          -- lines 290-294: push the right child, push the node, go left.
          inorder_nr_go fuel cl (.node cl ck cd cr :: cr :: stack)
      | .nil =>
          -- lines 296-297: push the node, go left.
          inorder_nr_go fuel cl (.node cl ck cd .nil :: stack)
  | _ + 1, .nil, [] => .ok []
  | fuel + 1, .nil, c :: rest =>
      match c with
      | .nil => .error ()
      | .node cl ck cd cr =>
          match cr with
          | .nil =>
              -- lines 306-314: no right child: yield the popped node.
              match inorder_nr_go fuel .nil rest with
              | .ok acc => .ok ((ck, cd) :: acc)
              | .error e => .error e
          | .node .. =>
              match rest with
              | top :: rest' =>
                  if cr = top then
                    -- lines 317-323: yield the node and continue from its
                    -- right child, popped off the stack.
                    match inorder_nr_go fuel top rest' with
                    | .ok acc => .ok ((ck, cd) :: acc)
                    | .error e => .error e
                  else
                    -- lines 324-327: keep the popped node as `current`.
                    inorder_nr_go fuel (.node cl ck cd cr) rest
              | [] =>
                  -- line 316 `if stack:` fails: nothing happens and the
                  -- loop re-enters with `current` still the popped node.
                  inorder_nr_go fuel (.node cl ck cd cr) []

/-- `_inorder_traverse_non_recursive(root)` (traversal.py lines 271-329):
`raise StopIteration` on an absent root (a `RuntimeError` under PEP 479),
else seed the stack with the root's right child (when present) and the
root, and start from the root's left child. -/
def inorder_nr (root : BTree α β) : Except Unit (List (α × β)) :=
  match root with
  | .nil => .error ()
  | .node l k d r =>
      inorder_nr_go (4 * size root + 5) l
        ((BTree.node l k d r) :: (if is_node r then [r] else []))

/-- The loop of `_reverse_inorder_traverse_non_recursive` (traversal.py
lines 352-385), the left/right mirror image of `inorder_nr_go`. -/
def reverse_inorder_nr_go : Nat → BTree α β → List (BTree α β) →
    Except Unit (List (α × β))
  | 0, _, _ => .error ()
  | fuel + 1, .node cl ck cd cr, stack =>
      match cl with
      | .node .. => reverse_inorder_nr_go fuel cr (.node cl ck cd cr :: cl :: stack)
      | .nil => reverse_inorder_nr_go fuel cr (.node .nil ck cd cr :: stack)
  | _ + 1, .nil, [] => .ok []
  | fuel + 1, .nil, c :: rest =>
      match c with
      | .nil => .error ()
      | .node cl ck cd cr =>
          match cl with
          | .nil =>
              match reverse_inorder_nr_go fuel .nil rest with
              | .ok acc => .ok ((ck, cd) :: acc)
              | .error e => .error e
          | .node .. =>
              match rest with
              | top :: rest' =>
                  if cl = top then
                    match reverse_inorder_nr_go fuel top rest' with
                    | .ok acc => .ok ((ck, cd) :: acc)
                    | .error e => .error e
                  else reverse_inorder_nr_go fuel (.node cl ck cd cr) rest
              | [] => reverse_inorder_nr_go fuel (.node cl ck cd cr) []

/-- `_reverse_inorder_traverse_non_recursive(root)` (traversal.py lines
339-385). -/
def reverse_inorder_nr (root : BTree α β) : Except Unit (List (α × β)) :=
  match root with
  | .nil => .error ()
  | .node l k d r =>
      reverse_inorder_nr_go (4 * size root + 5) r
        ((BTree.node l k d r) :: (if is_node l then [l] else []))

/-- The stack loop of `_preorder_traverse_non_recursive` (traversal.py
lines 403-416): pop, yield, push right then left. -/
def preorder_nr_go : Nat → List (BTree α β) → Except Unit (List (α × β))
  | _, [] => .ok []
  | 0, _ :: _ => .error ()
  | fuel + 1, t :: rest =>
      match t with
      | .nil => .error ()
      | .node l k d r =>
          match preorder_nr_go fuel
              ((if is_node l then [l] else []) ++ (if is_node r then [r] else []) ++ rest) with
          | .ok acc => .ok ((k, d) :: acc)
          | .error e => .error e

/-- `_preorder_traverse_non_recursive(root)` (traversal.py lines
395-416). -/
def preorder_nr (root : BTree α β) : Except Unit (List (α × β)) :=
  match root with
  | .nil => .error ()
  | _ => preorder_nr_go (size root + 1) [root]

/-- The `while True` loop of `_postorder_traverse_non_recursive`
(traversal.py lines 437-487). -/
def postorder_nr_go : Nat → BTree α β → List (BTree α β) →
    Except Unit (List (α × β))
  | 0, _, _ => .error ()
  | fuel + 1, .node cl ck cd cr, stack =>
      match cr with
      | .node .. =>
          -- lines 440-444: push the right child, push the node, go left.
          postorder_nr_go fuel cl (.node cl ck cd cr :: cr :: stack)
      | .nil =>
          match cl with
          | .node .. =>
              -- lines 447-448: no right child but a left child: push the
              -- node and go left.
              postorder_nr_go fuel cl (.node cl ck cd .nil :: stack)
          | .nil =>
              -- lines 450-452: a leaf is yielded at once.
              match postorder_nr_go fuel .nil stack with
              | .ok acc => .ok ((ck, cd) :: acc)
              | .error e => .error e
  | _ + 1, .nil, [] => .ok []
  | fuel + 1, .nil, c :: rest =>
      match c with
      | .nil => .error ()
      | .node cl ck cd cr =>
          match cr with
          | .nil =>
              -- lines 459-462: no right child: yield the popped node.
              match postorder_nr_go fuel .nil rest with
              | .ok acc => .ok ((ck, cd) :: acc)
              | .error e => .error e
          | .node .. =>
              match rest with
              | top :: rest' =>
                  if cr = top then
                    -- lines 471-479: swap the node with its right child on
                    -- the stack and descend into the right child.
                    postorder_nr_go fuel top (.node cl ck cd cr :: rest')
                  else
                    -- lines 466-470: the right child was already emitted:
                    -- yield the node.
                    match postorder_nr_go fuel .nil (top :: rest') with
                    | .ok acc => .ok ((ck, cd) :: acc)
                    | .error e => .error e
              | [] =>
                  -- lines 481-484: the stack is empty: yield and stop.
                  .ok [(ck, cd)]

/-- `_postorder_traverse_non_recursive(root)` (traversal.py lines
426-487). -/
def postorder_nr (root : BTree α β) : Except Unit (List (α × β)) :=
  match root with
  | .nil => .error ()
  | .node l k d r =>
      postorder_nr_go (4 * size root + 5) l
        ((BTree.node l k d r) :: (if is_node r then [r] else []))

/-- Left/right mirror image of a tree; `_reverse_inorder_traverse_non_recursive`
is the exact mirror image of `_inorder_traverse_non_recursive`, which the
equivalence proof exploits. -/
def mirror : BTree α β → BTree α β
  | .nil => .nil
  | .node l k d r => .node (mirror r) k d (mirror l)

/-- The reachable stack shapes of the loop of
`_inorder_traverse_non_recursive`, with the output the loop still owes
once `current` hits `None` and the fuel those steps need: the stack is a
run of segments, each either a node without right child, or a node pushed
directly on top of its right child. -/
inductive InSt : List (BTree α β) → List (α × β) → Nat → Prop where
  | nil : InSt [] [] 0
  | single (cl : BTree α β) (ck : α) (cd : β) {S : List (BTree α β)}
      {out : List (α × β)} {w : Nat} :
      InSt S out w →
      InSt (BTree.node cl ck cd .nil :: S) ((ck, cd) :: out) (w + 1)
  | pair (cl : BTree α β) (ck : α) (cd : β) {cr : BTree α β}
      {S : List (BTree α β)} {out : List (α × β)} {w : Nat} :
      is_node cr = true →
      InSt S out w →
      InSt (BTree.node cl ck cd cr :: cr :: S)
        ((ck, cd) :: (inorder_rec cr ++ out)) (w + (3 * size cr + 2))

/-- The reachable stack shapes of the loop of
`_postorder_traverse_non_recursive`: segments are a node without right
child, a node whose right subtree has already been emitted (put back by
the swap of lines 477-479), or a node pushed directly on top of its right
child.  The size bounds record that every element strictly contains the
segment above it, which is what makes the identity tests against
`stack[-1]` decide correctly. -/
inductive PSt : List (BTree α β) → List (α × β) → Nat → Prop where
  | nil : PSt [] [] 0
  | single (cl : BTree α β) (ck : α) (cd : β) {S : List (BTree α β)}
      {out : List (α × β)} {w : Nat} :
      PSt S out w →
      PSt (BTree.node cl ck cd .nil :: S) ((ck, cd) :: out) (w + 1)
  | swapped (cl : BTree α β) (ck : α) (cd : β) {cr : BTree α β}
      {S : List (BTree α β)} {out : List (α × β)} {w : Nat} :
      is_node cr = true →
      (∀ x ∈ S.head?, size (BTree.node cl ck cd cr) < size x) →
      PSt S out w →
      PSt (BTree.node cl ck cd cr :: S) ((ck, cd) :: out) (w + 1)
  | pair (cl : BTree α β) (ck : α) (cd : β) {cr : BTree α β}
      {S : List (BTree α β)} {out : List (α × β)} {w : Nat} :
      is_node cr = true →
      (∀ x ∈ S.head?, size (BTree.node cl ck cd cr) < size x) →
      PSt S out w →
      PSt (BTree.node cl ck cd cr :: cr :: S)
        (postorder_rec cr ++ (ck, cd) :: out) (w + (4 * size cr + 3))

end Traversal

/-! ## The ordered-map model

The reference semantics the engines are compared against: a sorted
association list.  `ListModel.step` is the spec's contract for one call —
insertion of a fresh key puts the pair at its sorted position, insertion
of a present key raises and changes nothing, deletion removes the key's
pair and is a no-op for an absent key. -/

namespace ListModel

variable {α β : Type} [LinearOrder α]

/-- Does the association list carry the key? -/
def hasKey (k : α) : List (α × β) → Bool
  | [] => false
  | (k', _) :: t => k = k' || hasKey k t

/-- Insert a pair in front of the first entry with a larger key. -/
def listIns (k : α) (d : β) : List (α × β) → List (α × β)
  | [] => [(k, d)]
  | (k', d') :: t =>
      if k < k' then (k, d) :: (k', d') :: t else (k', d') :: listIns k d t

/-- Remove the first entry with the given key. -/
def eraseKey (k : α) : List (α × β) → List (α × β)
  | [] => []
  | (k', d') :: t => if k = k' then t else (k', d') :: eraseKey k t

/-- One operation on the model. -/
def step (l : List (α × β)) : Op α β → List (α × β)
  | .ins k d => if hasKey k l then l else listIns k d l
  | .del k => eraseKey k l

/-- Run an operation sequence on the model, starting from the empty
map. -/
def run (ops : List (Op α β)) : List (α × β) :=
  ops.foldl step []

/-- Strictly ascending keys — the BST order invariant read off the
in-order sequence. -/
def SortedKeys (l : List (α × β)) : Prop :=
  l.Pairwise (fun a b => a.1 < b.1)

end ListModel

/-- Erase the stored `subtree_size` fields of an AVL tree (set them to
zero), keeping keys, data, links and stored heights; used to state which
part of the state a failing duplicate insert can still touch. -/
def ATree.strip_sizes {α β : Type} : ATree α β → ATree α β
  | .nil => .nil
  | .node l k d h _ r => .node (ATree.strip_sizes l) k d h 0 (ATree.strip_sizes r)

/-- Replace the sentinel that the insertion descent of `RBTree.insert`
reaches with the subtree `X` (proof helper relating `insert_descend`'s
zipper to the tree). -/
def RBTree.graft {α β : Type} [LinearOrder α] (k : α) (X : RTree α β) :
    RTree α β → RTree α β
  | .nil => X
  | .node c l ck cd r =>
      if k < ck then .node c (RBTree.graft k X l) ck cd r
      else if k > ck then .node c l ck cd (RBTree.graft k X r)
      else .node c l ck cd r

/-- The in-order entries contributed by a zipper context: the pairs lying
before and after the focused subtree in the whole tree's in-order sequence
(proof helper for the plug decomposition). -/
def RBTree.ctx_lists {α β : Type} : List (RFrame α β) → List (α × β) × List (α × β)
  | [] => ([], [])
  | f :: rest =>
      let p := RBTree.ctx_lists rest
      match f.dir with
      | .left => (p.1, (f.key, f.data) :: RBTree.inorder f.sib ++ p.2)
      | .right => (p.1 ++ RBTree.inorder f.sib ++ [(f.key, f.data)], p.2)

/-! ## Positions and the successor/predecessor walks

A live node of a Python tree is identified here by its root-to-node path
(the chain of `left`/`right` child links).  The parent pointer of the
source is the path with its last direction removed, and the loop
`while parent and (node == parent.right)` of `get_successor` strips the
trailing `right` directions off the path: the dataclass `==` comparison
used by the source coincides with the identity of the child slot as long
as sibling keys differ, which holds in every binary search tree. -/

/-- The climbing loop of `get_successor` (`node = parent;
parent = parent.parent` while the node is its parent's RIGHT child),
acting on the REVERSED root-to-node path: drop leading `right` steps, then
return what remains after the first `left` step (the reversed path of the
final `parent`), or `none` when the walk runs off the root. -/
def up_while_right : List Dir → Option (List Dir)
  | [] => none
  | .right :: p => up_while_right p
  | .left :: p => some p

/-- The climbing loop of `get_predecessor`, the mirror image of
`up_while_right`. -/
def up_while_left : List Dir → Option (List Dir)
  | [] => none
  | .left :: p => up_while_left p
  | .right :: p => some p

/-- Read an RB tree through the plain traversal interface (drop colors). -/
def RTree.forget {α β : Type} : RTree α β → BTree α β
  | .nil => .nil
  | .node _ l k d r => .node (RTree.forget l) k d (RTree.forget r)

namespace AVLTree

variable {α β : Type} [LinearOrder α]

/-- The node reached from the root of `t` by following the path `p`. -/
def node_at : ATree α β → List Dir → Option (ATree α β)
  | t, [] => some t
  | .nil, _ :: _ => none
  | .node l _ _ _ _ _, .left :: p => node_at l p
  | .node _ _ _ _ _ r, .right :: p => node_at r p

/-- The (key, data) payload of the node at path `p`. -/
def key_data_at (t : ATree α β) (p : List Dir) : Option (α × β) :=
  match node_at t p with
  | some (.node _ k d _ _ _) => some (k, d)
  | _ => none

/-- `AVLTree.get_successor` (avl_tree.py lines 296-314) on the node of `t`
at path `p`, returning the successor's (key, data): if `node.right` is
non-empty, the leftmost of `node.right`; else walk up while the node is a
right child and return the parent reached (or `None`). -/
def get_successor (t : ATree α β) (p : List Dir) : Option (α × β) :=
  match node_at t p with
  | some (.node _ _ _ _ _ (.node rl rk rd rh rs rr)) =>
      get_leftmost (.node rl rk rd rh rs rr)
  | some (.node _ _ _ _ _ .nil) =>
      match up_while_right p.reverse with
      | none => none
      | some q => key_data_at t q.reverse
  | _ => none

/-- `AVLTree.get_predecessor` (avl_tree.py lines 276-294): if `node.left`
is non-empty, the rightmost of `node.left`; else walk up while the node is
a left child and return the parent reached (or `None`). -/
def get_predecessor (t : ATree α β) (p : List Dir) : Option (α × β) :=
  match node_at t p with
  | some (.node (.node ll lk ld lh ls lr) _ _ _ _ _) =>
      get_rightmost (.node ll lk ld lh ls lr)
  | some (.node .nil _ _ _ _ _) =>
      match up_while_left p.reverse with
      | none => none
      | some q => key_data_at t q.reverse
  | _ => none

end AVLTree

namespace RBTree

variable {α β : Type} [LinearOrder α]

/-- The node reached from the root of `t` by following the path `p`. -/
def node_at : RTree α β → List Dir → Option (RTree α β)
  | t, [] => some t
  | .nil, _ :: _ => none
  | .node _ l _ _ _, .left :: p => node_at l p
  | .node _ _ _ _ r, .right :: p => node_at r p

/-- The (key, data) payload of the node at path `p`. -/
def key_data_at (t : RTree α β) (p : List Dir) : Option (α × β) :=
  match node_at t p with
  | some (.node _ _ k d _) => some (k, d)
  | _ => none

/-- `RBTree.get_successor` (red_black_tree.py lines 364-381), as for the
AVL tree but with the `Leaf` sentinel in place of `None` children. -/
def get_successor (t : RTree α β) (p : List Dir) : Option (α × β) :=
  match node_at t p with
  | some (.node _ _ _ _ (.node rc rl rk rd rr)) =>
      get_leftmost (.node rc rl rk rd rr)
  | some (.node _ _ _ _ .nil) =>
      match up_while_right p.reverse with
      | none => none
      | some q => key_data_at t q.reverse
  | _ => none

/-- `RBTree.get_predecessor` (red_black_tree.py lines 344-361). -/
def get_predecessor (t : RTree α β) (p : List Dir) : Option (α × β) :=
  match node_at t p with
  | some (.node _ (.node lc ll lk ld lr) _ _ _) =>
      get_rightmost (.node lc ll lk ld lr)
  | some (.node _ .nil _ _ _) =>
      match up_while_left p.reverse with
      | none => none
      | some q => key_data_at t q.reverse
  | _ => none

end RBTree

namespace BTree

variable {α β : Type} [LinearOrder α]

/-- The node reached by following the path `p` on the plain node shape;
both engines' `node_at` erase to this one. -/
def node_at : BTree α β → List Dir → Option (BTree α β)
  | t, [] => some t
  | .nil, _ :: _ => none
  | .node l _ _ _, .left :: p => node_at l p
  | .node _ _ _ r, .right :: p => node_at r p

/-- The (key, data) payload of the node at path `p`. -/
def key_data_at (t : BTree α β) (p : List Dir) : Option (α × β) :=
  match node_at t p with
  | some (.node _ k d _) => some (k, d)
  | _ => none

/-- The shared shape of `get_leftmost` on the plain nodes. -/
def get_leftmost : BTree α β → Option (α × β)
  | .nil => none
  | .node .nil k d _ => some (k, d)
  | .node (.node ll lk ld lr) _ _ _ => get_leftmost (.node ll lk ld lr)

/-- The shared shape of `get_rightmost` on the plain nodes. -/
def get_rightmost : BTree α β → Option (α × β)
  | .nil => none
  | .node _ k d .nil => some (k, d)
  | .node _ _ _ (.node rl rk rd rr) => get_rightmost (.node rl rk rd rr)

/-- The shared shape of the two engines' `get_successor` on plain nodes;
each engine's function erases to this one. -/
def get_successor (t : BTree α β) (p : List Dir) : Option (α × β) :=
  match node_at t p with
  | some (.node _ _ _ (.node rl rk rd rr)) =>
      get_leftmost (.node rl rk rd rr)
  | some (.node _ _ _ .nil) =>
      match up_while_right p.reverse with
      | none => none
      | some q => key_data_at t q.reverse
  | _ => none

/-- The shared shape of the two engines' `get_predecessor`. -/
def get_predecessor (t : BTree α β) (p : List Dir) : Option (α × β) :=
  match node_at t p with
  | some (.node (.node ll lk ld lr) _ _ _) =>
      get_rightmost (.node ll lk ld lr)
  | some (.node .nil _ _ _) =>
      match up_while_left p.reverse with
      | none => none
      | some q => key_data_at t q.reverse
  | _ => none
end BTree

/-! ## Theorems -/

namespace AVLTree

variable {α β : Type} [LinearOrder α]

theorem inorder_left_rotate (t : ATree α β) :
    inorder (left_rotate t) = inorder t := by
  cases t with
  | nil => rfl
  | node l k d h s r =>
      cases r with
      | nil => rfl
      | node rl rk rd rh rs rr => simp [left_rotate, inorder]

theorem inorder_right_rotate (t : ATree α β) :
    inorder (right_rotate t) = inorder t := by
  cases t with
  | nil => rfl
  | node l k d h s r =>
      cases l with
      | nil => rfl
      | node ll lk ld lh ls lr => simp [right_rotate, inorder]

theorem inorder_set_height (t : ATree α β) :
    inorder (set_height_from_children t) = inorder t := by
  cases t <;> rfl

theorem inorder_refresh_right_size (t : ATree α β) :
    inorder (refresh_right_size t) = inorder t := by
  cases t <;> rfl

theorem inorder_set_child_eq (dir : Dir) (c' : ATree α β) (t : ATree α β)
    (h : inorder c' = inorder (child dir t)) :
    inorder (set_child dir c' t) = inorder t := by
  cases t with
  | nil => rfl
  | node l k d ht s r => cases dir <;> simp_all [set_child, child, inorder]

theorem inorder_insert_fix_at (dir : Dir) (t : ATree α β) :
    inorder (insert_fix_at dir t).1 = inorder t := by
  simp only [insert_fix_at]
  split
  · simp only
    rw [inorder_right_rotate]
    split
    · exact inorder_set_child_eq _ _ _ (inorder_left_rotate _)
    · rfl
  · split
    · simp only
      rw [inorder_left_rotate]
      split
      · exact inorder_set_child_eq _ _ _ (inorder_right_rotate _)
      · rfl
    · exact inorder_set_height t

theorem inorder_delete_fix_at (fuel : Nat) (t : ATree α β) :
    inorder (delete_fix_at fuel t) = inorder t := by
  induction fuel generalizing t with
  | zero => rfl
  | succ n ih =>
      simp only [delete_fix_at]
      split
      · rw [ih, inorder_right_rotate]
        rw [show inorder (if get_balance_factor
              (child Dir.left (set_height_from_children t)) < 0 then
              set_child Dir.left
                (left_rotate (child Dir.left (set_height_from_children t)))
                (set_height_from_children t)
            else set_height_from_children t) =
            inorder (set_height_from_children t) from ?_, inorder_set_height]
        split
        · exact inorder_set_child_eq _ _ _ (inorder_left_rotate _)
        · rfl
      · split
        · rw [ih, inorder_left_rotate]
          rw [show inorder (if get_balance_factor
                (child Dir.right (set_height_from_children t)) > 0 then
                set_child Dir.right
                  (right_rotate (child Dir.right (set_height_from_children t)))
                  (set_height_from_children t)
              else set_height_from_children t) =
              inorder (set_height_from_children t) from ?_, inorder_set_height]
          split
          · exact inorder_set_child_eq _ _ _ (inorder_right_rotate _)
          · rfl
        · exact inorder_set_height t

theorem inorder_delete_fixup (t : ATree α β) :
    inorder (delete_fixup t) = inorder t :=
  inorder_delete_fix_at _ t

end AVLTree

namespace ListModel

variable {α β : Type} [LinearOrder α]

theorem hasKey_iff (k : α) (l : List (α × β)) :
    hasKey k l = true ↔ k ∈ l.map Prod.fst := by
  induction l with
  | nil => simp [hasKey]
  | cons a t ih => cases a with | mk k' d' => simp [hasKey, ih]

theorem listIns_append_lt {k ck : α} (d : β) (hk : k < ck)
    (A B : List (α × β)) (cd : β) :
    listIns k d (A ++ (ck, cd) :: B) = listIns k d A ++ (ck, cd) :: B := by
  induction A with
  | nil => simp [listIns, hk]
  | cons a t ih =>
      cases a with
      | mk k' d' =>
          by_cases h : k < k' <;> simp [listIns, h, ih]

theorem listIns_append_gt {k ck : α} (d : β) (hk : ck < k)
    (A B : List (α × β)) (cd : β) (hA : ∀ a ∈ A, a.1 < k) :
    listIns k d (A ++ (ck, cd) :: B) = A ++ (ck, cd) :: listIns k d B := by
  induction A with
  | nil => simp [listIns, not_lt_of_gt hk]
  | cons a t ih =>
      cases a with
      | mk k' d' =>
          have : ¬k < k' := not_lt_of_gt (hA (k', d') (by simp))
          simp [listIns, this]
          exact ih (fun a ha => hA a (by simp [ha]))

theorem eraseKey_of_not_mem {k : α} {A : List (α × β)}
    (h : ∀ a ∈ A, a.1 ≠ k) : eraseKey k A = A := by
  induction A with
  | nil => rfl
  | cons a t ih =>
      cases a with
      | mk k' d' =>
          have : k ≠ k' := fun e => (h (k', d') (by simp)) e.symm
          simp [eraseKey, this]
          exact ih (fun a ha => h a (by simp [ha]))

theorem eraseKey_append_lt {k ck : α} (hne : k ≠ ck)
    (A B : List (α × β)) (cd : β) (hB : ∀ a ∈ B, a.1 ≠ k) :
    eraseKey k (A ++ (ck, cd) :: B) = eraseKey k A ++ (ck, cd) :: B := by
  induction A with
  | nil => simp [eraseKey, hne, eraseKey_of_not_mem hB]
  | cons a t ih =>
      cases a with
      | mk k' d' =>
          by_cases h : k = k' <;> simp [eraseKey, h, ih]

theorem eraseKey_append_gt {k ck : α} (hne : k ≠ ck)
    (A B : List (α × β)) (cd : β) (hA : ∀ a ∈ A, a.1 ≠ k) :
    eraseKey k (A ++ (ck, cd) :: B) = A ++ (ck, cd) :: eraseKey k B := by
  induction A with
  | nil => simp [eraseKey, hne]
  | cons a t ih =>
      cases a with
      | mk k' d' =>
          have : k ≠ k' := fun e => (hA (k', d') (by simp)) e.symm
          simp [eraseKey, this]
          exact ih (fun a ha => hA a (by simp [ha]))

theorem eraseKey_middle {k : α} (A B : List (α × β)) (d : β)
    (hA : ∀ a ∈ A, a.1 ≠ k) :
    eraseKey k (A ++ (k, d) :: B) = A ++ B := by
  induction A with
  | nil => simp [eraseKey]
  | cons a t ih =>
      cases a with
      | mk k' d' =>
          have : k ≠ k' := fun e => (hA (k', d') (by simp)) e.symm
          simp [eraseKey, this]
          exact ih (fun a ha => hA a (by simp [ha]))

theorem eraseKey_sublist (k : α) (l : List (α × β)) :
    (eraseKey k l).Sublist l := by
  induction l with
  | nil => simp [eraseKey]
  | cons a t ih =>
      cases a with
      | mk k' d' =>
          by_cases h : k = k'
          · rw [eraseKey, if_pos h]
            exact List.sublist_cons_self _ _
          · rw [eraseKey, if_neg h]
            exact ih.cons₂ _

theorem sortedKeys_eraseKey {k : α} {l : List (α × β)}
    (h : SortedKeys l) : SortedKeys (eraseKey k l) :=
  h.sublist (eraseKey_sublist k l)

theorem mem_listIns {k : α} {d : β} {l : List (α × β)} {b : α × β}
    (hb : b ∈ listIns k d l) : b = (k, d) ∨ b ∈ l := by
  induction l with
  | nil => simpa [listIns] using hb
  | cons a t ih =>
      cases a with
      | mk k' d' =>
          by_cases h : k < k'
          · rw [listIns, if_pos h] at hb
            rcases List.mem_cons.1 hb with hb | hb
            · exact Or.inl hb
            · exact Or.inr hb
          · rw [listIns, if_neg h] at hb
            rcases List.mem_cons.1 hb with hb | hb
            · exact Or.inr (by simp [hb])
            · rcases ih hb with hb | hb
              · exact Or.inl hb
              · exact Or.inr (by simp [hb])

theorem sortedKeys_listIns {k : α} {d : β} {l : List (α × β)}
    (h : SortedKeys l) (hk : ¬hasKey k l = true) :
    SortedKeys (listIns k d l) := by
  induction l with
  | nil => simp [listIns, SortedKeys]
  | cons a t ih =>
      cases a with
      | mk k' d' =>
          rw [SortedKeys, List.pairwise_cons] at h
          have hne : ¬k = k' := by
            intro e
            exact hk (by simp [hasKey, e])
          by_cases hlt : k < k'
          · rw [SortedKeys, listIns, if_pos hlt]
            refine List.pairwise_cons.2 ⟨?_, List.pairwise_cons.2 ⟨h.1, h.2⟩⟩
            intro b hb
            rcases List.mem_cons.1 hb with hb | hb
            · simp [hb, hlt]
            · exact lt_trans hlt (h.1 b hb)
          · have hgt : k' < k := lt_of_le_of_ne (not_lt.1 hlt) (fun e => hne e.symm)
            rw [SortedKeys, listIns, if_neg hlt]
            refine List.pairwise_cons.2 ⟨?_, ?_⟩
            · intro b hb
              rcases mem_listIns hb with hb | hb
              · simp [hb, hgt]
              · exact h.1 b hb
            · exact ih h.2 (fun hh => hk (by simp [hasKey, hh]))
  
end ListModel

namespace AVLTree

variable {α β : Type} [LinearOrder α]

theorem sorted_parts {A B : List (α × β)} {ck : α} {cd : β}
    (h : ListModel.SortedKeys (A ++ (ck, cd) :: B)) :
    ListModel.SortedKeys A ∧ ListModel.SortedKeys B ∧
      (∀ a ∈ A, a.1 < ck) ∧ (∀ b ∈ B, ck < b.1) := by
  rw [ListModel.SortedKeys, List.pairwise_append] at h
  obtain ⟨hA, hCB, hcross⟩ := h
  rw [List.pairwise_cons] at hCB
  exact ⟨hA, hCB.2, fun a ha => hcross a ha (ck, cd) (by simp), hCB.1⟩

theorem inorder_strip_sizes (t : ATree α β) :
    inorder (ATree.strip_sizes t) = inorder t := by
  induction t with
  | nil => rfl
  | node l k d h s r ihl ihr => simp [ATree.strip_sizes, inorder, ihl, ihr]

theorem strip_sizes_refresh (t : ATree α β) :
    ATree.strip_sizes (refresh_right_size t) = ATree.strip_sizes t := by
  cases t <;> rfl

theorem insert_go_dup_strip {k : α} {d : β} {t t' : ATree α β} {i : Nat}
    (h : insert_go k d t = .dup t' i) :
    ATree.strip_sizes t' = ATree.strip_sizes t := by
  induction t generalizing t' i with
  | nil => simp [insert_go] at h
  | node l ck cd ch cs r ihl ihr =>
      by_cases hlt : k < ck
      · rw [insert_go, if_pos hlt] at h
        cases hres : insert_go k d l with
        | ok l' st i' =>
            rw [hres] at h
            cases st <;> simp only at h
            · cases hr : refresh_right_size r <;> rw [hr] at h <;> simp at h
            · simp at h
            · simp at h
        | dup l' i' =>
            rw [hres] at h
            simp only [InsResult.dup.injEq] at h
            rw [← h.1]
            simp [ATree.strip_sizes, ihl hres, strip_sizes_refresh r]
      · by_cases hgt : ck < k
        · rw [insert_go, if_neg hlt, if_pos hgt] at h
          cases hres : insert_go k d r with
          | ok r' st i' =>
              rw [hres] at h
              cases st <;> simp only at h
              · cases l <;> simp at h
              · simp at h
              · simp at h
          | dup r' i' =>
              rw [hres] at h
              simp only [InsResult.dup.injEq] at h
              rw [← h.1]
              simp [ATree.strip_sizes, ihr hres]
        · rw [insert_go, if_neg hlt, if_neg hgt] at h
          simp only [InsResult.dup.injEq] at h
          rw [← h.1]

theorem inorder_insert_go_dup {k : α} {d : β} {t t' : ATree α β} {i : Nat}
    (h : insert_go k d t = .dup t' i) : inorder t' = inorder t := by
  rw [← inorder_strip_sizes t', insert_go_dup_strip h, inorder_strip_sizes]

theorem insert_go_dup_hasKey {k : α} {d : β} {t t' : ATree α β} {i : Nat}
    (h : insert_go k d t = .dup t' i) :
    ListModel.hasKey k (inorder t) = true := by
  induction t generalizing t' i with
  | nil => simp [insert_go] at h
  | node l ck cd ch cs r ihl ihr =>
      rw [ListModel.hasKey_iff]
      simp only [inorder, List.map_append, List.map_cons, List.mem_append,
        List.mem_cons]
      by_cases hlt : k < ck
      · rw [insert_go, if_pos hlt] at h
        cases hres : insert_go k d l with
        | ok l' st i' =>
            rw [hres] at h
            cases st <;> simp only at h
            · cases hr : refresh_right_size r <;> rw [hr] at h <;> simp at h
            · simp at h
            · simp at h
        | dup l' i' =>
            have := ihl hres
            rw [ListModel.hasKey_iff] at this
            exact Or.inl this
      · by_cases hgt : ck < k
        · rw [insert_go, if_neg hlt, if_pos hgt] at h
          cases hres : insert_go k d r with
          | ok r' st i' =>
              rw [hres] at h
              cases st <;> simp only at h
              · cases l <;> simp at h
              · simp at h
              · simp at h
          | dup r' i' =>
              have := ihr hres
              rw [ListModel.hasKey_iff] at this
              exact Or.inr (Or.inr this)
        · exact Or.inr (Or.inl (le_antisymm (not_lt.1 hgt) (not_lt.1 hlt)))

theorem insert_go_hasKey_dup {k : α} (d : β) {t : ATree α β}
    (hs : ListModel.SortedKeys (inorder t))
    (hk : ListModel.hasKey k (inorder t) = true) :
    ∃ t' i, insert_go k d t = .dup t' i := by
  induction t with
  | nil => simp [inorder, ListModel.hasKey] at hk
  | node l ck cd ch cs r ihl ihr =>
      simp only [inorder] at hs
      obtain ⟨hsl, hsr, hAlt, hBgt⟩ := sorted_parts hs
      rw [ListModel.hasKey_iff] at hk
      simp only [inorder, List.map_append, List.map_cons, List.mem_append,
        List.mem_cons] at hk
      by_cases hlt : k < ck
      · have hkl : ListModel.hasKey k (inorder l) = true := by
          rw [ListModel.hasKey_iff]
          rcases hk with hk | hk | hk
          · exact hk
          · exact absurd hk (ne_of_lt hlt)
          · obtain ⟨a, ha, rfl⟩ := List.mem_map.1 hk
            exact absurd (hBgt a ha) (not_lt_of_gt hlt)
        obtain ⟨l', i', hres⟩ := ihl hsl hkl
        refine ⟨ATree.node l' ck cd ch cs (refresh_right_size r),
          i' + (1 + get_subtree_size (refresh_right_size r)), ?_⟩
        rw [insert_go, if_pos hlt, hres]
      · by_cases hgt : ck < k
        · have hkr : ListModel.hasKey k (inorder r) = true := by
            rw [ListModel.hasKey_iff]
            rcases hk with hk | hk | hk
            · obtain ⟨a, ha, rfl⟩ := List.mem_map.1 hk
              exact absurd (hAlt a ha) (not_lt_of_gt hgt)
            · exact absurd hk.symm (ne_of_lt hgt)
            · exact hk
          obtain ⟨r', i', hres⟩ := ihr hsr hkr
          refine ⟨ATree.node l ck cd ch cs r', i', ?_⟩
          rw [insert_go, if_neg hlt, if_pos hgt, hres]
        · refine ⟨ATree.node l ck cd ch cs r, 0, ?_⟩
          rw [insert_go, if_neg hlt, if_neg hgt]

theorem inorder_insert_go_ok {k : α} {d : β} {t t' : ATree α β}
    {st : FixStatus} {i : Nat}
    (hs : ListModel.SortedKeys (inorder t))
    (h : insert_go k d t = .ok t' st i) :
    inorder t' = ListModel.listIns k d (inorder t) := by
  induction t generalizing t' st i with
  | nil =>
      simp only [insert_go, InsResult.ok.injEq] at h
      rw [← h.1]; rfl
  | node l ck cd ch cs r ihl ihr =>
      simp only [inorder] at hs
      obtain ⟨hsl, hsr, hAlt, hBgt⟩ := sorted_parts hs
      by_cases hlt : k < ck
      · rw [insert_go, if_pos hlt] at h
        show inorder t' = ListModel.listIns k d (inorder l ++ (ck, cd) :: inorder r)
        rw [ListModel.listIns_append_lt d hlt]
        cases hres : insert_go k d l with
        | dup l' i' => rw [hres] at h; simp at h
        | ok l' st' i' =>
            rw [hres] at h
            have hl' : inorder l' = ListModel.listIns k d (inorder l) :=
              ihl hsl hres
            cases st' <;> simp only at h
            · cases r with
              | nil =>
                  simp only [refresh_right_size] at h
                  simp only [InsResult.ok.injEq] at h
                  rw [← h.1, inorder_set_height]
                  simp [inorder, hl']
              | node rl rk rd rh rs rr =>
                  simp only [refresh_right_size] at h
                  simp only [InsResult.ok.injEq] at h
                  rw [← h.1]
                  simp [inorder, hl']
            · simp only [InsResult.ok.injEq] at h
              rw [← h.1, inorder_insert_fix_at]
              simp [inorder, hl', inorder_refresh_right_size]
            · simp only [InsResult.ok.injEq] at h
              rw [← h.1]
              simp [inorder, hl', inorder_refresh_right_size]
      · by_cases hgt : ck < k
        · rw [insert_go, if_neg hlt, if_pos hgt] at h
          show inorder t' =
            ListModel.listIns k d (inorder l ++ (ck, cd) :: inorder r)
          rw [ListModel.listIns_append_gt d hgt _ _ _
            (fun a ha => lt_trans (hAlt a ha) hgt)]
          cases hres : insert_go k d r with
          | dup r' i' => rw [hres] at h; simp at h
          | ok r' st' i' =>
              rw [hres] at h
              have hr' : inorder r' = ListModel.listIns k d (inorder r) :=
                ihr hsr hres
              cases st' <;> simp only at h
              · cases l with
                | nil =>
                    simp only [InsResult.ok.injEq] at h
                    rw [← h.1, inorder_set_height]
                    simp [inorder, hr']
                | node ll lk ld lh ls lr =>
                    simp only [InsResult.ok.injEq] at h
                    rw [← h.1]
                    simp [inorder, hr']
              · simp only [InsResult.ok.injEq] at h
                rw [← h.1, inorder_insert_fix_at]
                simp [inorder, hr']
              · simp only [InsResult.ok.injEq] at h
                rw [← h.1]
                simp [inorder, hr']
        · rw [insert_go, if_neg hlt, if_neg hgt] at h
          simp at h

theorem delete_leftmost_eq_none_iff (t : ATree α β) :
    delete_leftmost t = none ↔ t = .nil := by
  induction t with
  | nil => simp [delete_leftmost]
  | node l k d h s r ihl ihr =>
      cases l with
      | nil => simp [delete_leftmost]
      | node ll lk ld lh ls lr =>
          simp only [delete_leftmost]
          cases hdl : delete_leftmost (ATree.node ll lk ld lh ls lr) with
          | none => simp [hdl] at ihl
          | some p => simp

theorem inorder_delete_leftmost {t : ATree α β} {mk : α} {md : β}
    {t' : ATree α β} (h : delete_leftmost t = some (mk, md, t')) :
    inorder t = (mk, md) :: inorder t' := by
  induction t generalizing mk md t' with
  | nil => simp [delete_leftmost] at h
  | node l k d ht s r ihl ihr =>
      cases l with
      | nil =>
          simp only [delete_leftmost, Option.some.injEq] at h
          obtain ⟨rfl, rfl, rfl⟩ := h
          rfl
      | node ll lk ld lh ls lr =>
          simp only [delete_leftmost] at h
          cases hdl : delete_leftmost (ATree.node ll lk ld lh ls lr) with
          | none => rw [hdl] at h; simp at h
          | some p =>
              obtain ⟨a, b, l'⟩ := p
              rw [hdl] at h
              simp only [Option.some.injEq] at h
              obtain ⟨rfl, rfl, rfl⟩ := h
              show inorder (ATree.node ll lk ld lh ls lr) ++ (k, d) :: inorder r
                = _
              rw [ihl hdl, inorder_delete_fixup]
              rfl

theorem hasKey_split {k : α} {A B : List (α × β)} {ck : α} {cd : β}
    (h : ListModel.hasKey k (A ++ (ck, cd) :: B) = false) :
    ListModel.hasKey k A = false ∧ k ≠ ck ∧ ListModel.hasKey k B = false := by
  constructor
  · by_contra hc
    rw [Bool.not_eq_false, ListModel.hasKey_iff] at hc
    have : ListModel.hasKey k (A ++ (ck, cd) :: B) = true := by
      rw [ListModel.hasKey_iff]; simp at hc ⊢; tauto
    rw [h] at this; cases this
  constructor
  · intro e
    have : ListModel.hasKey k (A ++ (ck, cd) :: B) = true := by
      rw [ListModel.hasKey_iff]; simp [e]
    rw [h] at this; cases this
  · by_contra hc
    rw [Bool.not_eq_false, ListModel.hasKey_iff] at hc
    have : ListModel.hasKey k (A ++ (ck, cd) :: B) = true := by
      rw [ListModel.hasKey_iff]; simp at hc ⊢; tauto
    rw [h] at this; cases this

theorem delete_go_not_found {k : α} {t : ATree α β}
    (hk : ListModel.hasKey k (inorder t) = false) :
    delete_go k t = (t, false) := by
  induction t with
  | nil => rfl
  | node l ck cd ch cs r ihl ihr =>
      have hk2 : ListModel.hasKey k (inorder l ++ (ck, cd) :: inorder r) =
          false := by simpa [inorder] using hk
      obtain ⟨hkl, hne, hkr⟩ := hasKey_split hk2
      by_cases hlt : k < ck
      · rw [delete_go, if_pos hlt]
        simp [ihl hkl]
      · by_cases hgt : ck < k
        · rw [delete_go, if_neg hlt, if_pos hgt]
          simp [ihr hkr]
        · exact absurd (le_antisymm (not_lt.1 hgt) (not_lt.1 hlt)) hne

theorem inorder_delete_go {k : α} {t : ATree α β}
    (hs : ListModel.SortedKeys (inorder t)) :
    inorder (delete_go k t).1 = ListModel.eraseKey k (inorder t) := by
  induction t with
  | nil => rfl
  | node l ck cd ch cs r ihl ihr =>
      simp only [inorder] at hs
      obtain ⟨hsl, hsr, hAlt, hBgt⟩ := sorted_parts hs
      by_cases hlt : k < ck
      · show inorder (delete_go k (ATree.node l ck cd ch cs r)).1 =
          ListModel.eraseKey k (inorder l ++ (ck, cd) :: inorder r)
        rw [ListModel.eraseKey_append_lt (ne_of_lt hlt) _ _ _
          (fun a ha => ne_of_gt (lt_trans hlt (hBgt a ha)))]
        rw [delete_go, if_pos hlt]
        by_cases hb : (delete_go k l).2
        · simp only [hb, if_true, inorder_delete_fixup]
          show inorder (delete_go k l).1 ++ (ck, cd) :: inorder r = _
          rw [ihl hsl]
        · simp only [hb, if_false]
          show inorder (delete_go k l).1 ++ (ck, cd) :: inorder r = _
          rw [ihl hsl]
      · by_cases hgt : ck < k
        · show inorder (delete_go k (ATree.node l ck cd ch cs r)).1 =
            ListModel.eraseKey k (inorder l ++ (ck, cd) :: inorder r)
          rw [ListModel.eraseKey_append_gt (ne_of_gt hgt) _ _ _
            (fun a ha => ne_of_lt (lt_trans (hAlt a ha) hgt))]
          rw [delete_go, if_neg hlt, if_pos hgt]
          by_cases hb : (delete_go k r).2
          · simp only [hb, if_true, inorder_delete_fixup]
            show inorder l ++ (ck, cd) :: inorder (delete_go k r).1 = _
            rw [ihr hsr]
          · simp only [hb, if_false]
            show inorder l ++ (ck, cd) :: inorder (delete_go k r).1 = _
            rw [ihr hsr]
        · have heq : k = ck := le_antisymm (not_lt.1 hgt) (not_lt.1 hlt)
          subst heq
          have hA : ∀ a ∈ inorder l, a.1 ≠ k := fun a ha => ne_of_lt (hAlt a ha)
          cases l with
          | nil =>
              cases r with
              | nil =>
                  rw [delete_go, if_neg hlt, if_neg hgt]; rw [delete_found]
                  simp [inorder, ListModel.eraseKey]
              | node rl rk rd rh rs rr =>
                  rw [delete_go, if_neg hlt, if_neg hgt]; rw [delete_found]
                  simp [inorder, ListModel.eraseKey]
          | node ll lk ld lh ls lr =>
              cases r with
              | nil =>
                  rw [delete_go, if_neg hlt, if_neg hgt]; rw [delete_found]
                  show inorder (ATree.node ll lk ld lh ls lr) =
                    ListModel.eraseKey k
                      (inorder (ATree.node ll lk ld lh ls lr) ++ (k, cd) :: [])
                  rw [ListModel.eraseKey_middle _ _ _ hA, List.append_nil]
              | node rl rk rd rh rs rr =>
                  rw [delete_go, if_neg hlt, if_neg hgt]; rw [delete_found]
                  cases hdl : delete_leftmost (ATree.node rl rk rd rh rs rr) with
                  | none =>
                      rw [delete_leftmost_eq_none_iff] at hdl
                      cases hdl
                  | some p =>
                      obtain ⟨mk, md, r'⟩ := p
                      simp only
                      show inorder (delete_fixup
                          (ATree.node (ATree.node ll lk ld lh ls lr) mk md ch cs r')) =
                        ListModel.eraseKey k
                          (inorder (ATree.node ll lk ld lh ls lr) ++
                            (k, cd) :: inorder (ATree.node rl rk rd rh rs rr))
                      rw [inorder_delete_fixup, ListModel.eraseKey_middle _ _ _ hA,
                        inorder_delete_leftmost hdl]
                      rfl

theorem inorder_step_model {s : AVLState α β}
    (hs : ListModel.SortedKeys (inorder s.root)) (op : Op α β) :
    inorder (step s op).root = ListModel.step (inorder s.root) op := by
  cases op with
  | ins k d =>
      show inorder (match insert s k d with
        | .ok s' => s' | .dup _ s' => s').root = _
      rw [ListModel.step]
      by_cases hk : ListModel.hasKey k (inorder s.root) = true
      · rw [if_pos hk]
        obtain ⟨t', i, hdup⟩ := insert_go_hasKey_dup d hs hk
        rw [insert, hdup]
        exact inorder_insert_go_dup hdup
      · rw [if_neg hk]
        cases hres : insert_go k d s.root with
        | dup t' i => exact absurd (insert_go_dup_hasKey hres) hk
        | ok t' st i =>
            rw [insert, hres]
            exact inorder_insert_go_ok hs hres
  | del k =>
      show inorder (delete_go k s.root).1 = _
      rw [ListModel.step]
      exact inorder_delete_go hs

theorem model_step_sorted {l : List (α × β)} (hs : ListModel.SortedKeys l)
    (op : Op α β) : ListModel.SortedKeys (ListModel.step l op) := by
  cases op with
  | ins k d =>
      rw [ListModel.step]
      by_cases hk : ListModel.hasKey k l = true
      · rwa [if_pos hk]
      · rw [if_neg hk]
        exact ListModel.sortedKeys_listIns hs hk
  | del k => exact ListModel.sortedKeys_eraseKey hs

theorem inorder_foldl_model (ops : List (Op α β)) (s : AVLState α β)
    (hs : ListModel.SortedKeys (inorder s.root)) :
    inorder (List.foldl step s ops).root =
      List.foldl ListModel.step (inorder s.root) ops ∧
    ListModel.SortedKeys (List.foldl ListModel.step (inorder s.root) ops) := by
  induction ops generalizing s with
  | nil => exact ⟨rfl, hs⟩
  | cons op rest ih =>
      have h1 := inorder_step_model hs op
      have h2 := model_step_sorted hs op
      simp only [List.foldl_cons]
      rw [← h1] at h2 ⊢
      exact ih (step s op) h2

theorem inorder_run_model (ops : List (Op α β)) :
    inorder (run ops).root = ListModel.run ops ∧
    ListModel.SortedKeys (ListModel.run ops) := by
  have := inorder_foldl_model ops (empty (α := α) (β := β))
    (by simp [empty, inorder, ListModel.SortedKeys])
  simpa [run, ListModel.run, empty, inorder] using this

end AVLTree

namespace RBTree

variable {α β : Type} [LinearOrder α]

theorem plug_cons (t : RTree α β) (f : RFrame α β) (rest : List (RFrame α β)) :
    plug t (f :: rest) = plug (assemble f f.color t) rest := by
  cases f with | mk dir c k d sib => cases dir <;> rfl

theorem inorder_recolor (c : Color) (t : RTree α β) :
    inorder (recolor_root c t) = inorder t := by
  cases t <;> rfl

theorem inorder_plug_congr {t1 t2 : RTree α β} (h : inorder t1 = inorder t2)
    (ctx : List (RFrame α β)) :
    inorder (plug t1 ctx) = inorder (plug t2 ctx) := by
  induction ctx generalizing t1 t2 with
  | nil => exact h
  | cons f rest ih =>
      rw [plug_cons, plug_cons]
      apply ih
      cases f with
      | mk dir c k d sib => cases dir <;> simp [assemble, inorder, h]

theorem inorder_assemble_left {f : RFrame α β} (h : f.dir = .left)
    (c : Color) (t : RTree α β) :
    inorder (assemble f c t) = inorder t ++ (f.key, f.data) :: inorder f.sib := by
  simp [assemble, h, inorder]

theorem inorder_assemble_right {f : RFrame α β} (h : f.dir = .right)
    (c : Color) (t : RTree α β) :
    inorder (assemble f c t) = inorder f.sib ++ (f.key, f.data) :: inorder t := by
  simp [assemble, h, inorder]

theorem inorder_ins_fix (fuel : Nat) (t : RTree α β)
    (ctx : List (RFrame α β)) :
    inorder (ins_fix fuel t ctx) = inorder (plug t ctx) := by
  induction fuel generalizing t ctx with
  | zero => rfl
  | succ n ih =>
      match ctx with
      | [] => rfl
      | [f0] => rw [ins_fix]
      | f0 :: f1 :: rest' =>
          obtain ⟨d0, c0, k0, e0, s0⟩ := f0
          obtain ⟨d1, c1, k1, e1, s1⟩ := f1
          rw [ins_fix]
          rw [plug_cons t, plug_cons]
          split
          · split <;> split <;>
              · by_cases hu : colorOf s1 = Color.red <;>
                  [simp only [if_pos hu]; simp only [if_neg hu]] <;>
                  first
                  | (rw [ih]
                     try rw [plug_cons]
                     apply inorder_plug_congr
                     simp_all [assemble, inorder, inorder_recolor,
                       List.append_assoc])
                  | rfl
          · rfl

theorem insert_descend_suffix {k : α} :
    ∀ {t : RTree α β} {ctx0 ctx : List (RFrame α β)},
    insert_descend k t ctx0 = some ctx → ∃ pre, ctx = pre ++ ctx0 := by
  intro t
  induction t with
  | nil =>
      intro ctx0 ctx h
      simp only [insert_descend, Option.some.injEq] at h
      exact ⟨[], by simp [h]⟩
  | node c l ck cd r ihl ihr =>
      intro ctx0 ctx h
      rw [insert_descend] at h
      by_cases hlt : k < ck
      · rw [if_pos hlt] at h
        obtain ⟨pre, hpre⟩ := ihl h
        exact ⟨pre ++ [⟨.left, c, ck, cd, r⟩], by simp [hpre]⟩
      · by_cases hgt : k > ck
        · rw [if_neg hlt, if_pos hgt] at h
          obtain ⟨pre, hpre⟩ := ihr h
          exact ⟨pre ++ [⟨.right, c, ck, cd, l⟩], by simp [hpre]⟩
        · rw [if_neg hlt, if_neg hgt] at h
          cases h

theorem insert_descend_graft {k : α} (X : RTree α β) :
    ∀ {t : RTree α β} {ctx0 ctx : List (RFrame α β)},
    insert_descend k t ctx0 = some ctx →
    plug X ctx = plug (graft k X t) ctx0 := by
  intro t
  induction t with
  | nil =>
      intro ctx0 ctx h
      simp only [insert_descend, Option.some.injEq] at h
      rw [← h, graft]
  | node c l ck cd r ihl ihr =>
      intro ctx0 ctx h
      rw [insert_descend] at h
      by_cases hlt : k < ck
      · rw [if_pos hlt] at h
        rw [graft, if_pos hlt, ihl h]
        rfl
      · by_cases hgt : k > ck
        · rw [if_neg hlt, if_pos hgt] at h
          rw [graft, if_neg hlt, if_pos hgt, ihr h]
          rfl
        · rw [if_neg hlt, if_neg hgt] at h
          cases h

theorem inorder_graft {k : α} {d : β} :
    ∀ {t : RTree α β} {ctx0 ctx : List (RFrame α β)},
    ListModel.SortedKeys (inorder t) →
    insert_descend k t ctx0 = some ctx →
    inorder (graft k (.node .red .nil k d .nil) t) =
      ListModel.listIns k d (inorder t) := by
  intro t
  induction t with
  | nil => intro ctx0 ctx hs h; rfl
  | node c l ck cd r ihl ihr =>
      intro ctx0 ctx hs h
      simp only [inorder] at hs
      obtain ⟨hsl, hsr, hAlt, hBgt⟩ := AVLTree.sorted_parts hs
      rw [insert_descend] at h
      by_cases hlt : k < ck
      · rw [if_pos hlt] at h
        rw [graft, if_pos hlt]
        show inorder (graft k _ l) ++ (ck, cd) :: inorder r =
          ListModel.listIns k d (inorder l ++ (ck, cd) :: inorder r)
        rw [ListModel.listIns_append_lt d hlt, ihl hsl h]
      · by_cases hgt : k > ck
        · rw [if_neg hlt, if_pos hgt] at h
          rw [graft, if_neg hlt, if_pos hgt]
          show inorder l ++ (ck, cd) :: inorder (graft k _ r) =
            ListModel.listIns k d (inorder l ++ (ck, cd) :: inorder r)
          rw [ListModel.listIns_append_gt d hgt _ _ _
            (fun a ha => lt_trans (hAlt a ha) hgt), ihr hsr h]
        · rw [if_neg hlt, if_neg hgt] at h
          cases h

theorem insert_descend_none_hasKey {k : α} :
    ∀ {t : RTree α β} {ctx0 : List (RFrame α β)},
    insert_descend k t ctx0 = none →
    ListModel.hasKey k (inorder t) = true := by
  intro t
  induction t with
  | nil => intro ctx0 h; cases h
  | node c l ck cd r ihl ihr =>
      intro ctx0 h
      rw [insert_descend] at h
      rw [ListModel.hasKey_iff]
      simp only [inorder, List.map_append, List.map_cons, List.mem_append,
        List.mem_cons]
      by_cases hlt : k < ck
      · rw [if_pos hlt] at h
        have := ihl h
        rw [ListModel.hasKey_iff] at this
        exact Or.inl this
      · by_cases hgt : k > ck
        · rw [if_neg hlt, if_pos hgt] at h
          have := ihr h
          rw [ListModel.hasKey_iff] at this
          exact Or.inr (Or.inr this)
        · exact Or.inr (Or.inl (le_antisymm (not_lt.1 hgt) (not_lt.1 hlt)))

theorem hasKey_insert_descend_none {k : α} :
    ∀ {t : RTree α β} (ctx0 : List (RFrame α β)),
    ListModel.SortedKeys (inorder t) →
    ListModel.hasKey k (inorder t) = true →
    insert_descend k t ctx0 = none := by
  intro t
  induction t with
  | nil => intro ctx0 hs hk; simp [inorder, ListModel.hasKey] at hk
  | node c l ck cd r ihl ihr =>
      intro ctx0 hs hk
      simp only [inorder] at hs
      obtain ⟨hsl, hsr, hAlt, hBgt⟩ := AVLTree.sorted_parts hs
      rw [ListModel.hasKey_iff] at hk
      simp only [inorder, List.map_append, List.map_cons, List.mem_append,
        List.mem_cons] at hk
      rw [insert_descend]
      by_cases hlt : k < ck
      · rw [if_pos hlt]
        apply ihl _ hsl
        rw [ListModel.hasKey_iff]
        rcases hk with hk | hk | hk
        · exact hk
        · exact absurd hk (ne_of_lt hlt)
        · obtain ⟨a, ha, rfl⟩ := List.mem_map.1 hk
          exact absurd (hBgt a ha) (not_lt_of_gt hlt)
      · by_cases hgt : k > ck
        · rw [if_neg hlt, if_pos hgt]
          apply ihr _ hsr
          rw [ListModel.hasKey_iff]
          rcases hk with hk | hk | hk
          · obtain ⟨a, ha, rfl⟩ := List.mem_map.1 hk
            exact absurd (hAlt a ha) (not_lt_of_gt hgt)
          · exact absurd hk.symm (ne_of_lt hgt)
          · exact hk
        · rw [if_neg hlt, if_neg hgt]

theorem inorder_insert_ok {k : α} {d : β} {t t' : RTree α β}
    (hs : ListModel.SortedKeys (inorder t)) (h : insert t k d = .ok t') :
    inorder t' = ListModel.listIns k d (inorder t) := by
  rw [insert] at h
  cases hdes : insert_descend k t [] with
  | none => rw [hdes] at h; cases h
  | some ctx =>
      rw [hdes] at h
      cases ctx with
      | nil =>
          obtain ⟨pre, hpre⟩ := insert_descend_suffix hdes
          cases t with
          | nil =>
              simp only [RBOutcome.ok.injEq] at h
              rw [← h]
              rfl
          | node c l ck cd r =>
              rw [insert_descend] at hdes
              by_cases hlt : k < ck
              · rw [if_pos hlt] at hdes
                obtain ⟨pre2, hpre2⟩ := insert_descend_suffix hdes
                simp at hpre2
              · by_cases hgt : k > ck
                · rw [if_neg hlt, if_pos hgt] at hdes
                  obtain ⟨pre2, hpre2⟩ := insert_descend_suffix hdes
                  simp at hpre2
                · rw [if_neg hlt, if_neg hgt] at hdes
                  cases hdes
      | cons f ctx' =>
          simp only [RBOutcome.ok.injEq] at h
          rw [← h, inorder_recolor, inorder_ins_fix,
            insert_descend_graft _ hdes]
          exact inorder_graft hs hdes

theorem insert_dup_unchanged {k : α} {d : β} {t : RTree α β} {k' : α}
    {t' : RTree α β} (h : insert t k d = .dup k' t') : t' = t ∧ k' = k := by
  rw [insert] at h
  cases hdes : insert_descend k t [] with
  | none =>
      rw [hdes] at h
      simp only [RBOutcome.dup.injEq] at h
      exact ⟨h.2.symm, h.1.symm⟩
  | some ctx =>
      rw [hdes] at h
      cases ctx <;> cases h

theorem inorder_del_fix (fuel : Nat) (t : RTree α β)
    (ctx : List (RFrame α β)) :
    inorder (del_fix fuel t ctx) = inorder (plug t ctx) := by
  induction fuel generalizing t ctx with
  | zero => rfl
  | succ n ih =>
      match ctx with
      | [] => exact inorder_recolor _ _
      | f0 :: rest =>
          obtain ⟨d0, c0, k0, e0, s0⟩ := f0
          cases d0 <;>
            · simp only [del_fix]
              repeat' split
              all_goals
                first
                | (simp only [plug_cons]
                   done)
                | (rw [ih]
                   simp only [plug_cons]
                   apply inorder_plug_congr
                   simp_all [assemble, inorder, inorder_recolor,
                     List.append_assoc])
                | (rw [inorder_recolor]
                   simp only [plug_cons]
                   apply inorder_plug_congr
                   simp_all [assemble, inorder, inorder_recolor,
                     List.append_assoc])
                | (simp only [plug_cons]
                   apply inorder_plug_congr
                   simp_all [assemble, inorder, inorder_recolor,
                     List.append_assoc])

theorem inorder_del_min {t : RTree α β} {oc : Color} {mk : α} {md : β}
    {mrr t' : RTree α β} (h : del_min t = some (oc, mk, md, mrr, t')) :
    inorder t = (mk, md) :: inorder t' := by
  induction t generalizing oc mrr t' with
  | nil => cases h
  | node c l ck cd r ihl ihr =>
      cases l with
      | nil =>
          simp only [del_min, Option.some.injEq] at h
          obtain ⟨rfl, rfl, rfl, rfl, rfl⟩ := h
          rfl
      | node lc ll lk ld lr =>
          rw [del_min] at h
          cases hdm : del_min (RTree.node lc ll lk ld lr) with
          | none => rw [hdm] at h; cases h
          | some p =>
              obtain ⟨a, b, e, f, l'⟩ := p
              rw [hdm] at h
              simp only [Option.some.injEq] at h
              obtain ⟨rfl, rfl, rfl, rfl, rfl⟩ := h
              show inorder (RTree.node lc ll lk ld lr) ++ (ck, cd) :: inorder r = _
              rw [ihl hdm]
              rfl

theorem del_min_ne_none {c : Color} {l : RTree α β} {k : α} {d : β}
    {r : RTree α β} : del_min (RTree.node c l k d r) ≠ none := by
  induction l generalizing c k d r with
  | nil => simp [del_min]
  | node lc ll lk ld lr ihl ihr =>
      rw [del_min]
      cases hdm : del_min (RTree.node lc ll lk ld lr) with
      | none => exact absurd hdm ihl
      | some p => obtain ⟨a, b, e, f, l'⟩ := p; simp

theorem find_ctx_plug {k : α} :
    ∀ {t : RTree α β} {ctx0 : List (RFrame α β)} {f : RTree α β}
    {ctx : List (RFrame α β)},
    find_ctx k t ctx0 = some (f, ctx) →
    plug f ctx = plug t ctx0 ∧
      ∃ c l d r, f = RTree.node c l k d r := by
  intro t
  induction t with
  | nil => intro ctx0 f ctx h; cases h
  | node c l ck cd r ihl ihr =>
      intro ctx0 f ctx h
      rw [find_ctx] at h
      by_cases hlt : k < ck
      · rw [if_pos hlt] at h
        obtain ⟨h1, h2⟩ := ihl h
        exact ⟨h1, h2⟩
      · by_cases hgt : k > ck
        · rw [if_neg hlt, if_pos hgt] at h
          obtain ⟨h1, h2⟩ := ihr h
          exact ⟨h1, h2⟩
        · rw [if_neg hlt, if_neg hgt] at h
          have heq : k = ck := le_antisymm (not_lt.1 hgt) (not_lt.1 hlt)
          subst heq
          simp only [Option.some.injEq, Prod.mk.injEq] at h
          obtain ⟨rfl, rfl⟩ := h
          exact ⟨rfl, c, l, cd, r, rfl⟩

theorem inorder_plug_decomp (t : RTree α β) (ctx : List (RFrame α β)) :
    inorder (plug t ctx) =
      (ctx_lists ctx).1 ++ inorder t ++ (ctx_lists ctx).2 := by
  induction ctx generalizing t with
  | nil => simp [ctx_lists, plug]
  | cons f rest ih =>
      rw [plug_cons, ih]
      obtain ⟨d, c, k, e, s⟩ := f
      cases d <;> simp [ctx_lists, assemble, inorder, List.append_assoc]

theorem descend_path_plug :
    ∀ (path : List Dir) (t : RTree α β) (ctx0 : List (RFrame α β)),
    plug (descend_path t path ctx0).1 (descend_path t path ctx0).2 =
      plug t ctx0 := by
  intro path
  induction path with
  | nil => intro t ctx0; cases t <;> rfl
  | cons dr p ih =>
      intro t ctx0
      cases t with
      | nil => cases dr <;> rfl
      | node c l k d r => cases dr <;> [exact ih l _; exact ih r _]

theorem eraseKey_sorted_middle {k : α} {d : β} {P Q : List (α × β)}
    (hs : ListModel.SortedKeys (P ++ (k, d) :: Q)) :
    ListModel.eraseKey k (P ++ (k, d) :: Q) = P ++ Q := by
  obtain ⟨h1, h2, h3, h4⟩ := AVLTree.sorted_parts hs
  exact ListModel.eraseKey_middle _ _ _ (fun a ha => ne_of_lt (h3 a ha))

theorem find_ctx_none_of_not_hasKey {k : α} :
    ∀ {t : RTree α β} (ctx0 : List (RFrame α β)),
    ListModel.hasKey k (inorder t) = false →
    find_ctx k t ctx0 = none := by
  intro t
  induction t with
  | nil => intro ctx0 hk; rfl
  | node c l ck cd r ihl ihr =>
      intro ctx0 hk
      have hk2 : ListModel.hasKey k (inorder l ++ (ck, cd) :: inorder r) =
          false := by simpa [inorder] using hk
      obtain ⟨hkl, hne, hkr⟩ := AVLTree.hasKey_split hk2
      rw [find_ctx]
      by_cases hlt : k < ck
      · rw [if_pos hlt]
        exact ihl _ hkl
      · by_cases hgt : k > ck
        · rw [if_neg hlt, if_pos hgt]
          exact ihr _ hkr
        · exact absurd (le_antisymm (not_lt.1 hgt) (not_lt.1 hlt)) hne

theorem find_ctx_none_hasKey {k : α} :
    ∀ {t : RTree α β} {ctx0 : List (RFrame α β)},
    ListModel.SortedKeys (inorder t) →
    find_ctx k t ctx0 = none →
    ListModel.hasKey k (inorder t) = false := by
  intro t
  induction t with
  | nil => intro ctx0 hs h; rfl
  | node c l ck cd r ihl ihr =>
      intro ctx0 hs h
      simp only [inorder] at hs
      obtain ⟨hsl, hsr, hAlt, hBgt⟩ := AVLTree.sorted_parts hs
      rw [find_ctx] at h
      rw [Bool.eq_false_iff]
      intro hk
      rw [ListModel.hasKey_iff] at hk
      simp only [inorder, List.map_append, List.map_cons, List.mem_append,
        List.mem_cons] at hk
      by_cases hlt : k < ck
      · rw [if_pos hlt] at h
        have hfalse := ihl hsl h
        rcases hk with hk | hk | hk
        · rw [Bool.eq_false_iff] at hfalse
          exact hfalse (by rw [ListModel.hasKey_iff]; exact hk)
        · exact absurd hk (ne_of_lt hlt)
        · obtain ⟨a, ha, rfl⟩ := List.mem_map.1 hk
          exact absurd (hBgt a ha) (not_lt_of_gt hlt)
      · by_cases hgt : k > ck
        · rw [if_neg hlt, if_pos hgt] at h
          have hfalse := ihr hsr h
          rcases hk with hk | hk | hk
          · obtain ⟨a, ha, rfl⟩ := List.mem_map.1 hk
            exact absurd (hAlt a ha) (not_lt_of_gt hgt)
          · exact absurd hk.symm (ne_of_lt hgt)
          · rw [Bool.eq_false_iff] at hfalse
            exact hfalse (by rw [ListModel.hasKey_iff]; exact hk)
        · rw [if_neg hlt, if_neg hgt] at h
          cases h

theorem not_hasKey_entries {k : α} {A : List (α × β)}
    (h : ListModel.hasKey k A = false) : ∀ a ∈ A, a.1 ≠ k := by
  intro a ha hak
  rw [Bool.eq_false_iff] at h
  apply h
  rw [ListModel.hasKey_iff]
  exact List.mem_map.2 ⟨a, ha, hak⟩

theorem inorder_del_fix_at (t : RTree α β) (path : List Dir) :
    inorder (del_fix_at t path) = inorder t := by
  rw [del_fix_at]
  rw [inorder_del_fix, descend_path_plug]
  cases t <;> rfl

theorem inorder_delete {t : RTree α β} {k : α}
    (hs : ListModel.SortedKeys (inorder t)) :
    inorder (delete t k) = ListModel.eraseKey k (inorder t) := by
  cases hf : find_ctx k t [] with
  | none =>
      have h1 : delete t k = t := by rw [delete, hf]
      rw [h1, ListModel.eraseKey_of_not_mem
        (not_hasKey_entries (find_ctx_none_hasKey hs hf))]
  | some p =>
      obtain ⟨found, ctx⟩ := p
      obtain ⟨hplug, c, l, d0, r, rfl⟩ := find_ctx_plug hf
      have hdec : inorder t =
          (ctx_lists ctx).1 ++ (inorder l ++ (k, d0) :: inorder r) ++
            (ctx_lists ctx).2 := by
        conv in inorder t => rw [show (t : RTree α β) = plug (RTree.node c l k d0 r) ctx from hplug.symm]
        rw [inorder_plug_decomp]
        rfl
      have hmid : ListModel.eraseKey k (inorder t) =
          ((ctx_lists ctx).1 ++ inorder l) ++ (inorder r ++ (ctx_lists ctx).2) := by
        rw [hdec]
        rw [show (ctx_lists ctx).1 ++ (inorder l ++ (k, d0) :: inorder r) ++
            (ctx_lists ctx).2 =
            ((ctx_lists ctx).1 ++ inorder l) ++ (k, d0) ::
              (inorder r ++ (ctx_lists ctx).2) by simp [List.append_assoc]]
        apply eraseKey_sorted_middle
        rw [show ((ctx_lists ctx).1 ++ inorder l) ++ (k, d0) ::
            (inorder r ++ (ctx_lists ctx).2) =
            (ctx_lists ctx).1 ++ (inorder l ++ (k, d0) :: inorder r) ++
              (ctx_lists ctx).2 by simp [List.append_assoc]]
        rw [← hdec]
        exact hs
      rw [hmid]
      rw [delete, hf]
      cases l with
      | nil =>
          cases r with
          | nil =>
              simp only
              split
              · rw [inorder_del_fix]
                rw [inorder_plug_decomp]
                simp [inorder]
              · rw [inorder_plug_decomp]
                simp [inorder]
          | node rc rl rk rd rr =>
              simp only
              split
              · rw [inorder_del_fix]
                rw [inorder_plug_decomp]
                simp [inorder, List.append_assoc]
              · rw [inorder_plug_decomp]
                simp [inorder, List.append_assoc]
      | node lc ll lk ld lr =>
          cases r with
          | nil =>
              simp only
              split
              · rw [inorder_del_fix]
                rw [inorder_plug_decomp]
                simp [inorder, List.append_assoc]
              · rw [inorder_plug_decomp]
                simp [inorder, List.append_assoc]
          | node rc rl rk rd rr =>
              simp only
              split
              · rename_i heq
                exact absurd heq del_min_ne_none
              · rename_i oc mk md mrr r' heq
                have hr0 : inorder (RTree.node rc rl rk rd rr) =
                    (mk, md) :: inorder r' := inorder_del_min heq
                have hr0' : ∀ (A : List (α × β)),
                    inorder rl ++ (rk, rd) :: (inorder rr ++ A) =
                      (mk, md) :: (inorder r' ++ A) := by
                  intro A
                  have h2 := congrArg (fun L => L ++ A) hr0
                  simpa [inorder, List.append_assoc] using h2
                split
                · rw [inorder_del_fix_at]
                  rw [inorder_plug_decomp]
                  simp [inorder, hr0', List.append_assoc]
                · rw [inorder_plug_decomp]
                  simp [inorder, hr0', List.append_assoc]

theorem rb_inorder_step_model (t : RTree α β)
    (hs : ListModel.SortedKeys (inorder t)) (op : Op α β) :
    inorder (step t op) = ListModel.step (inorder t) op := by
  cases op with
  | ins k d =>
      show inorder (match insert t k d with
        | .ok t' => t' | .dup _ t' => t') = _
      rw [ListModel.step]
      by_cases hk : ListModel.hasKey k (inorder t) = true
      · rw [if_pos hk, insert, hasKey_insert_descend_none [] hs hk]
      · rw [if_neg hk]
        cases hres : insert t k d with
        | dup k' t'' =>
            rw [insert] at hres
            cases hdes : insert_descend k t [] with
            | none => exact absurd (insert_descend_none_hasKey hdes) hk
            | some ctx => rw [hdes] at hres; cases ctx <;> cases hres
        | ok t'' => exact inorder_insert_ok hs hres
  | del k =>
      show inorder (delete t k) = _
      rw [ListModel.step]
      exact inorder_delete hs

theorem delete_not_found {t : RTree α β} {k : α}
    (hk : ListModel.hasKey k (inorder t) = false) : delete t k = t := by
  rw [delete, find_ctx_none_of_not_hasKey [] hk]

theorem rb_inorder_foldl_model (ops : List (Op α β)) (t : RTree α β)
    (hs : ListModel.SortedKeys (inorder t)) :
    inorder (List.foldl step t ops) =
      List.foldl ListModel.step (inorder t) ops ∧
    ListModel.SortedKeys (List.foldl ListModel.step (inorder t) ops) := by
  induction ops generalizing t with
  | nil => exact ⟨rfl, hs⟩
  | cons op rest ih =>
      have h1 := rb_inorder_step_model t hs op
      have h2 := AVLTree.model_step_sorted hs op
      simp only [List.foldl_cons]
      rw [← h1] at h2 ⊢
      exact ih (step t op) h2

theorem rb_inorder_run_model (ops : List (Op α β)) :
    inorder (run ops) = ListModel.run ops := by
  have := rb_inorder_foldl_model ops (.nil)
    (by simp [inorder, ListModel.SortedKeys])
  simpa [run, ListModel.run, inorder] using this.1

end RBTree

namespace BTree

variable {α β : Type} [LinearOrder α]

theorem up_while_right_append_none {xs : List Dir}
    (h : up_while_right xs = none) (ys : List Dir) :
    up_while_right (xs ++ ys) = up_while_right ys := by
  induction xs with
  | nil => simp
  | cons e p ih =>
      cases e with
      | left => simp [up_while_right] at h
      | right =>
          simp only [up_while_right] at h
          simp only [List.cons_append, up_while_right]
          exact ih h

theorem up_while_right_append_some {xs q : List Dir}
    (h : up_while_right xs = some q) (ys : List Dir) :
    up_while_right (xs ++ ys) = some (q ++ ys) := by
  induction xs with
  | nil => simp [up_while_right] at h
  | cons e p ih =>
      cases e with
      | left =>
          simp only [up_while_right, Option.some.injEq] at h
          subst h
          simp [up_while_right]
      | right =>
          simp only [up_while_right] at h
          simp only [List.cons_append, up_while_right]
          exact ih h

theorem up_while_right_shape {xs q : List Dir}
    (h : up_while_right xs = some q) : ∃ rs, xs = rs ++ Dir.left :: q := by
  induction xs with
  | nil => simp [up_while_right] at h
  | cons e p ih =>
      cases e with
      | left =>
          simp only [up_while_right, Option.some.injEq] at h
          subst h
          exact ⟨[], rfl⟩
      | right =>
          simp only [up_while_right] at h
          obtain ⟨rs, hrs⟩ := ih h
          exact ⟨Dir.right :: rs, by simp [hrs]⟩

theorem up_while_left_append_none {xs : List Dir}
    (h : up_while_left xs = none) (ys : List Dir) :
    up_while_left (xs ++ ys) = up_while_left ys := by
  induction xs with
  | nil => simp
  | cons e p ih =>
      cases e with
      | right => simp [up_while_left] at h
      | left =>
          simp only [up_while_left] at h
          simp only [List.cons_append, up_while_left]
          exact ih h

theorem up_while_left_append_some {xs q : List Dir}
    (h : up_while_left xs = some q) (ys : List Dir) :
    up_while_left (xs ++ ys) = some (q ++ ys) := by
  induction xs with
  | nil => simp [up_while_left] at h
  | cons e p ih =>
      cases e with
      | right =>
          simp only [up_while_left, Option.some.injEq] at h
          subst h
          simp [up_while_left]
      | left =>
          simp only [up_while_left] at h
          simp only [List.cons_append, up_while_left]
          exact ih h

theorem up_while_left_shape {xs q : List Dir}
    (h : up_while_left xs = some q) : ∃ rs, xs = rs ++ Dir.right :: q := by
  induction xs with
  | nil => simp [up_while_left] at h
  | cons e p ih =>
      cases e with
      | right =>
          simp only [up_while_left, Option.some.injEq] at h
          subst h
          exact ⟨[], rfl⟩
      | left =>
          simp only [up_while_left] at h
          obtain ⟨rs, hrs⟩ := ih h
          exact ⟨Dir.left :: rs, by simp [hrs]⟩

theorem node_at_append_node :
    ∀ (a : List Dir) (t : BTree α β) (e : Dir) (b : List Dir) (n : BTree α β),
    node_at t (a ++ e :: b) = some n →
    ∃ l2 k2 d2 r2, node_at t a = some (BTree.node l2 k2 d2 r2) := by
  intro a
  induction a with
  | nil =>
      intro t e b n h
      cases t with
      | nil => cases e <;> simp [node_at] at h
      | node l k d r => exact ⟨l, k, d, r, rfl⟩
  | cons e0 a0 ih =>
      intro t e b n h
      cases t with
      | nil => cases e0 <;> simp [node_at] at h
      | node l k d r =>
          cases e0 with
          | left =>
              simp only [List.cons_append, node_at] at h ⊢
              exact ih l e b n h
          | right =>
              simp only [List.cons_append, node_at] at h ⊢
              exact ih r e b n h

theorem node_at_key_mem :
    ∀ (p : List Dir) (t l : BTree α β) (k : α) (d : β) (r : BTree α β),
    node_at t p = some (BTree.node l k d r) →
    (k, d) ∈ Traversal.inorder_rec t := by
  intro p
  induction p with
  | nil =>
      intro t l k d r h
      simp only [node_at, Option.some.injEq] at h
      subst h
      simp [Traversal.inorder_rec]
  | cons e p0 ih =>
      intro t l k d r h
      cases t with
      | nil => cases e <;> simp [node_at] at h
      | node tl tk td tr =>
          cases e with
          | left =>
              simp only [node_at] at h
              simp only [Traversal.inorder_rec, List.mem_append, List.mem_cons]
              exact Or.inl (ih tl l k d r h)
          | right =>
              simp only [node_at] at h
              simp only [Traversal.inorder_rec, List.mem_append, List.mem_cons]
              exact Or.inr (Or.inr (ih tr l k d r h))

theorem inorder_ne_nil (l : BTree α β) (k : α) (d : β) (r : BTree α β) :
    Traversal.inorder_rec (BTree.node l k d r) ≠ [] := by
  simp [Traversal.inorder_rec]

theorem get_leftmost_eq_head :
    ∀ (t : BTree α β), get_leftmost t = (Traversal.inorder_rec t).head? := by
  intro t
  induction t with
  | nil => rfl
  | node l k d r ihl ihr =>
      cases l with
      | nil => simp [get_leftmost, Traversal.inorder_rec]
      | node ll lk ld lr =>
          rw [show get_leftmost (BTree.node (BTree.node ll lk ld lr) k d r) =
            get_leftmost (BTree.node ll lk ld lr) from rfl, ihl]
          obtain ⟨e, es, he⟩ := List.exists_cons_of_ne_nil
            (inorder_ne_nil ll lk ld lr)
          simp only [Traversal.inorder_rec] at he ⊢
          rw [he]
          simp

theorem get_rightmost_eq_head :
    ∀ (t : BTree α β), get_rightmost t = (Traversal.inorder_rec t).reverse.head? := by
  intro t
  induction t with
  | nil => rfl
  | node l k d r ihl ihr =>
      cases r with
      | nil => simp [get_rightmost, Traversal.inorder_rec]
      | node rl rk rd rr =>
          rw [show get_rightmost (BTree.node l k d (BTree.node rl rk rd rr)) =
            get_rightmost (BTree.node rl rk rd rr) from rfl, ihr]
          rw [show Traversal.inorder_rec (BTree.node l k d (BTree.node rl rk rd rr)) =
            Traversal.inorder_rec l ++ (k, d) ::
              Traversal.inorder_rec (BTree.node rl rk rd rr) from rfl]
          rw [List.reverse_append, List.reverse_cons]
          obtain ⟨e, es, he⟩ := List.exists_cons_of_ne_nil
            (List.reverse_ne_nil_iff.mpr (inorder_ne_nil rl rk rd rr))
          rw [he]
          simp

theorem succ_left_step {tl : BTree α β} {k0 : α} {d0 : β} {tr : BTree α β}
    {pp : List Dir} {l : BTree α β} {k : α} {d : β} {r : BTree α β}
    (hp : node_at tl pp = some (BTree.node l k d r)) :
    get_successor (BTree.node tl k0 d0 tr) (Dir.left :: pp) =
      (get_successor tl pp).or (some (k0, d0)) := by
  cases r with
  | node rl rk rd rr =>
      have hstep : node_at (BTree.node tl k0 d0 tr) (Dir.left :: pp) =
          some (BTree.node l k d (BTree.node rl rk rd rr)) := hp
      simp only [get_successor, hstep, hp]
      rw [get_leftmost_eq_head]
      obtain ⟨e, es, he⟩ := List.exists_cons_of_ne_nil (inorder_ne_nil rl rk rd rr)
      rw [he]
      rfl
  | nil =>
      have hstep : node_at (BTree.node tl k0 d0 tr) (Dir.left :: pp) =
          some (BTree.node l k d BTree.nil) := hp
      simp only [get_successor, hstep, hp, List.reverse_cons]
      cases huw : up_while_right pp.reverse with
      | none =>
          rw [up_while_right_append_none huw]
          rfl
      | some q =>
          rw [up_while_right_append_some huw]
          obtain ⟨rs, hrs⟩ := up_while_right_shape huw
          have hpp : pp = q.reverse ++ Dir.left :: rs.reverse := by
            have h2 := congrArg List.reverse hrs
            simpa using h2
          rw [hpp] at hp
          obtain ⟨l2, k2, d2, r2, hq⟩ := node_at_append_node q.reverse tl _ _ _ hp
          have hkd : key_data_at tl q.reverse = some (k2, d2) := by
            unfold key_data_at
            rw [hq]
          show key_data_at (BTree.node tl k0 d0 tr) ((q ++ [Dir.left]).reverse) =
            (key_data_at tl q.reverse).or (some (k0, d0))
          rw [show (q ++ [Dir.left]).reverse = Dir.left :: q.reverse by simp]
          rw [show key_data_at (BTree.node tl k0 d0 tr) (Dir.left :: q.reverse) =
            key_data_at tl q.reverse from rfl, hkd]
          rfl

theorem succ_right_step {tl : BTree α β} {k0 : α} {d0 : β} {tr : BTree α β}
    {pp : List Dir} {l : BTree α β} {k : α} {d : β} {r : BTree α β}
    (hp : node_at tr pp = some (BTree.node l k d r)) :
    get_successor (BTree.node tl k0 d0 tr) (Dir.right :: pp) =
      get_successor tr pp := by
  cases r with
  | node rl rk rd rr =>
      have hstep : node_at (BTree.node tl k0 d0 tr) (Dir.right :: pp) =
          some (BTree.node l k d (BTree.node rl rk rd rr)) := hp
      simp only [get_successor, hstep, hp]
  | nil =>
      have hstep : node_at (BTree.node tl k0 d0 tr) (Dir.right :: pp) =
          some (BTree.node l k d BTree.nil) := hp
      simp only [get_successor, hstep, hp, List.reverse_cons]
      cases huw : up_while_right pp.reverse with
      | none =>
          rw [up_while_right_append_none huw]
          rfl
      | some q =>
          rw [up_while_right_append_some huw]
          show key_data_at (BTree.node tl k0 d0 tr) ((q ++ [Dir.right]).reverse) =
            key_data_at tr q.reverse
          rw [show (q ++ [Dir.right]).reverse = Dir.right :: q.reverse by simp]
          rfl

theorem pred_right_step {tl : BTree α β} {k0 : α} {d0 : β} {tr : BTree α β}
    {pp : List Dir} {l : BTree α β} {k : α} {d : β} {r : BTree α β}
    (hp : node_at tr pp = some (BTree.node l k d r)) :
    get_predecessor (BTree.node tl k0 d0 tr) (Dir.right :: pp) =
      (get_predecessor tr pp).or (some (k0, d0)) := by
  cases l with
  | node ll lk ld lr =>
      have hstep : node_at (BTree.node tl k0 d0 tr) (Dir.right :: pp) =
          some (BTree.node (BTree.node ll lk ld lr) k d r) := hp
      simp only [get_predecessor, hstep, hp]
      rw [get_rightmost_eq_head]
      obtain ⟨e, es, he⟩ := List.exists_cons_of_ne_nil
        (List.reverse_ne_nil_iff.mpr (inorder_ne_nil ll lk ld lr))
      rw [he]
      rfl
  | nil =>
      have hstep : node_at (BTree.node tl k0 d0 tr) (Dir.right :: pp) =
          some (BTree.node BTree.nil k d r) := hp
      simp only [get_predecessor, hstep, hp, List.reverse_cons]
      cases huw : up_while_left pp.reverse with
      | none =>
          rw [up_while_left_append_none huw]
          rfl
      | some q =>
          rw [up_while_left_append_some huw]
          obtain ⟨rs, hrs⟩ := up_while_left_shape huw
          have hpp : pp = q.reverse ++ Dir.right :: rs.reverse := by
            have h2 := congrArg List.reverse hrs
            simpa using h2
          rw [hpp] at hp
          obtain ⟨l2, k2, d2, r2, hq⟩ := node_at_append_node q.reverse tr _ _ _ hp
          have hkd : key_data_at tr q.reverse = some (k2, d2) := by
            unfold key_data_at
            rw [hq]
          show key_data_at (BTree.node tl k0 d0 tr) ((q ++ [Dir.right]).reverse) =
            (key_data_at tr q.reverse).or (some (k0, d0))
          rw [show (q ++ [Dir.right]).reverse = Dir.right :: q.reverse by simp]
          rw [show key_data_at (BTree.node tl k0 d0 tr) (Dir.right :: q.reverse) =
            key_data_at tr q.reverse from rfl, hkd]
          rfl

theorem pred_left_step {tl : BTree α β} {k0 : α} {d0 : β} {tr : BTree α β}
    {pp : List Dir} {l : BTree α β} {k : α} {d : β} {r : BTree α β}
    (hp : node_at tl pp = some (BTree.node l k d r)) :
    get_predecessor (BTree.node tl k0 d0 tr) (Dir.left :: pp) =
      get_predecessor tl pp := by
  cases l with
  | node ll lk ld lr =>
      have hstep : node_at (BTree.node tl k0 d0 tr) (Dir.left :: pp) =
          some (BTree.node (BTree.node ll lk ld lr) k d r) := hp
      simp only [get_predecessor, hstep, hp]
  | nil =>
      have hstep : node_at (BTree.node tl k0 d0 tr) (Dir.left :: pp) =
          some (BTree.node BTree.nil k d r) := hp
      simp only [get_predecessor, hstep, hp, List.reverse_cons]
      cases huw : up_while_left pp.reverse with
      | none =>
          rw [up_while_left_append_none huw]
          rfl
      | some q =>
          rw [up_while_left_append_some huw]
          show key_data_at (BTree.node tl k0 d0 tr) ((q ++ [Dir.left]).reverse) =
            key_data_at tl q.reverse
          rw [show (q ++ [Dir.left]).reverse = Dir.left :: q.reverse by simp]
          rfl


theorem get_successor_spec :
    ∀ (t : BTree α β) (p : List Dir) (l : BTree α β) (k : α) (d : β)
      (r : BTree α β),
    ListModel.SortedKeys (Traversal.inorder_rec t) →
    node_at t p = some (BTree.node l k d r) →
    get_successor t p =
      (Traversal.inorder_rec t).find? (fun e => decide (k < e.1)) := by
  intro t
  induction t with
  | nil => intro p l k d r _ hp; cases p <;> simp [node_at] at hp
  | node tl k0 d0 tr ihl ihr =>
      intro p l k d r hs hp
      have hs' : ListModel.SortedKeys (Traversal.inorder_rec tl ++
          (k0, d0) :: Traversal.inorder_rec tr) := hs
      obtain ⟨hsl, hsr, hlt, hgt⟩ := AVLTree.sorted_parts hs'
      have hun : Traversal.inorder_rec (BTree.node tl k0 d0 tr) =
          Traversal.inorder_rec tl ++ (k0, d0) :: Traversal.inorder_rec tr := rfl
      have hltnone : (Traversal.inorder_rec tl).find?
          (fun e => decide (k0 < e.1)) = none :=
        List.find?_eq_none.mpr (fun e he => by
          simp only [decide_eq_true_eq]
          exact not_lt.2 (le_of_lt (hlt e he)))
      cases p with
      | nil =>
          have ht : BTree.node tl k0 d0 tr = BTree.node l k d r := by
            simpa [node_at] using hp
          obtain ⟨e1, e2, e3, e4⟩ := BTree.node.inj ht
          subst e1; subst e2; subst e3; subst e4
          cases tr with
          | node rl rk rd rr =>
              have hL : get_successor (BTree.node tl k0 d0 (BTree.node rl rk rd rr))
                  [] = get_leftmost (BTree.node rl rk rd rr) := rfl
              rw [hL, hun, List.find?_append, hltnone, Option.none_or]
              rw [List.find?_cons_of_neg _ (by simp)]
              rw [get_leftmost_eq_head]
              obtain ⟨e, es, he⟩ := List.exists_cons_of_ne_nil
                (inorder_ne_nil rl rk rd rr)
              rw [he]
              rw [List.find?_cons_of_pos _ (by
                simp only [decide_eq_true_eq]
                exact hgt e (by rw [he]; simp))]
              rfl
          | nil =>
              have hL : get_successor (BTree.node tl k0 d0 BTree.nil) [] = none := rfl
              rw [hL, hun, List.find?_append, hltnone, Option.none_or]
              rw [List.find?_cons_of_neg _ (by simp)]
              rfl
      | cons e0 pp =>
          cases e0 with
          | left =>
              have hp' : node_at tl pp = some (BTree.node l k d r) := hp
              have hk : k < k0 := hlt (k, d) (node_at_key_mem pp tl l k d r hp')
              have hR : (Traversal.inorder_rec tl ++ (k0, d0) ::
                    Traversal.inorder_rec tr).find? (fun e => decide (k < e.1)) =
                  ((Traversal.inorder_rec tl).find?
                    (fun e => decide (k < e.1))).or (some (k0, d0)) := by
                rw [List.find?_append]
                cases hfind : (Traversal.inorder_rec tl).find?
                    (fun e => decide (k < e.1)) with
                | some x => rfl
                | none =>
                    rw [Option.none_or, Option.none_or]
                    rw [List.find?_cons_of_pos _ (by simpa using hk)]
              rw [succ_left_step hp', ihl pp l k d r hsl hp', hun, hR]
          | right =>
              have hp' : node_at tr pp = some (BTree.node l k d r) := hp
              have hk : k0 < k := hgt (k, d) (node_at_key_mem pp tr l k d r hp')
              have hR : (Traversal.inorder_rec tl ++ (k0, d0) ::
                    Traversal.inorder_rec tr).find? (fun e => decide (k < e.1)) =
                  (Traversal.inorder_rec tr).find? (fun e => decide (k < e.1)) := by
                rw [List.find?_append]
                rw [List.find?_eq_none.mpr (fun e he => by
                  simp only [decide_eq_true_eq]
                  exact not_lt.2 (le_of_lt (lt_trans (hlt e he) hk)))]
                rw [Option.none_or]
                rw [List.find?_cons_of_neg _ (by
                  simp only [decide_eq_true_eq, not_lt]
                  exact le_of_lt hk)]
              rw [succ_right_step hp', ihr pp l k d r hsr hp', hun, hR]

theorem get_predecessor_spec :
    ∀ (t : BTree α β) (p : List Dir) (l : BTree α β) (k : α) (d : β)
      (r : BTree α β),
    ListModel.SortedKeys (Traversal.inorder_rec t) →
    node_at t p = some (BTree.node l k d r) →
    get_predecessor t p =
      (Traversal.inorder_rec t).reverse.find? (fun e => decide (e.1 < k)) := by
  intro t
  induction t with
  | nil => intro p l k d r _ hp; cases p <;> simp [node_at] at hp
  | node tl k0 d0 tr ihl ihr =>
      intro p l k d r hs hp
      have hs' : ListModel.SortedKeys (Traversal.inorder_rec tl ++
          (k0, d0) :: Traversal.inorder_rec tr) := hs
      obtain ⟨hsl, hsr, hlt, hgt⟩ := AVLTree.sorted_parts hs'
      have hun : (Traversal.inorder_rec (BTree.node tl k0 d0 tr)).reverse =
          ((Traversal.inorder_rec tr).reverse ++ [(k0, d0)]) ++
            (Traversal.inorder_rec tl).reverse := by
        rw [show Traversal.inorder_rec (BTree.node tl k0 d0 tr) =
          Traversal.inorder_rec tl ++ (k0, d0) :: Traversal.inorder_rec tr from rfl]
        rw [List.reverse_append, List.reverse_cons]
      have hgtnone : (Traversal.inorder_rec tr).reverse.find?
          (fun e => decide (e.1 < k0)) = none :=
        List.find?_eq_none.mpr (fun e he => by
          simp only [decide_eq_true_eq]
          exact not_lt.2 (le_of_lt (hgt e (by simpa using he))))
      cases p with
      | nil =>
          have ht : BTree.node tl k0 d0 tr = BTree.node l k d r := by
            simpa [node_at] using hp
          obtain ⟨e1, e2, e3, e4⟩ := BTree.node.inj ht
          subst e1; subst e2; subst e3; subst e4
          cases tl with
          | node ll lk ld lr =>
              have hL : get_predecessor
                  (BTree.node (BTree.node ll lk ld lr) k0 d0 tr) [] =
                  get_rightmost (BTree.node ll lk ld lr) := rfl
              rw [hL, hun, List.find?_append, List.find?_append, hgtnone,
                Option.none_or]
              rw [List.find?_eq_none.mpr (fun e he => by
                simp only [List.mem_singleton] at he
                subst he
                simp)]
              rw [Option.none_or]
              rw [get_rightmost_eq_head]
              obtain ⟨e, es, he⟩ := List.exists_cons_of_ne_nil
                (List.reverse_ne_nil_iff.mpr (inorder_ne_nil ll lk ld lr))
              rw [he]
              rw [List.find?_cons_of_pos _ (by
                simp only [decide_eq_true_eq]
                refine hlt e ?_
                have he2 : e ∈ (Traversal.inorder_rec
                    (BTree.node ll lk ld lr)).reverse := by rw [he]; simp
                simpa using he2)]
              rfl
          | nil =>
              have hL : get_predecessor (BTree.node BTree.nil k0 d0 tr) [] =
                  none := rfl
              rw [hL, hun, List.find?_append, List.find?_append, hgtnone,
                Option.none_or]
              rw [List.find?_eq_none.mpr (fun e he => by
                simp only [List.mem_singleton] at he
                subst he
                simp)]
              rfl
      | cons e0 pp =>
          cases e0 with
          | right =>
              have hp' : node_at tr pp = some (BTree.node l k d r) := hp
              have hk : k0 < k := hgt (k, d) (node_at_key_mem pp tr l k d r hp')
              have hR : (((Traversal.inorder_rec tr).reverse ++ [(k0, d0)]) ++
                    (Traversal.inorder_rec tl).reverse).find?
                    (fun e => decide (e.1 < k)) =
                  ((Traversal.inorder_rec tr).reverse.find?
                    (fun e => decide (e.1 < k))).or (some (k0, d0)) := by
                rw [List.find?_append, List.find?_append]
                cases hfind : (Traversal.inorder_rec tr).reverse.find?
                    (fun e => decide (e.1 < k)) with
                | some x => rfl
                | none =>
                    rw [Option.none_or]
                    rw [List.find?_cons_of_pos _ (by simpa using hk)]
                    rfl
              rw [pred_right_step hp', ihr pp l k d r hsr hp', hun, hR]
          | left =>
              have hp' : node_at tl pp = some (BTree.node l k d r) := hp
              have hk : k < k0 := hlt (k, d) (node_at_key_mem pp tl l k d r hp')
              have hR : (((Traversal.inorder_rec tr).reverse ++ [(k0, d0)]) ++
                    (Traversal.inorder_rec tl).reverse).find?
                    (fun e => decide (e.1 < k)) =
                  (Traversal.inorder_rec tl).reverse.find?
                    (fun e => decide (e.1 < k)) := by
                rw [List.find?_append, List.find?_append]
                rw [List.find?_eq_none.mpr (fun e he => by
                  simp only [decide_eq_true_eq]
                  exact not_lt.2
                    (le_of_lt (lt_trans hk (hgt e (by simpa using he)))))]
                rw [Option.none_or]
                rw [List.find?_eq_none.mpr (fun e he => by
                  simp only [List.mem_singleton] at he
                  subst he
                  simp only [decide_eq_true_eq, not_lt]
                  exact le_of_lt hk)]
                rw [Option.none_or]
              rw [pred_left_step hp', ihl pp l k d r hsl hp', hun, hR]

end BTree

namespace AVLTree

variable {α β : Type} [LinearOrder α]

theorem node_at_forget :
    ∀ (p : List Dir) (t : ATree α β),
    BTree.node_at (ATree.forget t) p = (node_at t p).map ATree.forget := by
  intro p
  induction p with
  | nil => intro t; cases t <;> rfl
  | cons e p0 ih =>
      intro t
      cases t with
      | nil => cases e <;> rfl
      | node l k d h s r =>
          cases e with
          | left => exact ih l
          | right => exact ih r

theorem key_data_at_forget (t : ATree α β) (p : List Dir) :
    BTree.key_data_at (ATree.forget t) p = key_data_at t p := by
  unfold BTree.key_data_at key_data_at
  rw [node_at_forget]
  cases hn : node_at t p with
  | none => rfl
  | some u => cases u <;> rfl

theorem get_leftmost_forget :
    ∀ (t : ATree α β), BTree.get_leftmost (ATree.forget t) = get_leftmost t := by
  intro t
  induction t with
  | nil => rfl
  | node l k d h s r ihl ihr =>
      cases l with
      | nil => rfl
      | node ll lk ld lh ls lr => exact ihl

theorem get_rightmost_forget :
    ∀ (t : ATree α β), BTree.get_rightmost (ATree.forget t) = get_rightmost t := by
  intro t
  induction t with
  | nil => rfl
  | node l k d h s r ihl ihr =>
      cases r with
      | nil => rfl
      | node rl rk rd rh rs rr => exact ihr

theorem inorder_forget : ∀ (t : ATree α β),
    Traversal.inorder_rec (ATree.forget t) = inorder t := by
  intro t
  induction t with
  | nil => rfl
  | node l k d h s r ihl ihr =>
      simp [ATree.forget, Traversal.inorder_rec, inorder, ihl, ihr]

theorem get_successor_forget (t : ATree α β) (p : List Dir) :
    BTree.get_successor (ATree.forget t) p = get_successor t p := by
  unfold BTree.get_successor get_successor
  rw [node_at_forget]
  cases hn : node_at t p with
  | none => rfl
  | some u =>
      cases u with
      | nil => rfl
      | node l k d h s r =>
          cases r with
          | node rl rk rd rh rs rr =>
              exact get_leftmost_forget (ATree.node rl rk rd rh rs rr)
          | nil =>
              cases up_while_right p.reverse with
              | none => rfl
              | some q => exact key_data_at_forget t q.reverse

theorem get_predecessor_forget (t : ATree α β) (p : List Dir) :
    BTree.get_predecessor (ATree.forget t) p = get_predecessor t p := by
  unfold BTree.get_predecessor get_predecessor
  rw [node_at_forget]
  cases hn : node_at t p with
  | none => rfl
  | some u =>
      cases u with
      | nil => rfl
      | node l k d h s r =>
          cases l with
          | node ll lk ld lh ls lr =>
              exact get_rightmost_forget (ATree.node ll lk ld lh ls lr)
          | nil =>
              cases up_while_left p.reverse with
              | none => rfl
              | some q => exact key_data_at_forget t q.reverse

end AVLTree

namespace RBTree

variable {α β : Type} [LinearOrder α]

theorem rb_node_at_forget :
    ∀ (p : List Dir) (t : RTree α β),
    BTree.node_at (RTree.forget t) p = (node_at t p).map RTree.forget := by
  intro p
  induction p with
  | nil => intro t; cases t <;> rfl
  | cons e p0 ih =>
      intro t
      cases t with
      | nil => cases e <;> rfl
      | node c l k d r =>
          cases e with
          | left => exact ih l
          | right => exact ih r

theorem rb_key_data_at_forget (t : RTree α β) (p : List Dir) :
    BTree.key_data_at (RTree.forget t) p = key_data_at t p := by
  unfold BTree.key_data_at key_data_at
  rw [rb_node_at_forget]
  cases hn : node_at t p with
  | none => rfl
  | some u => cases u <;> rfl

theorem rb_get_leftmost_forget :
    ∀ (t : RTree α β), BTree.get_leftmost (RTree.forget t) = get_leftmost t := by
  intro t
  induction t with
  | nil => rfl
  | node c l k d r ihl ihr =>
      cases l with
      | nil => rfl
      | node lc ll lk ld lr => exact ihl

theorem rb_get_rightmost_forget :
    ∀ (t : RTree α β), BTree.get_rightmost (RTree.forget t) = get_rightmost t := by
  intro t
  induction t with
  | nil => rfl
  | node c l k d r ihl ihr =>
      cases r with
      | nil => rfl
      | node rc rl rk rd rr => exact ihr

theorem rb_inorder_forget : ∀ (t : RTree α β),
    Traversal.inorder_rec (RTree.forget t) = inorder t := by
  intro t
  induction t with
  | nil => rfl
  | node c l k d r ihl ihr =>
      simp [RTree.forget, Traversal.inorder_rec, inorder, ihl, ihr]

theorem rb_get_successor_forget (t : RTree α β) (p : List Dir) :
    BTree.get_successor (RTree.forget t) p = get_successor t p := by
  unfold BTree.get_successor get_successor
  rw [rb_node_at_forget]
  cases hn : node_at t p with
  | none => rfl
  | some u =>
      cases u with
      | nil => rfl
      | node c l k d r =>
          cases r with
          | node rc rl rk rd rr =>
              exact rb_get_leftmost_forget (RTree.node rc rl rk rd rr)
          | nil =>
              cases up_while_right p.reverse with
              | none => rfl
              | some q => exact rb_key_data_at_forget t q.reverse

theorem rb_get_predecessor_forget (t : RTree α β) (p : List Dir) :
    BTree.get_predecessor (RTree.forget t) p = get_predecessor t p := by
  unfold BTree.get_predecessor get_predecessor
  rw [rb_node_at_forget]
  cases hn : node_at t p with
  | none => rfl
  | some u =>
      cases u with
      | nil => rfl
      | node c l k d r =>
          cases l with
          | node lc ll lk ld lr =>
              exact rb_get_rightmost_forget (RTree.node lc ll lk ld lr)
          | nil =>
              cases up_while_left p.reverse with
              | none => rfl
              | some q => exact rb_key_data_at_forget t q.reverse

end RBTree

namespace AVLTree

variable {α β : Type} [LinearOrder α]

theorem real_height_ge : ∀ t : ATree α β, -1 ≤ real_height t := by
  intro t
  cases t with
  | nil => simp [real_height]
  | node l k d h s r =>
      simp only [real_height]
      have := le_max_left (real_height l) (real_height r)
      have h2 := real_height_ge l
      omega

theorem real_height_node_ge {l : ATree α β} {k : α} {d : β} {h : Int} {s : Nat}
    {r : ATree α β} : 0 ≤ real_height (ATree.node l k d h s r) := by
  simp only [real_height]
  have := le_max_left (real_height l) (real_height r)
  have h2 := real_height_ge l
  omega

theorem avl_ok_node {l : ATree α β} {k : α} {d : β} {h : Int} {s : Nat}
    {r : ATree α β} :
    avl_ok (ATree.node l k d h s r) = true ↔
      avl_ok l = true ∧ avl_ok r = true ∧
      h = 1 + max (real_height l) (real_height r) ∧
      real_height l - real_height r ≤ 1 ∧
      real_height r - real_height l ≤ 1 := by
  simp [avl_ok, and_assoc]

theorem get_height_eq {t : ATree α β} (h : avl_ok t = true) :
    get_height t = real_height t := by
  cases t with
  | nil => rfl
  | node l k d hh s r =>
      obtain ⟨_, _, h3, _, _⟩ := avl_ok_node.1 h
      simp [get_height, real_height, h3]

theorem rebalance_left {L r res : ATree α β} (k : α) (d : β) (h : Int) (s : Nat)
    (hL : avl_ok L = true) (hr : avl_ok r = true)
    (hht : real_height L = real_height r + 2)
    (hres : res = right_rotate (if get_balance_factor L < 0 then
        set_child .left (left_rotate L) (ATree.node L k d h s r)
      else ATree.node L k d h s r)) :
    avl_ok res = true ∧
    (real_height res = real_height r + 2 ∨ real_height res = real_height r + 3) ∧
    (get_balance_factor L ≠ 0 → real_height res = real_height r + 2) := by
  have hrge := real_height_ge r
  cases L with
  | nil => simp only [real_height] at hht; omega
  | node ll lk ld lh ls lr =>
      obtain ⟨hokll, hoklr, hlh, hb1, hb2⟩ := avl_ok_node.1 hL
      have hbfL : get_balance_factor (ATree.node ll lk ld lh ls lr) =
          real_height ll - real_height lr := by
        simp [get_balance_factor, get_height_eq hokll, get_height_eq hoklr]
      have hhL : real_height (ATree.node ll lk ld lh ls lr) =
          1 + max (real_height ll) (real_height lr) := rfl
      rw [hhL] at hht
      have g1 := real_height_ge ll
      have g4 := real_height_ge r
      by_cases hneg : get_balance_factor (ATree.node ll lk ld lh ls lr) < 0
      · -- double rotation (left child is right-heavy)
        rw [if_pos hneg] at hres
        rw [hbfL] at hneg
        cases lr with
        | nil =>
            simp only [real_height] at hneg
            omega
        | node lrl lrk lrd lrh lrs lrr =>
            obtain ⟨hoklrl, hoklrr, hlrh, hc1, hc2⟩ := avl_ok_node.1 hoklr
            have g2 := real_height_ge lrl
            have g3 := real_height_ge lrr
            have hres2 : res = ATree.node
                (ATree.node ll lk ld
                  (1 + max (get_height ll) (get_height lrl))
                  (1 + get_subtree_size ll + get_subtree_size lrl) lrl)
                lrk lrd
                (1 + max (1 + max (get_height ll) (get_height lrl))
                  (1 + max (get_height lrr) (get_height r)))
                (1 + (1 + get_subtree_size ll + get_subtree_size lrl) +
                  (1 + get_subtree_size lrr + get_subtree_size r))
                (ATree.node lrr k d
                  (1 + max (get_height lrr) (get_height r))
                  (1 + get_subtree_size lrr + get_subtree_size r) r) := by
              rw [hres]
              rfl
            rw [hres2]
            rw [get_height_eq hokll, get_height_eq hoklrl, get_height_eq hoklrr,
              get_height_eq hr]
            simp only [real_height] at hht hneg hb1 hb2
            refine ⟨?_, ?_, ?_⟩
            · simp only [avl_ok, Bool.and_eq_true, beq_iff_eq, decide_eq_true_eq,
                hokll, hoklrl, hoklrr, hr, true_and, and_true, real_height]
              simp only [max_def] at hht hneg hb1 hb2 ⊢
              split_ifs at hht hneg hb1 hb2 ⊢ <;> omega
            · simp only [real_height]
              simp only [max_def] at hht hneg hb1 hb2 ⊢
              split_ifs at hht hneg hb1 hb2 ⊢ <;> omega
            · intro hbf0
              rw [hbfL] at hbf0
              simp only [real_height] at hbf0
              simp only [real_height]
              simp only [max_def] at hht hneg hb1 hb2 hbf0 ⊢
              split_ifs at hht hneg hb1 hb2 hbf0 ⊢ <;> omega
      · -- single rotation
        rw [if_neg hneg] at hres
        rw [hbfL] at hneg
        have hres2 : res = ATree.node ll lk ld
            (1 + max (get_height ll) (1 + max (get_height lr) (get_height r)))
            (1 + get_subtree_size ll +
              (1 + get_subtree_size lr + get_subtree_size r))
            (ATree.node lr k d (1 + max (get_height lr) (get_height r))
              (1 + get_subtree_size lr + get_subtree_size r) r) := by
          rw [hres]
          rfl
        rw [hres2]
        rw [get_height_eq hokll, get_height_eq hoklr, get_height_eq hr]
        have g2 := real_height_ge lr
        refine ⟨?_, ?_, ?_⟩
        · simp only [avl_ok, Bool.and_eq_true, beq_iff_eq, decide_eq_true_eq,
            hokll, hoklr, hr, true_and, and_true, real_height]
          simp only [max_def] at hht ⊢
          split_ifs at hht ⊢ <;> omega
        · simp only [real_height]
          simp only [max_def] at hht ⊢
          split_ifs at hht ⊢ <;> omega
        · intro hbf0
          rw [hbfL] at hbf0
          simp only [real_height]
          simp only [max_def] at hht ⊢
          split_ifs at hht ⊢ <;> omega

theorem rebalance_right {R l res : ATree α β} (k : α) (d : β) (h : Int) (s : Nat)
    (hR : avl_ok R = true) (hl : avl_ok l = true)
    (hht : real_height R = real_height l + 2)
    (hres : res = left_rotate (if get_balance_factor R > 0 then
        set_child .right (right_rotate R) (ATree.node l k d h s R)
      else ATree.node l k d h s R)) :
    avl_ok res = true ∧
    (real_height res = real_height l + 2 ∨ real_height res = real_height l + 3) ∧
    (get_balance_factor R ≠ 0 → real_height res = real_height l + 2) := by
  have hlge := real_height_ge l
  cases R with
  | nil => simp only [real_height] at hht; omega
  | node rl rk rd rh rs rr =>
      obtain ⟨hokrl, hokrr, hrh, hb1, hb2⟩ := avl_ok_node.1 hR
      have hbfR : get_balance_factor (ATree.node rl rk rd rh rs rr) =
          real_height rl - real_height rr := by
        simp [get_balance_factor, get_height_eq hokrl, get_height_eq hokrr]
      have hhR : real_height (ATree.node rl rk rd rh rs rr) =
          1 + max (real_height rl) (real_height rr) := rfl
      rw [hhR] at hht
      have g1 := real_height_ge rr
      have g4 := real_height_ge l
      by_cases hpos : get_balance_factor (ATree.node rl rk rd rh rs rr) > 0
      · -- double rotation (right child is left-heavy)
        rw [if_pos hpos] at hres
        rw [hbfR] at hpos
        cases rl with
        | nil =>
            simp only [real_height] at hpos
            have := real_height_ge rr
            omega
        | node rll rlk rld rlh rls rlr =>
            obtain ⟨hokrll, hokrlr, hrlh, hc1, hc2⟩ := avl_ok_node.1 hokrl
            have g2 := real_height_ge rll
            have g3 := real_height_ge rlr
            have hres2 : res = ATree.node
                (ATree.node l k d
                  (1 + max (get_height l) (get_height rll))
                  (1 + get_subtree_size l + get_subtree_size rll) rll)
                rlk rld
                (1 + max (1 + max (get_height l) (get_height rll))
                  (1 + max (get_height rlr) (get_height rr)))
                (1 + (1 + get_subtree_size l + get_subtree_size rll) +
                  (1 + get_subtree_size rlr + get_subtree_size rr))
                (ATree.node rlr rk rd
                  (1 + max (get_height rlr) (get_height rr))
                  (1 + get_subtree_size rlr + get_subtree_size rr) rr) := by
              rw [hres]
              rfl
            rw [hres2]
            rw [get_height_eq hokrll, get_height_eq hokrlr, get_height_eq hokrr,
              get_height_eq hl]
            simp only [real_height] at hht hpos hb1 hb2
            refine ⟨?_, ?_, ?_⟩
            · simp only [avl_ok, Bool.and_eq_true, beq_iff_eq, decide_eq_true_eq,
                hokrll, hokrlr, hokrr, hl, true_and, and_true, real_height]
              simp only [max_def] at hht hpos hb1 hb2 ⊢
              split_ifs at hht hpos hb1 hb2 ⊢ <;> omega
            · simp only [real_height]
              simp only [max_def] at hht hpos hb1 hb2 ⊢
              split_ifs at hht hpos hb1 hb2 ⊢ <;> omega
            · intro hbf0
              rw [hbfR] at hbf0
              simp only [real_height] at hbf0
              simp only [real_height]
              simp only [max_def] at hht hpos hb1 hb2 hbf0 ⊢
              split_ifs at hht hpos hb1 hb2 hbf0 ⊢ <;> omega
      · -- single rotation
        rw [if_neg hpos] at hres
        rw [hbfR] at hpos
        have hres2 : res = ATree.node
            (ATree.node l k d (1 + max (get_height l) (get_height rl))
              (1 + get_subtree_size l + get_subtree_size rl) rl)
            rk rd
            (1 + max (1 + max (get_height l) (get_height rl)) (get_height rr))
            (1 + (1 + get_subtree_size l + get_subtree_size rl) +
              get_subtree_size rr)
            rr := by
          rw [hres]
          rfl
        rw [hres2]
        rw [get_height_eq hokrl, get_height_eq hokrr, get_height_eq hl]
        have g2 := real_height_ge rl
        refine ⟨?_, ?_, ?_⟩
        · simp only [avl_ok, Bool.and_eq_true, beq_iff_eq, decide_eq_true_eq,
            hokrl, hokrr, hl, true_and, and_true, real_height]
          simp only [max_def] at hht ⊢
          split_ifs at hht ⊢ <;> omega
        · simp only [real_height]
          simp only [max_def] at hht ⊢
          split_ifs at hht ⊢ <;> omega
        · intro hbf0
          rw [hbfR] at hbf0
          simp only [real_height]
          simp only [max_def] at hht ⊢
          split_ifs at hht ⊢ <;> omega

theorem insert_fix_at_left {l r : ATree α β} (ck : α) (cd : β) (ch : Int)
    (cs : Nat) {hl0 : Int}
    (hokl : avl_ok l = true) (hokr : avl_ok r = true)
    (hgrow : real_height l = hl0 ∨
      (real_height l = hl0 + 1 ∧ get_balance_factor l ≠ 0))
    (hb1 : hl0 - real_height r ≤ 1) (hb2 : real_height r - hl0 ≤ 1) :
    avl_ok (insert_fix_at .left (ATree.node l ck cd ch cs r)).1 = true ∧
    ((insert_fix_at .left (ATree.node l ck cd ch cs r)).2 = FixStatus.stopped →
      real_height (insert_fix_at .left (ATree.node l ck cd ch cs r)).1 =
        1 + max hl0 (real_height r)) ∧
    ((insert_fix_at .left (ATree.node l ck cd ch cs r)).2 = FixStatus.walking →
      (real_height (insert_fix_at .left (ATree.node l ck cd ch cs r)).1 =
        1 + max hl0 (real_height r) ∨
       (real_height (insert_fix_at .left (ATree.node l ck cd ch cs r)).1 =
          2 + max hl0 (real_height r) ∧
        get_balance_factor
          (insert_fix_at .left (ATree.node l ck cd ch cs r)).1 ≠ 0))) := by
  have hbf : get_balance_factor (ATree.node l ck cd ch cs r) =
      real_height l - real_height r := by
    simp [get_balance_factor, get_height_eq hokl, get_height_eq hokr]
  by_cases h1 : get_balance_factor (ATree.node l ck cd ch cs r) > 1
  · have hbf1 := h1
    rw [hbf] at hbf1
    have hg : real_height l = hl0 + 1 ∧ get_balance_factor l ≠ 0 := by
      rcases hgrow with hg | hg
      · omega
      · exact hg
    have hht : real_height l = real_height r + 2 := by omega
    obtain ⟨A, B, C⟩ := rebalance_left ck cd ch cs hokl hokr hht rfl
    simp only [insert_fix_at, if_pos h1, child]
    refine ⟨A, ?_, ?_⟩
    · intro _
      rw [C hg.2]
      simp only [max_def]
      split_ifs <;> omega
    · intro hw
      simp at hw
  · by_cases h2 : get_balance_factor (ATree.node l ck cd ch cs r) < -1
    · rw [hbf] at h2
      rcases hgrow with hg | hg <;> omega
    · simp only [insert_fix_at, if_neg h1, if_neg h2]
      rw [hbf] at h1 h2
      have hsh : set_height_from_children (ATree.node l ck cd ch cs r) =
          ATree.node l ck cd (1 + max (get_height l) (get_height r)) cs r := rfl
      rw [hsh, get_height_eq hokl, get_height_eq hokr]
      have hbf2 : get_balance_factor (ATree.node l ck cd
          (1 + max (real_height l) (real_height r)) cs r) =
          real_height l - real_height r := by
        simp [get_balance_factor, get_height_eq hokl, get_height_eq hokr]
      refine ⟨?_, ?_, ?_⟩
      · rw [avl_ok_node]
        exact ⟨hokl, hokr, rfl, by omega, by omega⟩
      · intro hw
        simp at hw
      · intro _
        simp only [real_height]
        rw [hbf2]
        rcases hgrow with hg | hg
        · left
          rw [hg]
        · by_cases hcase : real_height r ≤ hl0
          · right
            constructor
            · simp only [max_def]
              split_ifs <;> omega
            · omega
          · left
            simp only [max_def]
            split_ifs <;> omega

theorem insert_fix_at_right {l r : ATree α β} (ck : α) (cd : β) (ch : Int)
    (cs : Nat) {hr0 : Int}
    (hokl : avl_ok l = true) (hokr : avl_ok r = true)
    (hgrow : real_height r = hr0 ∨
      (real_height r = hr0 + 1 ∧ get_balance_factor r ≠ 0))
    (hb1 : real_height l - hr0 ≤ 1) (hb2 : hr0 - real_height l ≤ 1) :
    avl_ok (insert_fix_at .right (ATree.node l ck cd ch cs r)).1 = true ∧
    ((insert_fix_at .right (ATree.node l ck cd ch cs r)).2 = FixStatus.stopped →
      real_height (insert_fix_at .right (ATree.node l ck cd ch cs r)).1 =
        1 + max (real_height l) hr0) ∧
    ((insert_fix_at .right (ATree.node l ck cd ch cs r)).2 = FixStatus.walking →
      (real_height (insert_fix_at .right (ATree.node l ck cd ch cs r)).1 =
        1 + max (real_height l) hr0 ∨
       (real_height (insert_fix_at .right (ATree.node l ck cd ch cs r)).1 =
          2 + max (real_height l) hr0 ∧
        get_balance_factor
          (insert_fix_at .right (ATree.node l ck cd ch cs r)).1 ≠ 0))) := by
  have hbf : get_balance_factor (ATree.node l ck cd ch cs r) =
      real_height l - real_height r := by
    simp [get_balance_factor, get_height_eq hokl, get_height_eq hokr]
  by_cases h1 : get_balance_factor (ATree.node l ck cd ch cs r) > 1
  · rw [hbf] at h1
    rcases hgrow with hg | hg <;> omega
  · by_cases h2 : get_balance_factor (ATree.node l ck cd ch cs r) < -1
    · have hbf2 := h2
      rw [hbf] at hbf2
      have hg : real_height r = hr0 + 1 ∧ get_balance_factor r ≠ 0 := by
        rcases hgrow with hg | hg
        · omega
        · exact hg
      have hht : real_height r = real_height l + 2 := by omega
      obtain ⟨A, B, C⟩ := rebalance_right ck cd ch cs hokr hokl hht rfl
      simp only [insert_fix_at, if_neg h1, if_pos h2, child]
      refine ⟨A, ?_, ?_⟩
      · intro _
        rw [C hg.2]
        simp only [max_def]
        split_ifs <;> omega
      · intro hw
        simp at hw
    · simp only [insert_fix_at, if_neg h1, if_neg h2]
      rw [hbf] at h1 h2
      have hsh : set_height_from_children (ATree.node l ck cd ch cs r) =
          ATree.node l ck cd (1 + max (get_height l) (get_height r)) cs r := rfl
      rw [hsh, get_height_eq hokl, get_height_eq hokr]
      have hbf2 : get_balance_factor (ATree.node l ck cd
          (1 + max (real_height l) (real_height r)) cs r) =
          real_height l - real_height r := by
        simp [get_balance_factor, get_height_eq hokl, get_height_eq hokr]
      refine ⟨?_, ?_, ?_⟩
      · rw [avl_ok_node]
        exact ⟨hokl, hokr, rfl, by omega, by omega⟩
      · intro hw
        simp at hw
      · intro _
        simp only [real_height]
        rw [hbf2]
        rcases hgrow with hg | hg
        · left
          rw [hg]
        · by_cases hcase : real_height l ≤ hr0
          · right
            constructor
            · simp only [max_def]
              split_ifs <;> omega
            · omega
          · left
            simp only [max_def]
            split_ifs <;> omega

theorem refresh_avl (r : ATree α β) :
    avl_ok (refresh_right_size r) = avl_ok r := by
  cases r <;> rfl

theorem refresh_height (r : ATree α β) :
    real_height (refresh_right_size r) = real_height r := by
  cases r <;> rfl

theorem insert_fix_at_ne_start (dir : Dir) (t : ATree α β) :
    (insert_fix_at dir t).2 ≠ FixStatus.start := by
  simp only [insert_fix_at]
  split_ifs <;> simp

theorem avl_ok_leaf (k : α) (d : β) :
    avl_ok (ATree.node .nil k d 0 1 .nil : ATree α β) = true := by
  norm_num [avl_ok, real_height]

theorem real_height_leaf (k : α) (d : β) :
    real_height (ATree.node .nil k d 0 1 .nil : ATree α β) = 0 := by
  norm_num [real_height]

theorem insert_go_spec (k : α) (d : β) :
    ∀ t : ATree α β, avl_ok t = true →
    (∀ t' i, insert_go k d t = .dup t' i →
      avl_ok t' = true ∧ real_height t' = real_height t) ∧
    (∀ t' st i, insert_go k d t = .ok t' st i →
      avl_ok t' = true ∧
      (st = .start → t = .nil ∧ real_height t' = 0) ∧
      (st = .stopped → real_height t' = real_height t) ∧
      (st = .walking → (real_height t' = real_height t ∨
        (real_height t' = real_height t + 1 ∧ get_balance_factor t' ≠ 0)))) := by
  intro t
  induction t with
  | nil =>
      intro _
      constructor
      · intro t' i heq
        simp [insert_go] at heq
      · intro t' st i heq
        simp only [insert_go, InsResult.ok.injEq] at heq
        obtain ⟨h1, h2, h3⟩ := heq
        subst h1
        subst h2
        refine ⟨avl_ok_leaf k d, fun _ => ⟨rfl, real_height_leaf k d⟩,
          ?_, ?_⟩ <;> (intro hst; simp at hst)
  | node l ck cd ch cs r ihl ihr =>
      intro hok
      obtain ⟨hokl, hokr, hch, hbb1, hbb2⟩ := avl_ok_node.1 hok
      obtain ⟨ihl1, ihl2⟩ := ihl hokl
      obtain ⟨ihr1, ihr2⟩ := ihr hokr
      have hokr' : avl_ok (refresh_right_size r) = true := by
        rw [refresh_avl]; exact hokr
      have hhr' := refresh_height r
      have hht : real_height (ATree.node l ck cd ch cs r) =
          1 + max (real_height l) (real_height r) := rfl
      by_cases hklt : k < ck
      · cases hins : insert_go k d l with
        | dup l' i0 =>
            obtain ⟨hd1, hd2⟩ := ihl1 l' i0 hins
            constructor
            · intro t' i heq
              simp only [insert_go, if_pos hklt, hins, InsResult.dup.injEq] at heq
              obtain ⟨h1, h2⟩ := heq
              subst h1
              constructor
              · rw [avl_ok_node]
                exact ⟨hd1, hokr', by rw [hhr', hd2]; exact hch,
                  by rw [hhr', hd2]; omega, by rw [hhr', hd2]; omega⟩
              · simp only [real_height, hhr', hd2, hht]
            · intro t' st i heq
              simp only [insert_go, if_pos hklt, hins] at heq
              exact InsResult.noConfusion heq
        | ok l' st0 i0 =>
            cases st0 with
            | stopped =>
                obtain ⟨ho1, _, ho3, _⟩ := ihl2 l' .stopped i0 hins
                have hd2 := ho3 rfl
                constructor
                · intro t' i heq
                  simp only [insert_go, if_pos hklt, hins] at heq
                  exact InsResult.noConfusion heq
                · intro t' st i heq
                  simp only [insert_go, if_pos hklt, hins, InsResult.ok.injEq] at heq
                  obtain ⟨h1, h2, h3⟩ := heq
                  subst h1
                  subst h2
                  refine ⟨?_, ?_, ?_, ?_⟩
                  · rw [avl_ok_node]
                    exact ⟨ho1, hokr', by rw [hhr', hd2]; exact hch,
                      by rw [hhr', hd2]; omega, by rw [hhr', hd2]; omega⟩
                  · intro hst; simp at hst
                  · intro _
                    simp only [real_height, hhr', hd2, hht]
                  · intro hst; simp at hst
            | start =>
                obtain ⟨ho1, ho2, _, _⟩ := ihl2 l' .start i0 hins
                obtain ⟨hlnil, hl'h⟩ := ho2 rfl
                subst hlnil
                simp only [insert_go, InsResult.ok.injEq] at hins
                obtain ⟨hl', _, _⟩ := hins
                subst hl'
                cases r with
                | nil =>
                    constructor
                    · intro t' i heq
                      simp only [insert_go, if_pos hklt,
                        refresh_right_size] at heq
                      exact InsResult.noConfusion heq
                    · intro t' st i heq
                      simp only [insert_go, if_pos hklt, refresh_right_size,
                        InsResult.ok.injEq] at heq
                      obtain ⟨h1, h2, h3⟩ := heq
                      subst h1
                      subst h2
                      refine ⟨?_, ?_, ?_, ?_⟩
                      · norm_num [set_height_from_children, avl_ok, real_height,
                          get_height]
                      · intro hst; simp at hst
                      · intro hst; simp at hst
                      · intro _
                        right
                        constructor
                        · norm_num [set_height_from_children, real_height]
                        · norm_num [set_height_from_children,
                            get_balance_factor, get_height]
                | node rl rk2 rd2 rh2 rs2 rr =>
                    have hr0 : real_height
                        (ATree.node rl rk2 rd2 rh2 rs2 rr) = 0 := by
                      have h5 : (0 : Int) ≤ real_height
                          (ATree.node rl rk2 rd2 rh2 rs2 rr) := real_height_node_ge
                      simp only [real_height] at hbb2 h5 ⊢
                      omega
                    have hokrr : avl_ok (ATree.node rl rk2 rd2 rh2
                        (1 + get_subtree_size rl + get_subtree_size rr) rr) =
                        true := by
                      have h6 := refresh_avl (ATree.node rl rk2 rd2 rh2 rs2 rr)
                      simp only [refresh_right_size] at h6
                      rw [h6]
                      exact hokr
                    constructor
                    · intro t' i heq
                      simp only [insert_go, if_pos hklt,
                        refresh_right_size] at heq
                      exact InsResult.noConfusion heq
                    · intro t' st i heq
                      simp only [insert_go, if_pos hklt, refresh_right_size,
                        InsResult.ok.injEq] at heq
                      obtain ⟨h1, h2, h3⟩ := heq
                      subst h1
                      subst h2
                      refine ⟨?_, ?_, ?_, ?_⟩
                      · rw [avl_ok_node]
                        refine ⟨avl_ok_leaf k d, hokrr, ?_, ?_, ?_⟩ <;>
                          (simp only [real_height] at hch hr0 ⊢
                           simp only [max_def] at hch hr0 ⊢
                           split_ifs at hch hr0 ⊢ <;> omega)
                      · intro hst; simp at hst
                      · intro _
                        simp only [real_height] at hch hr0 ⊢
                        simp only [max_def] at hch hr0 ⊢
                        split_ifs at hch hr0 ⊢ <;> omega
                      · intro hst; simp at hst
            | walking =>
                obtain ⟨ho1, _, _, ho4⟩ := ihl2 l' .walking i0 hins
                have hgrow2 : real_height l' = real_height l ∨
                    (real_height l' = real_height l + 1 ∧
                     get_balance_factor l' ≠ 0) := ho4 rfl
                have hbx1 : real_height l -
                    real_height (refresh_right_size r) ≤ 1 := by
                  rw [hhr']; omega
                have hbx2 : real_height (refresh_right_size r) -
                    real_height l ≤ 1 := by
                  rw [hhr']; omega
                obtain ⟨A, B, C⟩ :=
                  insert_fix_at_left ck cd ch cs ho1 hokr' hgrow2 hbx1 hbx2
                constructor
                · intro t' i heq
                  simp only [insert_go, if_pos hklt, hins] at heq
                  exact InsResult.noConfusion heq
                · intro t' st i heq
                  simp only [insert_go, if_pos hklt, hins, InsResult.ok.injEq] at heq
                  obtain ⟨h1, h2, h3⟩ := heq
                  subst h1
                  refine ⟨A, ?_, ?_, ?_⟩
                  · intro hst
                    rw [← h2] at hst
                    exact absurd hst (insert_fix_at_ne_start _ _)
                  · intro hst
                    rw [← h2] at hst
                    rw [hht]
                    have hB := B hst
                    rw [hhr'] at hB
                    exact hB
                  · intro hst
                    rw [← h2] at hst
                    rw [hht]
                    have hC := C hst
                    rw [hhr'] at hC
                    rcases hC with h5 | ⟨h5, h6⟩
                    · left; exact h5
                    · right; exact ⟨by rw [h5]; ring, h6⟩
      · by_cases hkgt : ck < k
        · cases hins : insert_go k d r with
          | dup r' i0 =>
              obtain ⟨hd1, hd2⟩ := ihr1 r' i0 hins
              constructor
              · intro t' i heq
                simp only [insert_go, if_neg hklt, if_pos hkgt, hins,
                  InsResult.dup.injEq] at heq
                obtain ⟨h1, h2⟩ := heq
                subst h1
                constructor
                · rw [avl_ok_node]
                  exact ⟨hokl, hd1, by rw [hd2]; exact hch,
                    by rw [hd2]; omega, by rw [hd2]; omega⟩
                · simp only [real_height, hd2, hht]
              · intro t' st i heq
                simp only [insert_go, if_neg hklt, if_pos hkgt, hins] at heq
                exact InsResult.noConfusion heq
          | ok r' st0 i0 =>
              cases st0 with
              | stopped =>
                  obtain ⟨ho1, _, ho3, _⟩ := ihr2 r' .stopped i0 hins
                  have hd2 := ho3 rfl
                  constructor
                  · intro t' i heq
                    simp only [insert_go, if_neg hklt, if_pos hkgt, hins] at heq
                    exact InsResult.noConfusion heq
                  · intro t' st i heq
                    simp only [insert_go, if_neg hklt, if_pos hkgt, hins,
                      InsResult.ok.injEq] at heq
                    obtain ⟨h1, h2, h3⟩ := heq
                    subst h1
                    subst h2
                    refine ⟨?_, ?_, ?_, ?_⟩
                    · rw [avl_ok_node]
                      exact ⟨hokl, ho1, by rw [hd2]; exact hch,
                        by rw [hd2]; omega, by rw [hd2]; omega⟩
                    · intro hst; simp at hst
                    · intro _
                      simp only [real_height, hd2, hht]
                    · intro hst; simp at hst
              | start =>
                  obtain ⟨ho1, ho2, _, _⟩ := ihr2 r' .start i0 hins
                  obtain ⟨hrnil, hr'h⟩ := ho2 rfl
                  subst hrnil
                  simp only [insert_go, InsResult.ok.injEq] at hins
                  obtain ⟨hr', _, _⟩ := hins
                  subst hr'
                  cases l with
                  | nil =>
                      constructor
                      · intro t' i heq
                        simp only [insert_go, if_neg hklt, if_pos hkgt] at heq
                        exact InsResult.noConfusion heq
                      · intro t' st i heq
                        simp only [insert_go, if_neg hklt, if_pos hkgt,
                          InsResult.ok.injEq] at heq
                        obtain ⟨h1, h2, h3⟩ := heq
                        subst h1
                        subst h2
                        refine ⟨?_, ?_, ?_, ?_⟩
                        · norm_num [set_height_from_children, avl_ok,
                            real_height, get_height]
                        · intro hst; simp at hst
                        · intro hst; simp at hst
                        · intro _
                          right
                          constructor
                          · norm_num [set_height_from_children, real_height]
                          · norm_num [set_height_from_children,
                              get_balance_factor, get_height]
                  | node ll lk2 ld2 lh2 ls2 lr =>
                      have hl0 : real_height
                          (ATree.node ll lk2 ld2 lh2 ls2 lr) = 0 := by
                        have h5 : (0 : Int) ≤ real_height
                            (ATree.node ll lk2 ld2 lh2 ls2 lr) :=
                          real_height_node_ge
                        simp only [real_height] at hbb1 h5 ⊢
                        omega
                      constructor
                      · intro t' i heq
                        simp only [insert_go, if_neg hklt, if_pos hkgt] at heq
                        exact InsResult.noConfusion heq
                      · intro t' st i heq
                        simp only [insert_go, if_neg hklt, if_pos hkgt,
                          InsResult.ok.injEq] at heq
                        obtain ⟨h1, h2, h3⟩ := heq
                        subst h1
                        subst h2
                        refine ⟨?_, ?_, ?_, ?_⟩
                        · rw [avl_ok_node]
                          refine ⟨hokl, avl_ok_leaf k d, ?_, ?_, ?_⟩ <;>
                            (simp only [real_height] at hch hl0 ⊢
                             simp only [max_def] at hch hl0 ⊢
                             split_ifs at hch hl0 ⊢ <;> omega)
                        · intro hst; simp at hst
                        · intro _
                          simp only [real_height] at hch hl0 ⊢
                          simp only [max_def] at hch hl0 ⊢
                          split_ifs at hch hl0 ⊢ <;> omega
                        · intro hst; simp at hst
              | walking =>
                  obtain ⟨ho1, _, _, ho4⟩ := ihr2 r' .walking i0 hins
                  have hgrow2 : real_height r' = real_height r ∨
                      (real_height r' = real_height r + 1 ∧
                       get_balance_factor r' ≠ 0) := ho4 rfl
                  obtain ⟨A, B, C⟩ := insert_fix_at_right ck cd ch cs hokl ho1
                    hgrow2 (by omega) (by omega)
                  constructor
                  · intro t' i heq
                    simp only [insert_go, if_neg hklt, if_pos hkgt, hins] at heq
                    exact InsResult.noConfusion heq
                  · intro t' st i heq
                    simp only [insert_go, if_neg hklt, if_pos hkgt, hins,
                      InsResult.ok.injEq] at heq
                    obtain ⟨h1, h2, h3⟩ := heq
                    subst h1
                    refine ⟨A, ?_, ?_, ?_⟩
                    · intro hst
                      rw [← h2] at hst
                      exact absurd hst (insert_fix_at_ne_start _ _)
                    · intro hst
                      rw [← h2] at hst
                      rw [hht]
                      exact B hst
                    · intro hst
                      rw [← h2] at hst
                      rw [hht]
                      rcases C hst with h5 | ⟨h5, h6⟩
                      · left; exact h5
                      · right; exact ⟨by rw [h5]; ring, h6⟩
        · constructor
          · intro t' i heq
            simp only [insert_go, if_neg hklt, if_neg hkgt,
              InsResult.dup.injEq] at heq
            obtain ⟨h1, h2⟩ := heq
            subst h1
            exact ⟨hok, rfl⟩
          · intro t' st i heq
            simp only [insert_go, if_neg hklt, if_neg hkgt] at heq
            exact InsResult.noConfusion heq

theorem delete_fix_at_fixpoint {t : ATree α β} (hok : avl_ok t = true) :
    ∀ fuel : Nat, 1 ≤ fuel → delete_fix_at fuel t = t := by
  intro fuel hf
  cases fuel with
  | zero => omega
  | succ n =>
      cases t with
      | nil => rfl
      | node l k d h s r =>
          obtain ⟨hokl, hokr, hch, hb1, hb2⟩ := avl_ok_node.1 hok
          have ht1 : set_height_from_children (ATree.node l k d h s r) =
              ATree.node l k d h s r := by
            rw [show set_height_from_children (ATree.node l k d h s r) =
              ATree.node l k d (1 + max (get_height l) (get_height r)) s r
              from rfl, get_height_eq hokl, get_height_eq hokr, ← hch]
          have hbf : get_balance_factor (ATree.node l k d h s r) =
              real_height l - real_height r := by
            simp [get_balance_factor, get_height_eq hokl, get_height_eq hokr]
          simp only [delete_fix_at, ht1]
          rw [if_neg (by rw [hbf]; omega), if_neg (by rw [hbf]; omega)]

theorem delete_fixup_spec {l r : ATree α β} (k : α) (d : β) (h : Int) (s : Nat)
    (hokl : avl_ok l = true) (hokr : avl_ok r = true)
    (hb1 : real_height l - real_height r ≤ 2)
    (hb2 : real_height r - real_height l ≤ 2) :
    avl_ok (delete_fixup (ATree.node l k d h s r)) = true ∧
    (real_height (delete_fixup (ATree.node l k d h s r)) =
        1 + max (real_height l) (real_height r) ∨
     (real_height (delete_fixup (ATree.node l k d h s r)) =
        max (real_height l) (real_height r) ∧
      (real_height l - real_height r = 2 ∨
       real_height r - real_height l = 2))) := by
  have ht1 : set_height_from_children (ATree.node l k d h s r) =
      ATree.node l k d (1 + max (real_height l) (real_height r)) s r := by
    rw [show set_height_from_children (ATree.node l k d h s r) =
      ATree.node l k d (1 + max (get_height l) (get_height r)) s r
      from rfl, get_height_eq hokl, get_height_eq hokr]
  have hbf : get_balance_factor (ATree.node l k d
      (1 + max (real_height l) (real_height r)) s r) =
      real_height l - real_height r := by
    simp [get_balance_factor, get_height_eq hokl, get_height_eq hokr]
  have hfuel2 : 1 ≤ real_size (ATree.node l k d h s r) := by
    simp only [real_size]
    omega
  rw [delete_fixup]
  simp only [delete_fix_at, ht1]
  simp only [child, hbf]
  by_cases hc1 : real_height l - real_height r > 1
  · rw [if_pos hc1]
    have hht2 : real_height l = real_height r + 2 := by omega
    obtain ⟨A, B, _⟩ := rebalance_left k d
      (1 + max (real_height l) (real_height r)) s hokl hokr hht2 rfl
    rw [delete_fix_at_fixpoint A (real_size (ATree.node l k d h s r)) hfuel2]
    refine ⟨A, ?_⟩
    rcases B with hB | hB
    · right
      refine ⟨?_, Or.inl (by omega)⟩
      rw [hB]
      simp only [max_def]
      split_ifs <;> omega
    · left
      rw [hB]
      simp only [max_def]
      split_ifs <;> omega
  · by_cases hc2 : real_height l - real_height r < -1
    · rw [if_neg hc1, if_pos hc2]
      have hht2 : real_height r = real_height l + 2 := by omega
      obtain ⟨A, B, _⟩ := rebalance_right k d
        (1 + max (real_height l) (real_height r)) s hokr hokl hht2 rfl
      rw [delete_fix_at_fixpoint A (real_size (ATree.node l k d h s r)) hfuel2]
      refine ⟨A, ?_⟩
      rcases B with hB | hB
      · right
        refine ⟨?_, Or.inr (by omega)⟩
        rw [hB]
        simp only [max_def]
        split_ifs <;> omega
      · left
        rw [hB]
        simp only [max_def]
        split_ifs <;> omega
    · rw [if_neg hc1, if_neg hc2]
      refine ⟨?_, Or.inl rfl⟩
      rw [avl_ok_node]
      exact ⟨hokl, hokr, rfl, by omega, by omega⟩

theorem delete_leftmost_spec :
    ∀ (t : ATree α β), avl_ok t = true →
    ∀ mk md t', delete_leftmost t = some (mk, md, t') →
    avl_ok t' = true ∧
    (real_height t' = real_height t ∨ real_height t' = real_height t - 1) := by
  intro t
  induction t with
  | nil => intro _ mk md t' heq; simp [delete_leftmost] at heq
  | node l ck cd ch cs r ihl ihr =>
      intro hok mk md t' heq
      obtain ⟨hokl, hokr, hch, hb1, hb2⟩ := avl_ok_node.1 hok
      have hrge := real_height_ge r
      cases l with
      | nil =>
          simp only [delete_leftmost, Option.some.injEq, Prod.mk.injEq] at heq
          obtain ⟨_, _, h3⟩ := heq
          subst h3
          refine ⟨hokr, Or.inr ?_⟩
          simp only [real_height] at hb1 hb2 ⊢
          simp only [max_def] at *
          split_ifs at * <;> omega
      | node ll lk ld lh ls lr =>
          have hlge : (0 : Int) ≤ real_height (ATree.node ll lk ld lh ls lr) :=
            real_height_node_ge
          cases hdl : delete_leftmost (ATree.node ll lk ld lh ls lr) with
          | none =>
              rw [delete_leftmost_eq_none_iff] at hdl
              exact absurd hdl (by simp)
          | some v =>
              obtain ⟨mk2, md2, l2⟩ := v
              obtain ⟨hok2, hh2⟩ := ihl hokl mk2 md2 l2 hdl
              simp only [delete_leftmost, hdl, Option.some.injEq,
                Prod.mk.injEq] at heq
              obtain ⟨h1, h2, h3⟩ := heq
              subst h3
              have hdb1 : real_height l2 - real_height r ≤ 2 := by
                rcases hh2 with hp | hp <;> omega
              have hdb2 : real_height r - real_height l2 ≤ 2 := by
                rcases hh2 with hp | hp <;> omega
              obtain ⟨A, B⟩ := delete_fixup_spec ck cd ch cs hok2 hokr hdb1 hdb2
              refine ⟨A, ?_⟩
              rcases B with hB | ⟨hB, hd⟩ <;>
                rcases hh2 with hp | hp <;>
                  (simp only [real_height] at hp hB hb1 hb2 ⊢
                   rw [hB]
                   simp only [max_def] at hp hb1 hb2 ⊢
                   split_ifs at hp hb1 hb2 ⊢ <;> omega)

theorem delete_go_spec (k : α) :
    ∀ t : ATree α β, avl_ok t = true →
    avl_ok (delete_go k t).1 = true ∧
    (real_height (delete_go k t).1 = real_height t ∨
     real_height (delete_go k t).1 = real_height t - 1) ∧
    ((delete_go k t).2 = false → (delete_go k t).1 = t) := by
  intro t
  induction t with
  | nil =>
      intro _
      exact ⟨rfl, Or.inl rfl, fun _ => rfl⟩
  | node l ck cd ch cs r ihl ihr =>
      intro hok
      obtain ⟨hokl, hokr, hch, hb1, hb2⟩ := avl_ok_node.1 hok
      have hlge := real_height_ge l
      have hrge := real_height_ge r
      by_cases hklt : k < ck
      · obtain ⟨pok, pht, pfalse⟩ := ihl hokl
        simp only [delete_go, if_pos hklt]
        cases hp2 : (delete_go k l).2 with
        | false =>
            rw [pfalse hp2]
            exact ⟨hok, Or.inl rfl, fun _ => rfl⟩
        | true =>
            simp only [if_pos rfl]
            have hdb1 : real_height (delete_go k l).1 - real_height r ≤ 2 := by
              rcases pht with hp | hp <;> omega
            have hdb2 : real_height r - real_height (delete_go k l).1 ≤ 2 := by
              rcases pht with hp | hp <;> omega
            obtain ⟨A, B⟩ := delete_fixup_spec ck cd ch cs pok hokr hdb1 hdb2
            have hor : real_height (delete_fixup
                  (ATree.node (delete_go k l).1 ck cd ch cs r)) =
                real_height (ATree.node l ck cd ch cs r) ∨
                real_height (delete_fixup
                  (ATree.node (delete_go k l).1 ck cd ch cs r)) =
                real_height (ATree.node l ck cd ch cs r) - 1 := by
              rcases B with hB | ⟨hB, hd⟩ <;>
                rcases pht with hp | hp <;>
                  (simp only [real_height] at hp hB ⊢
                   rw [hB]
                   simp only [max_def] at hp ⊢
                   split_ifs at hp ⊢ <;> omega)
            refine ⟨A, hor, ?_⟩
            intro hfalse
            simp at hfalse
      · by_cases hkgt : ck < k
        · obtain ⟨pok, pht, pfalse⟩ := ihr hokr
          simp only [delete_go, if_neg hklt, if_pos hkgt]
          cases hp2 : (delete_go k r).2 with
          | false =>
              rw [pfalse hp2]
              exact ⟨hok, Or.inl rfl, fun _ => rfl⟩
          | true =>
              simp only [if_pos rfl]
              have hdb1 : real_height l - real_height (delete_go k r).1 ≤ 2 := by
                rcases pht with hp | hp <;> omega
              have hdb2 : real_height (delete_go k r).1 - real_height l ≤ 2 := by
                rcases pht with hp | hp <;> omega
              obtain ⟨A, B⟩ := delete_fixup_spec ck cd ch cs hokl pok hdb1 hdb2
              have hor : real_height (delete_fixup
                    (ATree.node l ck cd ch cs (delete_go k r).1)) =
                  real_height (ATree.node l ck cd ch cs r) ∨
                  real_height (delete_fixup
                    (ATree.node l ck cd ch cs (delete_go k r).1)) =
                  real_height (ATree.node l ck cd ch cs r) - 1 := by
                rcases B with hB | ⟨hB, hd⟩ <;>
                  rcases pht with hp | hp <;>
                    (simp only [real_height] at hp hB ⊢
                     rw [hB]
                     simp only [max_def] at hp ⊢
                     split_ifs at hp ⊢ <;> omega)
              refine ⟨A, hor, ?_⟩
              intro hfalse
              simp at hfalse
        · simp only [delete_go, if_neg hklt, if_neg hkgt]
          cases l with
          | nil =>
              cases r with
              | nil =>
                  refine ⟨rfl, Or.inr ?_, ?_⟩
                  · norm_num [real_height]
                  · intro hfalse
                    simp [delete_found] at hfalse
              | node rl rk rd rh rs rr =>
                  have hr0 : (0 : Int) ≤
                      real_height (ATree.node rl rk rd rh rs rr) :=
                    real_height_node_ge
                  refine ⟨hokr, Or.inr ?_, ?_⟩
                  · simp only [real_height] at hb2 hr0 ⊢
                    simp only [max_def] at hb2 hr0 ⊢
                    split_ifs at hb2 hr0 ⊢ <;> omega
                  · intro hfalse
                    simp [delete_found] at hfalse
          | node ll lk ld lh ls lr =>
              have hl0 : (0 : Int) ≤
                  real_height (ATree.node ll lk ld lh ls lr) :=
                real_height_node_ge
              cases r with
              | nil =>
                  refine ⟨hokl, Or.inr ?_, ?_⟩
                  · simp only [real_height] at hb1 hl0 ⊢
                    simp only [max_def] at hb1 hl0 ⊢
                    split_ifs at hb1 hl0 ⊢ <;> omega
                  · intro hfalse
                    simp [delete_found] at hfalse
              | node rl rk rd rh rs rr =>
                  have hr0 : (0 : Int) ≤
                      real_height (ATree.node rl rk rd rh rs rr) :=
                    real_height_node_ge
                  cases hdl : delete_leftmost (ATree.node rl rk rd rh rs rr) with
                  | none =>
                      rw [delete_leftmost_eq_none_iff] at hdl
                      exact absurd hdl (by simp)
                  | some v =>
                      obtain ⟨mk2, md2, r2⟩ := v
                      obtain ⟨hok2, hh2⟩ :=
                        delete_leftmost_spec _ hokr mk2 md2 r2 hdl
                      simp only [delete_found, hdl]
                      have hdb1 : real_height (ATree.node ll lk ld lh ls lr) -
                          real_height r2 ≤ 2 := by
                        rcases hh2 with hp | hp <;> omega
                      have hdb2 : real_height r2 -
                          real_height (ATree.node ll lk ld lh ls lr) ≤ 2 := by
                        rcases hh2 with hp | hp <;> omega
                      obtain ⟨A, B⟩ :=
                        delete_fixup_spec mk2 md2 ch cs hokl hok2 hdb1 hdb2
                      have hor : real_height (delete_fixup
                            (ATree.node (ATree.node ll lk ld lh ls lr)
                              mk2 md2 ch cs r2)) =
                          real_height (ATree.node (ATree.node ll lk ld lh ls lr)
                            ck cd ch cs (ATree.node rl rk rd rh rs rr)) ∨
                          real_height (delete_fixup
                            (ATree.node (ATree.node ll lk ld lh ls lr)
                              mk2 md2 ch cs r2)) =
                          real_height (ATree.node (ATree.node ll lk ld lh ls lr)
                            ck cd ch cs (ATree.node rl rk rd rh rs rr)) - 1 := by
                        have hT : real_height
                            (ATree.node (ATree.node ll lk ld lh ls lr)
                              ck cd ch cs (ATree.node rl rk rd rh rs rr)) =
                            1 + max (real_height (ATree.node ll lk ld lh ls lr))
                              (real_height (ATree.node rl rk rd rh rs rr)) := rfl
                        rcases B with hB | ⟨hB, hd⟩
                        · rcases hh2 with hp | hp <;>
                            (rw [hp] at hB
                             rw [hT, hB]
                             simp only [max_def]
                             split_ifs <;> first | exact Or.inl trivial | omega)
                        · rcases hd with hd | hd <;>
                            rcases hh2 with hp | hp <;>
                              (rw [hp] at hB hd
                               rw [hT, hB]
                               simp only [max_def]
                               split_ifs <;> first | exact Or.inl trivial | omega)
                      refine ⟨A, hor, ?_⟩
                      intro hfalse
                      simp at hfalse

theorem avl_ok_step {s : AVLState α β} (hok : avl_ok s.root = true)
    (op : Op α β) : avl_ok (step s op).root = true := by
  cases op with
  | ins k d =>
      simp only [step, insert]
      cases hins : insert_go k d s.root with
      | dup t' i => exact ((insert_go_spec k d s.root hok).1 t' i hins).1
      | ok t' st i => exact ((insert_go_spec k d s.root hok).2 t' st i hins).1
  | del k =>
      simp only [step, delete]
      exact (delete_go_spec k s.root hok).1

theorem avl_ok_run_aux :
    ∀ (ops : List (Op α β)) (s : AVLState α β), avl_ok s.root = true →
    avl_ok (List.foldl step s ops).root = true := by
  intro ops
  induction ops with
  | nil => intro s h; exact h
  | cons op rest ih => intro s h; exact ih (step s op) (avl_ok_step h op)

end AVLTree

namespace Traversal

variable {α β : Type} [DecidableEq α] [DecidableEq β]

theorem preorder_nr_go_spec :
    ∀ (fuel : Nat) (stack : List (BTree α β)),
    (∀ x ∈ stack, is_node x = true) →
    (stack.map size).sum < fuel →
    preorder_nr_go fuel stack = .ok ((stack.map preorder_rec).flatten) := by
  intro fuel
  induction fuel with
  | zero =>
      intro stack hn hf
      cases stack with
      | nil => rfl
      | cons t rest => exact absurd hf (Nat.not_lt_zero _)
  | succ n ih =>
      intro stack hn hf
      cases stack with
      | nil => rfl
      | cons t rest =>
          cases ht : t with
          | nil => exact absurd (hn t (by simp)) (by simp [ht, is_node])
          | node l k d r =>
              rw [preorder_nr_go]
              rw [ih ((if is_node l then [l] else []) ++
                  (if is_node r then [r] else []) ++ rest) ?_ ?_]
              · simp only [Except.ok.injEq]
                have hl : ((if is_node l then [l] else []).map
                    preorder_rec).flatten = preorder_rec l := by
                  cases l <;> simp [is_node, preorder_rec]
                have hr : ((if is_node r then [r] else []).map
                    preorder_rec).flatten = preorder_rec r := by
                  cases r <;> simp [is_node, preorder_rec]
                simp only [List.map_append, List.flatten_append]
                rw [hl, hr]
                simp [preorder_rec, List.append_assoc]
              · intro x hx
                simp only [List.mem_append] at hx
                rcases hx with (hx | hx) | hx
                · cases l with
                  | nil => simp [is_node] at hx
                  | node a b c e => simp [is_node] at hx; simp [hx, is_node]
                · cases r with
                  | nil => simp [is_node] at hx
                  | node a b c e => simp [is_node] at hx; simp [hx, is_node]
                · exact hn x (by simp [hx])
              · have h1 : ((if is_node l then [l] else []).map size).sum ≤ size l := by
                  cases l <;> simp [is_node]
                have h2 : ((if is_node r then [r] else []).map size).sum ≤ size r := by
                  cases r <;> simp [is_node]
                have h3 := hf
                rw [ht] at h3
                simp only [List.map_cons, List.sum_cons, size] at h3
                simp only [List.map_append, List.sum_append]
                omega
theorem inorder_nr_go_spec :
    ∀ (fuel : Nat) (t : BTree α β) (S : List (BTree α β))
      (out : List (α × β)) (w : Nat),
    InSt S out w → 3 * size t + 1 + w ≤ fuel →
    inorder_nr_go fuel t S = .ok (inorder_rec t ++ out) := by
  intro fuel
  induction fuel with
  | zero => intro t S out w _ hf; omega
  | succ n ih =>
      intro t S out w hS hf
      cases t with
      | node cl ck cd cr =>
          cases cr with
          | node rl rk rd rr =>
              simp only [inorder_nr_go]
              rw [ih cl _ _ _
                (InSt.pair cl ck cd (by simp [is_node]) hS)
                (by simp [size] at hf ⊢ <;> omega)]
              simp [inorder_rec, List.append_assoc]
          | nil =>
              simp only [inorder_nr_go]
              rw [ih cl _ _ _ (InSt.single cl ck cd hS)
                (by simp [size] at hf ⊢ <;> omega)]
              simp [inorder_rec]
      | nil =>
          cases hS with
          | nil => rfl
          | single cl ck cd hS0 =>
              simp only [inorder_nr_go]
              rw [ih .nil _ _ _ hS0 (by simp [size] at hf ⊢ <;> omega)]
              simp [inorder_rec]
          | pair cl ck cd hcr hS0 =>
              rename_i cr S0 out0 w0
              cases cr with
              | nil => simp [is_node] at hcr
              | node rl rk rd rr =>
                  simp only [inorder_nr_go, if_pos rfl]
                  rw [ih (BTree.node rl rk rd rr) _ _ _ hS0
                    (by simp [size] at hf ⊢ <;> omega)]
                  simp [inorder_rec]

theorem mirror_mirror (t : BTree α β) : mirror (mirror t) = t := by
  induction t with
  | nil => rfl
  | node l k d r ihl ihr => simp [mirror, ihl, ihr]

theorem mirror_inj {s t : BTree α β} (h : mirror s = mirror t) : s = t := by
  have := congrArg mirror h
  simpa [mirror_mirror] using this

theorem size_mirror (t : BTree α β) : size (mirror t) = size t := by
  induction t with
  | nil => rfl
  | node l k d r ihl ihr => simp [mirror, size, ihl, ihr]; omega

theorem is_node_mirror (t : BTree α β) : is_node (mirror t) = is_node t := by
  cases t <;> rfl

theorem reverse_inorder_rec_mirror (t : BTree α β) :
    reverse_inorder_rec t = inorder_rec (mirror t) := by
  induction t with
  | nil => rfl
  | node l k d r ihl ihr =>
      simp [reverse_inorder_rec, inorder_rec, mirror, ihl, ihr]

theorem reverse_inorder_nr_go_mirror :
    ∀ (fuel : Nat) (t : BTree α β) (S : List (BTree α β)),
    reverse_inorder_nr_go fuel t S = inorder_nr_go fuel (mirror t) (S.map mirror) := by
  intro fuel
  induction fuel with
  | zero => intro t S; rfl
  | succ n ih =>
      intro t S
      cases t with
      | node cl ck cd cr =>
          cases cl with
          | node ll lk ld lr =>
              simp only [reverse_inorder_nr_go, mirror, inorder_nr_go, ih]
              simp [mirror]
          | nil =>
              simp only [reverse_inorder_nr_go, mirror, inorder_nr_go, ih]
              simp [mirror]
      | nil =>
          cases S with
          | nil => rfl
          | cons c rest =>
              cases c with
              | nil => rfl
              | node cl ck cd cr =>
                  cases cl with
                  | nil =>
                      simp only [reverse_inorder_nr_go, List.map_cons, mirror,
                        inorder_nr_go, ih]
                  | node ll lk ld lr =>
                      cases rest with
                      | nil =>
                          simp only [reverse_inorder_nr_go, List.map_cons,
                            List.map_nil, mirror, inorder_nr_go, ih]
                      | cons top rest2 =>
                          by_cases htop : BTree.node ll lk ld lr = top
                          · subst htop
                            simp only [reverse_inorder_nr_go, List.map_cons,
                              mirror, inorder_nr_go, ih]
                          · have hm : mirror (BTree.node ll lk ld lr) ≠ mirror top :=
                              fun h => htop (mirror_inj h)
                            simp only [reverse_inorder_nr_go, List.map_cons,
                              mirror, inorder_nr_go, ih]
                            rw [if_neg htop, if_neg (by simpa [mirror] using hm)]

theorem pst_head_pos {S : List (BTree α β)} {out : List (α × β)} {w : Nat}
    (h : PSt S out w) : ∀ x ∈ S.head?, 0 < size x := by
  cases h with
  | nil => intro x hx; simp at hx
  | single cl ck cd h0 => intro x hx; simp at hx; subst hx; simp [size] <;> omega
  | swapped cl ck cd hcr hhd h0 =>
      intro x hx; simp at hx; subst hx; simp [size] <;> omega
  | pair cl ck cd hcr hhd h0 =>
      intro x hx; simp at hx; subst hx; simp [size] <;> omega

theorem postorder_nr_go_spec :
    ∀ (fuel : Nat) (t : BTree α β) (S : List (BTree α β))
      (out : List (α × β)) (w : Nat),
    PSt S out w →
    (∀ x ∈ S.head?, size t < size x) →
    4 * size t + 1 + w ≤ fuel →
    postorder_nr_go fuel t S = .ok (postorder_rec t ++ out) := by
  intro fuel
  induction fuel with
  | zero => intro t S out w _ _ hf; omega
  | succ n ih =>
      intro t S out w hS hhd hf
      cases t with
      | node cl ck cd cr =>
          cases cr with
          | node rl rk rd rr =>
              simp only [postorder_nr_go]
              rw [ih cl _ _ _
                (PSt.pair cl ck cd (by simp [is_node]) hhd hS)
                (by intro x hx; simp at hx; subst hx; simp [size] <;> omega)
                (by simp [size] at hf ⊢ <;> omega)]
              simp [postorder_rec, List.append_assoc]
          | nil =>
              cases cl with
              | node ll lk ld lr =>
                  simp only [postorder_nr_go]
                  rw [ih (BTree.node ll lk ld lr) _ _ _
                    (PSt.single (BTree.node ll lk ld lr) ck cd hS)
                    (by intro x hx; simp at hx; subst hx; simp [size] <;> omega)
                    (by simp [size] at hf ⊢ <;> omega)]
                  simp [postorder_rec]
              | nil =>
                  simp only [postorder_nr_go]
                  rw [ih .nil _ _ _ hS (pst_head_pos hS)
                    (by simp [size] at hf ⊢ <;> omega)]
                  simp [postorder_rec]
      | nil =>
          cases hS with
          | nil => rfl
          | single cl ck cd hS0 =>
              simp only [postorder_nr_go]
              rw [ih .nil _ _ _ hS0 (pst_head_pos hS0)
                (by simp [size] at hf ⊢ <;> omega)]
              simp [postorder_rec]
          | swapped cl ck cd hcr hhd0 hS0 =>
              rename_i cr S0 out0 w0
              cases cr with
              | nil => simp [is_node] at hcr
              | node rl rk rd rr =>
                  cases S0 with
                  | nil =>
                      cases hS0 with
                      | nil => rfl
                  | cons top rest2 =>
                      have hne : BTree.node rl rk rd rr ≠ top := by
                        intro he
                        have := hhd0 top (by simp)
                        rw [← he] at this
                        simp [size] at this <;> omega
                      simp only [postorder_nr_go, if_neg hne]
                      rw [ih .nil _ _ _ hS0 (pst_head_pos hS0)
                        (by simp [size] at hf ⊢ <;> omega)]
                      simp [postorder_rec]
          | pair cl ck cd hcr hhd0 hS0 =>
              rename_i cr S0 out0 w0
              cases cr with
              | nil => simp [is_node] at hcr
              | node rl rk rd rr =>
                  simp only [postorder_nr_go, if_pos rfl]
                  rw [ih (BTree.node rl rk rd rr) _ _ _
                    (PSt.swapped cl ck cd hcr hhd0 hS0)
                    (by intro x hx; simp at hx; subst hx; simp [size] <;> omega)
                    (by simp [size] at hf ⊢ <;> omega)]
                  simp [postorder_rec]

end Traversal

/-- C6: after inserting the keys `[23,4,30,11,7,34,20,24,22,15,1]` in that
order into an empty AVL tree, `get_height(root)` is `3`,
`get_leftmost(root)` holds key `1`, `get_rightmost(root)` holds key `34`,
and the in-order traversal yields the keys in ascending sorted order.
(The data payload stored with each key is the key itself.) -/
theorem c6_avl_scenario :
    AVLTree.get_height
        (AVLTree.run (([23,4,30,11,7,34,20,24,22,15,1] : List Nat).map
          (fun k => Op.ins k k))).root = 3 ∧
    AVLTree.get_leftmost
        (AVLTree.run (([23,4,30,11,7,34,20,24,22,15,1] : List Nat).map
          (fun k => Op.ins k k))).root = some (1, 1) ∧
    AVLTree.get_rightmost
        (AVLTree.run (([23,4,30,11,7,34,20,24,22,15,1] : List Nat).map
          (fun k => Op.ins k k))).root = some (34, 34) ∧
    AVLTree.inorder
        (AVLTree.run (([23,4,30,11,7,34,20,24,22,15,1] : List Nat).map
          (fun k => Op.ins k k))).root =
      ([1,4,7,11,15,20,22,23,24,30,34] : List Nat).map (fun k => (k, k)) := by
  refine ⟨by decide, by decide, by decide, by decide⟩

/-- C1: the Red-Black invariants do *not* survive every insert/delete
sequence.  Inserting `1, 2, 3, 4` yields a valid Red-Black tree, but then
deleting `1` — a BLACK node whose replacement is a NIL leaf — leaves a
tree whose root-to-NIL paths disagree on their BLACK-node counts, because
`RBTree.delete` skips `_delete_fixup` whenever the replacement is the
`Leaf` sentinel (the `isinstance(replacing_node, Node)` guards at
red_black_tree.py lines 248, 262, 303), while the spec requires the fixup
to run from the NIL position. -/
theorem c1_black_height_broken_by_delete :
    RBTree.rb_ok (RBTree.run (([1,2,3,4] : List Nat).map (fun k => Op.ins k k)))
      = true ∧
    RBTree.black_height
        (RBTree.run (([1,2,3,4] : List Nat).map (fun k => Op.ins k k)
          ++ [Op.del 1])) = none ∧
    RBTree.rb_ok
        (RBTree.run (([1,2,3,4] : List Nat).map (fun k => Op.ins k k)
          ++ [Op.del 1])) = false := by
  refine ⟨by decide, by decide, by decide⟩

/-- C5: traversal entry points do *not* all tolerate the empty tree.  The
recursive generators yield the empty sequence, but `levelorder_traverse`
puts the `None` root in its queue and dereferences `temp.key`
(traversal.py line 256, an `AttributeError`), and every non-recursive
routine executes `raise StopIteration` inside a generator (lines 280, 344,
401, 429), which PEP 479 turns into a `RuntimeError`; both are modeled by
the `error` result. -/
theorem c5_empty_tree_traversals_raise :
    Traversal.inorder_rec (BTree.nil : BTree Nat Nat) = [] ∧
    Traversal.preorder_rec (BTree.nil : BTree Nat Nat) = [] ∧
    Traversal.postorder_rec (BTree.nil : BTree Nat Nat) = [] ∧
    Traversal.reverse_inorder_rec (BTree.nil : BTree Nat Nat) = [] ∧
    Traversal.levelorder_traverse (BTree.nil : BTree Nat Nat) = .error () ∧
    Traversal.inorder_nr (BTree.nil : BTree Nat Nat) = .error () ∧
    Traversal.reverse_inorder_nr (BTree.nil : BTree Nat Nat) = .error () ∧
    Traversal.preorder_nr (BTree.nil : BTree Nat Nat) = .error () ∧
    Traversal.postorder_nr (BTree.nil : BTree Nat Nat) = .error () :=
  ⟨rfl, rfl, rfl, rfl, rfl, rfl, rfl, rfl, rfl⟩


/-- C10: on every non-empty supported tree, each explicit-stack traversal
of traversal.py yields exactly the same (key, value) sequence as its
recursive counterpart: `inorder_traverse`, `reverse_inorder_traverse`,
`preorder_traverse` and `postorder_traverse` with `recursive=False` agree
with `recursive=True`. -/
theorem c10_nonrecursive_traversals_agree {α β : Type} [DecidableEq α]
    [DecidableEq β] (l : BTree α β) (k : α) (d : β) (r : BTree α β) :
    Traversal.inorder_nr (BTree.node l k d r) =
        .ok (Traversal.inorder_rec (BTree.node l k d r)) ∧
    Traversal.reverse_inorder_nr (BTree.node l k d r) =
        .ok (Traversal.reverse_inorder_rec (BTree.node l k d r)) ∧
    Traversal.preorder_nr (BTree.node l k d r) =
        .ok (Traversal.preorder_rec (BTree.node l k d r)) ∧
    Traversal.postorder_nr (BTree.node l k d r) =
        .ok (Traversal.postorder_rec (BTree.node l k d r)) := by
  refine ⟨?_, ?_, ?_, ?_⟩
  · cases r with
    | nil =>
        have hSt : Traversal.InSt [BTree.node l k d BTree.nil]
            ((k, d) :: []) (0 + 1) :=
          Traversal.InSt.single l k d Traversal.InSt.nil
        rw [show Traversal.inorder_nr (BTree.node l k d BTree.nil) =
            Traversal.inorder_nr_go
              (4 * Traversal.size (BTree.node l k d BTree.nil) + 5) l
              [BTree.node l k d BTree.nil] from rfl,
          Traversal.inorder_nr_go_spec _ l _ _ _ hSt
            (by simp [Traversal.size] <;> omega)]
        simp [Traversal.inorder_rec]
    | node rl rk rd rr =>
        have hSt : Traversal.InSt
            [BTree.node l k d (BTree.node rl rk rd rr), BTree.node rl rk rd rr]
            ((k, d) :: (Traversal.inorder_rec (BTree.node rl rk rd rr) ++ []))
            (0 + (3 * Traversal.size (BTree.node rl rk rd rr) + 2)) :=
          Traversal.InSt.pair l k d rfl Traversal.InSt.nil
        rw [show Traversal.inorder_nr (BTree.node l k d (BTree.node rl rk rd rr)) =
            Traversal.inorder_nr_go
              (4 * Traversal.size (BTree.node l k d (BTree.node rl rk rd rr)) + 5) l
              [BTree.node l k d (BTree.node rl rk rd rr), BTree.node rl rk rd rr]
            from rfl,
          Traversal.inorder_nr_go_spec _ l _ _ _ hSt
            (by simp [Traversal.size] <;> omega)]
        simp [Traversal.inorder_rec]
  · cases l with
    | nil =>
        rw [show Traversal.reverse_inorder_nr (BTree.node BTree.nil k d r) =
            Traversal.reverse_inorder_nr_go
              (4 * Traversal.size (BTree.node BTree.nil k d r) + 5) r
              [BTree.node BTree.nil k d r] from rfl,
          Traversal.reverse_inorder_nr_go_mirror]
        simp only [List.map_cons, List.map_nil, Traversal.mirror]
        have hSt : Traversal.InSt [BTree.node (Traversal.mirror r) k d BTree.nil]
            ((k, d) :: []) (0 + 1) :=
          Traversal.InSt.single (Traversal.mirror r) k d Traversal.InSt.nil
        rw [Traversal.inorder_nr_go_spec _ (Traversal.mirror r) _ _ _ hSt
          (by simp [Traversal.size, Traversal.size_mirror] <;> omega)]
        simp [Traversal.reverse_inorder_rec_mirror, Traversal.mirror,
          Traversal.inorder_rec]
    | node ll lk ld lr =>
        rw [show Traversal.reverse_inorder_nr
              (BTree.node (BTree.node ll lk ld lr) k d r) =
            Traversal.reverse_inorder_nr_go
              (4 * Traversal.size (BTree.node (BTree.node ll lk ld lr) k d r) + 5) r
              [BTree.node (BTree.node ll lk ld lr) k d r, BTree.node ll lk ld lr]
            from rfl,
          Traversal.reverse_inorder_nr_go_mirror]
        simp only [List.map_cons, List.map_nil, Traversal.mirror]
        have hSt : Traversal.InSt
            [BTree.node (Traversal.mirror r) k d
                (BTree.node (Traversal.mirror lr) lk ld (Traversal.mirror ll)),
              BTree.node (Traversal.mirror lr) lk ld (Traversal.mirror ll)]
            ((k, d) :: (Traversal.inorder_rec
                (BTree.node (Traversal.mirror lr) lk ld (Traversal.mirror ll)) ++ []))
            (0 + (3 * Traversal.size
                (BTree.node (Traversal.mirror lr) lk ld (Traversal.mirror ll)) + 2)) :=
          Traversal.InSt.pair (Traversal.mirror r) k d rfl Traversal.InSt.nil
        rw [Traversal.inorder_nr_go_spec _ (Traversal.mirror r) _ _ _ hSt
          (by simp [Traversal.size, Traversal.size_mirror] <;> omega)]
        simp [Traversal.reverse_inorder_rec_mirror, Traversal.mirror,
          Traversal.inorder_rec]
  · rw [show Traversal.preorder_nr (BTree.node l k d r) =
        Traversal.preorder_nr_go (Traversal.size (BTree.node l k d r) + 1)
          [BTree.node l k d r] from rfl,
      Traversal.preorder_nr_go_spec _ [BTree.node l k d r]
        (by intro x hx; simp at hx; subst hx; rfl)
        (by simp)]
    simp
  · cases r with
    | nil =>
        have hSt : Traversal.PSt [BTree.node l k d BTree.nil]
            ((k, d) :: []) (0 + 1) :=
          Traversal.PSt.single l k d Traversal.PSt.nil
        rw [show Traversal.postorder_nr (BTree.node l k d BTree.nil) =
            Traversal.postorder_nr_go
              (4 * Traversal.size (BTree.node l k d BTree.nil) + 5) l
              [BTree.node l k d BTree.nil] from rfl,
          Traversal.postorder_nr_go_spec _ l _ _ _ hSt
            (by intro x hx; simp at hx; subst hx; simp [Traversal.size] <;> omega)
            (by simp [Traversal.size] <;> omega)]
        simp [Traversal.postorder_rec]
    | node rl rk rd rr =>
        have hSt : Traversal.PSt
            [BTree.node l k d (BTree.node rl rk rd rr), BTree.node rl rk rd rr]
            (Traversal.postorder_rec (BTree.node rl rk rd rr) ++ (k, d) :: [])
            (0 + (4 * Traversal.size (BTree.node rl rk rd rr) + 3)) :=
          Traversal.PSt.pair l k d rfl (by intro x hx; simp at hx)
            Traversal.PSt.nil
        rw [show Traversal.postorder_nr (BTree.node l k d (BTree.node rl rk rd rr)) =
            Traversal.postorder_nr_go
              (4 * Traversal.size (BTree.node l k d (BTree.node rl rk rd rr)) + 5) l
              [BTree.node l k d (BTree.node rl rk rd rr), BTree.node rl rk rd rr]
            from rfl,
          Traversal.postorder_nr_go_spec _ l _ _ _ hSt
            (by intro x hx; simp at hx; subst hx; simp [Traversal.size] <;> omega)
            (by simp [Traversal.size] <;> omega)]
        simp [Traversal.postorder_rec, List.append_assoc]

/-- C8: on a tree with sorted (strictly ascending) in-order keys — as all
trees built by either engine are — `get_successor` applied to the node at
any root-to-node path returns the entry of the next-larger key (the first
in-order entry with a larger key; `None` exactly when the node holds the
largest key), and `get_predecessor` returns the entry of the next-smaller
key (the last in-order entry with a smaller key; `None` exactly when the
node holds the smallest key), for both engines. -/
theorem c8_successor_predecessor {α β : Type} [LinearOrder α]
    (s : ATree α β) (t : RTree α β) (p q : List Dir)
    (al : ATree α β) (ak : α) (ad : β) (ah : Int) (asz : Nat) (ar : ATree α β)
    (rc : Color) (rl : RTree α β) (rk : α) (rd : β) (rr : RTree α β)
    (hs : ListModel.SortedKeys (AVLTree.inorder s))
    (ht : ListModel.SortedKeys (RBTree.inorder t))
    (hp : AVLTree.node_at s p = some (ATree.node al ak ad ah asz ar))
    (hq : RBTree.node_at t q = some (RTree.node rc rl rk rd rr)) :
    AVLTree.get_successor s p =
        (AVLTree.inorder s).find? (fun e => decide (ak < e.1)) ∧
    AVLTree.get_predecessor s p =
        (AVLTree.inorder s).reverse.find? (fun e => decide (e.1 < ak)) ∧
    RBTree.get_successor t q =
        (RBTree.inorder t).find? (fun e => decide (rk < e.1)) ∧
    RBTree.get_predecessor t q =
        (RBTree.inorder t).reverse.find? (fun e => decide (e.1 < rk)) := by
  have hsf : ListModel.SortedKeys (Traversal.inorder_rec (ATree.forget s)) := by
    rw [AVLTree.inorder_forget]; exact hs
  have htf : ListModel.SortedKeys (Traversal.inorder_rec (RTree.forget t)) := by
    rw [RBTree.rb_inorder_forget]; exact ht
  have hpf : BTree.node_at (ATree.forget s) p =
      some (BTree.node (ATree.forget al) ak ad (ATree.forget ar)) := by
    rw [AVLTree.node_at_forget, hp]; rfl
  have hqf : BTree.node_at (RTree.forget t) q =
      some (BTree.node (RTree.forget rl) rk rd (RTree.forget rr)) := by
    rw [RBTree.rb_node_at_forget, hq]; rfl
  refine ⟨?_, ?_, ?_, ?_⟩
  · rw [← AVLTree.get_successor_forget, ← AVLTree.inorder_forget]
    exact BTree.get_successor_spec (ATree.forget s) p _ ak ad _ hsf hpf
  · rw [← AVLTree.get_predecessor_forget, ← AVLTree.inorder_forget]
    exact BTree.get_predecessor_spec (ATree.forget s) p _ ak ad _ hsf hpf
  · rw [← RBTree.rb_get_successor_forget, ← RBTree.rb_inorder_forget]
    exact BTree.get_successor_spec (RTree.forget t) q _ rk rd _ htf hqf
  · rw [← RBTree.rb_get_predecessor_forget, ← RBTree.rb_inorder_forget]
    exact BTree.get_predecessor_spec (RTree.forget t) q _ rk rd _ htf hqf

/-- Witness for C8 at a concrete input: the three-key trees {1, 2, 3} on
both engines, querying the AVL node holding 1 and the RB node holding 3. -/
theorem c8_successor_predecessor_witness :
    AVLTree.get_successor
        (ATree.node (ATree.node .nil 1 10 0 1 .nil) 2 20 1 3
          (ATree.node .nil 3 30 0 1 .nil) : ATree Nat Nat) [Dir.left] =
      (AVLTree.inorder
        (ATree.node (ATree.node .nil 1 10 0 1 .nil) 2 20 1 3
          (ATree.node .nil 3 30 0 1 .nil) : ATree Nat Nat)).find?
        (fun e => decide (1 < e.1)) ∧
    AVLTree.get_predecessor
        (ATree.node (ATree.node .nil 1 10 0 1 .nil) 2 20 1 3
          (ATree.node .nil 3 30 0 1 .nil) : ATree Nat Nat) [Dir.left] =
      (AVLTree.inorder
        (ATree.node (ATree.node .nil 1 10 0 1 .nil) 2 20 1 3
          (ATree.node .nil 3 30 0 1 .nil) : ATree Nat Nat)).reverse.find?
        (fun e => decide (e.1 < 1)) ∧
    RBTree.get_successor
        (RTree.node .black (RTree.node .red .nil 1 10 .nil) 2 20
          (RTree.node .red .nil 3 30 .nil) : RTree Nat Nat) [Dir.right] =
      (RBTree.inorder
        (RTree.node .black (RTree.node .red .nil 1 10 .nil) 2 20
          (RTree.node .red .nil 3 30 .nil) : RTree Nat Nat)).find?
        (fun e => decide (3 < e.1)) ∧
    RBTree.get_predecessor
        (RTree.node .black (RTree.node .red .nil 1 10 .nil) 2 20
          (RTree.node .red .nil 3 30 .nil) : RTree Nat Nat) [Dir.right] =
      (RBTree.inorder
        (RTree.node .black (RTree.node .red .nil 1 10 .nil) 2 20
          (RTree.node .red .nil 3 30 .nil) : RTree Nat Nat)).reverse.find?
        (fun e => decide (e.1 < 3)) :=
  c8_successor_predecessor
    (ATree.node (ATree.node .nil 1 10 0 1 .nil) 2 20 1 3
      (ATree.node .nil 3 30 0 1 .nil))
    (RTree.node .black (RTree.node .red .nil 1 10 .nil) 2 20
      (RTree.node .red .nil 3 30 .nil))
    [Dir.left] [Dir.right] .nil 1 10 0 1 .nil .red .nil 3 30 .nil
    (by unfold ListModel.SortedKeys; decide)
    (by unfold ListModel.SortedKeys; decide) rfl rfl

/-- C3: every AVL tree reachable from a fresh `AVLTree()` by any sequence
of `insert`/`delete` calls satisfies the balance invariant: at every
reachable node the true heights of the two children (with `-1` for an
absent child) differ by at most one, and every node's stored `height`
field equals the true height of its subtree — the recursive check
`avl_ok`. -/
theorem c3_avl_balance_invariant {α β : Type} [LinearOrder α]
    (ops : List (Op α β)) :
    AVLTree.avl_ok (AVLTree.run ops).root = true :=
  AVLTree.avl_ok_run_aux ops AVLTree.empty rfl

/-- C4: every tree reachable from the empty tree by any sequence of
`insert`/`delete` calls — on either engine — has an in-order traversal
with strictly ascending keys (the BST ordering invariant). -/
theorem c4_bst_order_invariant {α β : Type} [LinearOrder α]
    (ops : List (Op α β)) :
    ListModel.SortedKeys (AVLTree.inorder (AVLTree.run ops).root) ∧
    ListModel.SortedKeys (RBTree.inorder (RBTree.run ops)) := by
  obtain ⟨h1, h2⟩ := AVLTree.inorder_run_model ops
  exact ⟨by rw [h1]; exact h2, by rw [RBTree.rb_inorder_run_model]; exact h2⟩

/-- C7: applying the same operation sequence to an empty AVL tree and an
empty Red-Black tree yields identical in-order (key, value) sequences —
both equal the sorted-association-list semantics of the sequence. -/
theorem c7_cross_engine_agreement {α β : Type} [LinearOrder α]
    (ops : List (Op α β)) :
    AVLTree.inorder (AVLTree.run ops).root = RBTree.inorder (RBTree.run ops) := by
  rw [(AVLTree.inorder_run_model ops).1, RBTree.rb_inorder_run_model]

/-- C9: deleting a key that is not present leaves either tree exactly
unchanged and raises nothing — `AVLTree.delete` finds no node and returns
with no mutation (avl_tree.py line 218's walrus test fails), and
`RBTree.delete`'s search reaches only the sentinel (red_black_tree.py
line 233). -/
theorem c9_delete_absent_noop {α β : Type} [LinearOrder α]
    (s : AVLState α β) (t : RTree α β) (k k' : α)
    (h1 : ListModel.hasKey k (AVLTree.inorder s.root) = false)
    (h2 : ListModel.hasKey k' (RBTree.inorder t) = false) :
    AVLTree.delete s k = s ∧ RBTree.delete t k' = t := by
  constructor
  · rw [AVLTree.delete, AVLTree.delete_go_not_found h1]
  · exact RBTree.delete_not_found h2

/-- Witness for C9 at a concrete input: the tree holding keys 2 and 1,
deleting the absent key 999. -/
theorem c9_delete_absent_noop_witness :
    AVLTree.delete (AVLTree.run [Op.ins 2 2, Op.ins 1 1] : AVLState Nat Nat) 999 =
        AVLTree.run [Op.ins 2 2, Op.ins 1 1] ∧
      RBTree.delete (RBTree.run [Op.ins 2 2, Op.ins 1 1] : RTree Nat Nat) 999 =
        RBTree.run [Op.ins 2 2, Op.ins 1 1] :=
  c9_delete_absent_noop _ _ 999 999 (by decide) (by decide)

/-- C2 (amended): inserting an already-present key raises
`DuplicateKeyError` in both engines; the Red-Black tree is left fully
unmodified, and the AVL tree keeps every node's key, data, links and
stored height unchanged — but the AVL descent may still rewrite stored
`subtree_size` fields and add to the tree-level `inversion_count`
(avl_tree.py lines 174-183), so the AVL state is not exactly the state
before the call. -/
theorem c2_amended_duplicate_insert {α β : Type} [LinearOrder α]
    (s : AVLState α β) (t : RTree α β) (k : α) (d : β)
    (hsa : ListModel.SortedKeys (AVLTree.inorder s.root))
    (hka : ListModel.hasKey k (AVLTree.inorder s.root) = true)
    (hsr : ListModel.SortedKeys (RBTree.inorder t))
    (hkr : ListModel.hasKey k (RBTree.inorder t) = true) :
    RBTree.insert t k d = .dup k t ∧
    ∃ t' i, AVLTree.insert s k d = .dup k ⟨t', s.inversion_count + i⟩ ∧
      ATree.strip_sizes t' = ATree.strip_sizes s.root := by
  constructor
  · rw [RBTree.insert, RBTree.hasKey_insert_descend_none [] hsr hkr]
  · obtain ⟨t', i, hdup⟩ := AVLTree.insert_go_hasKey_dup d hsa hka
    refine ⟨t', i, ?_, AVLTree.insert_go_dup_strip hdup⟩
    rw [AVLTree.insert, hdup]

/-- Witness for the amended C2 at a concrete input: the trees holding
keys 2 and 1, re-inserting key 1. -/
theorem c2_amended_duplicate_insert_witness :
    RBTree.insert (RBTree.run [Op.ins 2 2, Op.ins 1 1] : RTree Nat Nat) 1 99 =
        .dup 1 (RBTree.run [Op.ins 2 2, Op.ins 1 1]) ∧
    ∃ t' i, AVLTree.insert (AVLTree.run [Op.ins 2 2, Op.ins 1 1] : AVLState Nat Nat) 1 99 =
        .dup 1 ⟨t', (AVLTree.run [Op.ins 2 2, Op.ins 1 1]).inversion_count + i⟩ ∧
      ATree.strip_sizes t' =
        ATree.strip_sizes (AVLTree.run [Op.ins 2 2, Op.ins 1 1]).root :=
  c2_amended_duplicate_insert _ _ 1 99
    (by unfold ListModel.SortedKeys; decide) (by decide)
    (by unfold ListModel.SortedKeys; decide) (by decide)

/-- C2 (counterexample): inserting a duplicate key does *not* leave the
whole AVL tree state unmodified.  After `insert(2, 2)` and `insert(1, 1)`
the instance has `inversion_count = 1`; the duplicate `insert(1, 99)`
raises `DuplicateKeyError` but has already executed the descent side
effects of avl_tree.py lines 174-183, leaving `inversion_count = 2` — a
tree-level field changed by the failing call (the node structure itself is
unchanged). -/
theorem c2_counterexample_inversion_count_changes :
    (AVLTree.run [Op.ins 2 2, Op.ins 1 1] : AVLState Nat Nat).inversion_count
      = 1 ∧
    AVLTree.insert (AVLTree.run [Op.ins 2 2, Op.ins 1 1] : AVLState Nat Nat)
        1 99 =
      .dup 1 ⟨(AVLTree.run [Op.ins 2 2, Op.ins 1 1]).root, 2⟩ := by
  refine ⟨by decide, by decide⟩

end Spec2Proof
